import Mathlib

/-!
# lambda-jit: parser and evaluator of `main.cpp`

A shallow embedding of the line parser (`Parser`, `parseExpr` and its helpers) and of the
tree-walking evaluator (`Environ`, the `operator()` of the five node classes and
`Lambda::apply`) of `src/main.cpp`, followed by theorems about them.

Modelling conventions.
* A `std::string` is a `List Char`; `str[i]` is `str.getD i nul`.
* `int` is an `Int` kept in the 32-bit two's-complement range by `wrapInt32`.
* Loops over the cursor carry a fuel equal to the number of unread characters, which is
  exactly what the loop can still consume.
* The mutually recursive parse functions and the evaluator recurse on an explicit fuel and
  return `none` when it runs out; more fuel never changes a result.
* A pointer to an AST node is the node itself, every `Lambda` carrying its address; the
  only mutable field of a node, `Lambda::env`, lives in the `Machine`, as do the `Environ`
  objects, which are referred to by their index.
-/

namespace jit

/-! ## Character classes -/

/-- The value `peek` returns at the end of the line (`0`). -/
def nul : Char := Char.ofNat 0

/-- `isNum`: `c >= '0' && c <= '9'`. -/
def isNum (c : Char) : Bool := decide ('0' ≤ c) && decide (c ≤ '9')

/-- `isNameChar`: `c >= 'A' && c <= 'Z' || c >= 'a' && c <= 'z'`. -/
def isNameChar (c : Char) : Bool :=
  (decide ('A' ≤ c) && decide (c ≤ 'Z')) || (decide ('a' ≤ c) && decide (c ≤ 'z'))

/-- The test of `skipSpace`: `c == ' ' || c == '\r' || c == '\n' || c == '\t'`. -/
def isSpace (c : Char) : Bool := c == ' ' || c == '\r' || c == '\n' || c == '\t'

/-! ## The scanner cursor -/

/-- `class Parser`: the line, its length, the cursor and the success flag. `errs` records
what `fail` writes to `std::cerr`: the message and the position, oldest first. -/
structure Parser where
  str : List Char
  length : Nat
  pos : Nat
  ok : Bool
  errs : List (String × Nat)
deriving DecidableEq, Repr

namespace Parser

/-- `Parser::Parser(std::string &s)`. -/
def init (s : List Char) : Parser :=
  { str := s, length := s.length, pos := 0, ok := true, errs := [] }

/-- `str[i]`. -/
def charAt (p : Parser) (i : Nat) : Char := p.str.getD i nul

/-- `Parser::peek`. -/
def peek (p : Parser) : Char := if p.pos < p.length then p.charAt p.pos else nul

/-- `Parser::advance`. -/
def advance (p : Parser) : Parser := { p with pos := p.pos + 1 }

/-- `Parser::finished`. -/
def finished (p : Parser) : Bool := decide (p.pos ≥ p.length)

/-- `Parser::fail`: writes `msg @pos` and clears the success flag. -/
def fail (p : Parser) (msg : String) : Parser :=
  { p with ok := false, errs := p.errs ++ [(msg, p.pos)] }

/-- The loop of `Parser::skipSpace`, from cursor `pos`. -/
def skipSpaceLoop (str : List Char) (length : Nat) : Nat → Nat → Nat
  | 0, pos => pos
  | fuel + 1, pos =>
    if pos < length then
      if isSpace (str.getD pos nul) then skipSpaceLoop str length fuel (pos + 1) else pos
    else pos

/-- `Parser::skipSpace`. -/
def skipSpace (p : Parser) : Parser :=
  { p with pos := skipSpaceLoop p.str p.length (p.length - p.pos) p.pos }

/-- `Parser::match(int c)`. -/
def matchChar (p : Parser) (c : Char) : Bool × Parser :=
  if p.pos < p.length ∧ p.charAt p.pos = c then
    (true, skipSpace { p with pos := p.pos + 1 })
  else (false, p)

/-- The comparison loop shared by `match(const std::string &)` and `matchId`:
`false` as soon as `s[i] != str[pos + i]`. -/
def sameAt (p : Parser) : List Char → Nat → Bool
  | [], _ => true
  | c :: s, i => if c ≠ p.charAt (p.pos + i) then false else sameAt p s (i + 1)

/-- `Parser::match(const std::string &s)`. -/
def matchStr (p : Parser) (s : List Char) : Bool × Parser :=
  let l := s.length
  if p.pos + l ≥ p.length then (false, p)
  else if !sameAt p s 0 then (false, p)
  else (true, skipSpace { p with pos := p.pos + l })

/-- `Parser::matchId(const std::string &s, bool advance)`. -/
def matchId (p : Parser) (s : List Char) (adv : Bool) : Bool × Parser :=
  let l := s.length
  if p.pos + l ≥ p.length then (false, p)
  else if !sameAt p s 0 then (false, p)
  else if p.pos + l + 1 < p.length ∧ !isNameChar (p.charAt (p.pos + l + 1)) then (false, p)
  else if adv then (true, skipSpace { p with pos := p.pos + l })
  else (true, p)

end Parser

/-! ## Expression nodes -/

/-- `class Ast` and its five subclasses. `α` is the type of the address a `Lambda` node is
known by: `Unit` for the tree the parser builds, `Nat` once the tree is loaded into the
evaluator. `Lambda::env` is not a field here; see `Machine`. -/
inductive Ast (α : Type) where
  | Num (num : Int)
  | Var (name : List Char)
  | Application (fn arg : Ast α)
  | Let (var : List Char) (value expr : Ast α)
  | Lambda (addr : α) (var : List Char) (expr : Ast α)
deriving DecidableEq, Repr

/-- The tree built by the parser. -/
abbrev Tree := Ast Unit

/-- A node as the evaluator sees it: every `Lambda` has an address. -/
abbrev Node := Ast Nat

/-! ## The parser -/

/-- Wrap-around of `int` arithmetic to 32 bits, two's complement. -/
def wrapInt32 (z : Int) : Int := (z + 2147483648) % 4294967296 - 2147483648

/-- The loop of `parseNum`: `while (isNum(c)) { x = x * 10 + (c - '0'); advance; c = peek }`. -/
def parseNumLoop : Nat → Int → Parser → Int × Parser
  | 0, x, p => (x, p)
  | fuel + 1, x, p =>
    if isNum p.peek then
      parseNumLoop fuel (wrapInt32 (x * 10 + ((p.peek.toNat : Int) - 48))) p.advance
    else (x, p)

/-- `parseNum`. -/
def parseNum (p : Parser) : Tree × Parser :=
  let r := parseNumLoop (p.length - p.pos) 0 p
  (Ast.Num r.1, r.2.skipSpace)

/-- The loop of `parseName`: `while (isNameChar(parser.peek())) parser.advance()`. -/
def parseNameLoop : Nat → Parser → Parser
  | 0, p => p
  | fuel + 1, p => if isNameChar p.peek then parseNameLoop fuel p.advance else p

/-- `parseName`: the name is `str[start, pos)`. -/
def parseName (p : Parser) : List Char × Parser :=
  let start := p.pos
  let q := parseNameLoop (p.length - p.pos) p
  ((q.str.drop start).take (q.pos - start), q.skipSpace)

/-- The last statement of the loop body of `parseExpr`: `ast = ast ? new Application(ast, arg) : arg`. -/
def extend (ast : Option Tree) (arg : Tree) : Tree :=
  match ast with
  | some f => Ast.Application f arg
  | none => arg

mutual

/-- `parseExpr`. The outer `Option` is `none` when the fuel runs out; the inner one is the
returned pointer, `none` for `NULL`. -/
def parseExpr : Nat → Parser → Option (Option Tree × Parser)
  | 0, _ => none
  | fuel + 1, p =>
    match parseExprLoop fuel none p with
    | none => none
    | some (none, q) => some (none, q.fail "Expected expression")
    | some (some ast, q) => some (some ast, q)

/-- The `while (!parser.finished())` loop of `parseExpr`, entered with the current value of
`ast`; returns `ast` and the cursor at the exit of the loop. A sub-parser returns `NULL`
only after a `fail`, so the loop has then been left by `if (!parser.ok()) break`; the last
case of each `match` on `arg` is not reached. -/
def parseExprLoop : Nat → Option Tree → Parser → Option (Option Tree × Parser)
  | 0, _, _ => none
  | fuel + 1, ast, p =>
    if p.finished then some (ast, p)
    else if isNum p.peek then
      let r := parseNum p
      if !r.2.ok then some (ast, r.2)
      else parseExprLoop fuel (some (extend ast r.1)) r.2
    else if isNameChar p.peek then
      if (p.matchId ['l', 'e', 't'] true).1 then
        match parseLet fuel (p.matchId ['l', 'e', 't'] true).2 with
        | none => none
        | some (arg, q) =>
          if !q.ok then some (ast, q)
          else match arg with
            | some a => parseExprLoop fuel (some (extend ast a)) q
            | none => some (ast, q)
      else if (p.matchId ['i', 'n'] false).1 then some (ast, (p.matchId ['i', 'n'] false).2)
      else
        let r := parseName (p.matchId ['i', 'n'] false).2
        if !r.2.ok then some (ast, r.2)
        else parseExprLoop fuel (some (extend ast (Ast.Var r.1))) r.2
    else if (p.matchChar '(').1 then
      match parseBracket fuel (p.matchChar '(').2 with
      | none => none
      | some (arg, q) =>
        if !q.ok then some (ast, q)
        else match arg with
          | some a => parseExprLoop fuel (some (extend ast a)) q
          | none => some (ast, q)
    else if (p.matchChar '\\').1 then
      match parseLambda fuel (p.matchChar '\\').2 with
      | none => none
      | some (arg, q) =>
        if !q.ok then some (ast, q)
        else match arg with
          | some a => parseExprLoop fuel (some (extend ast a)) q
          | none => some (ast, q)
    else some (ast, p)

/-- `parseBracket`. -/
def parseBracket : Nat → Parser → Option (Option Tree × Parser)
  | 0, _ => none
  | fuel + 1, p =>
    match parseExpr fuel p with
    | none => none
    | some (ret, q) =>
      if !q.ok then some (none, q)
      else if !(q.matchChar ')').1 then some (none, (q.matchChar ')').2.fail "Expected ')'")
      else some (ret, (q.matchChar ')').2.skipSpace)

/-- `parseLet`. -/
def parseLet : Nat → Parser → Option (Option Tree × Parser)
  | 0, _ => none
  | fuel + 1, p =>
    if !isNameChar p.peek then some (none, p.fail "Let expected identifier")
    else
      let n := parseName p
      if !(n.2.matchChar '=').1 then some (none, (n.2.matchChar '=').2.fail "Let expected '='")
      else
        match parseExpr fuel (n.2.matchChar '=').2 with
        | none => none
        | some (val, q) =>
          if !q.ok then some (none, q.fail "Let expected expression")
          else if !(q.matchId ['i', 'n'] true).1 then
            some (none, (q.matchId ['i', 'n'] true).2.fail "Let expected in")
          else
            match parseExpr fuel (q.matchId ['i', 'n'] true).2 with
            | none => none
            | some (expr, q2) =>
              if !q2.ok then some (none, q2.fail "Let expected in-expression")
              else match val, expr with
                | some v, some e => some (some (Ast.Let n.1 v e), q2)
                | _, _ => some (none, q2)

/-- `parseLambda`. When the body fails to parse, the source returns a `Lambda` whose body
is `NULL`; the flag is cleared by then and no caller looks at the pointer, which is `none`
here. -/
def parseLambda : Nat → Parser → Option (Option Tree × Parser)
  | 0, _ => none
  | fuel + 1, p =>
    if !isNameChar p.peek then some (none, p.fail "Lambda expected identifier")
    else
      let n := parseName p
      if !(n.2.matchStr ['-', '>']).1 then
        some (none, (n.2.matchStr ['-', '>']).2.fail "Lambda expected ->")
      else
        match parseExpr fuel (n.2.matchStr ['-', '>']).2 with
        | none => none
        | some (none, q) => some (none, q)
        | some (some e, q) => some (some (Ast.Lambda () n.1 e), q)

end

/-- The first two statements of the loop body of `main`: `Parser parser(prog);
Ast *ast = parseExpr(parser);`, the parser being given `fuel`. -/
def parseLine (fuel : Nat) (s : List Char) : Option (Option Tree × Parser) :=
  parseExpr fuel (Parser.init s)

/-! ## Environments -/

/-- The `std::deque` of `class Environ`: (name, node) pairs, front first. -/
abbrev Environ := List (List Char × Node)

namespace Environ

/-- `Environ::put`: `list.push_front`. -/
def put (env : Environ) (key : List Char) (ast : Node) : Environ := (key, ast) :: env

/-- `Environ::get`: the node of the first pair whose name compares equal to `key`;
`none` is `ok = false` with a null result. -/
def get : Environ → List Char → Option Node
  | [], _ => none
  | (k, v) :: rest, key => if key = k then some v else get rest key

/-- `Environ::unput`: `list.pop_front`. On an empty deque the source has no defined
behaviour; here the empty list is left as it is. -/
def unput (env : Environ) : Environ := env.tail

/-- `Environ::Environ(Environ &env)`: the pairs are copied in order, the nodes shared. -/
def copy (env : Environ) : Environ := env.map (fun pr => (pr.1, pr.2))

end Environ

/-! ## The evaluator -/

/-- What the evaluator writes to `std::cerr`. -/
inductive EvalError where
  | variableNotFound (name : List Char)
  | cannotApply
  | noEnvironment
deriving DecidableEq, Repr

/-- The mutable state of an evaluation: the `Environ` objects allocated so far (an
`Environ &` or `Environ *` is an index into `envs`), the `env` field of every `Lambda`
node that has one (by address, the latest assignment first), and the diagnostics. -/
structure Machine where
  envs : List Environ
  captured : List (Nat × Nat)
  log : List EvalError
deriving DecidableEq, Repr

namespace Machine

/-- The `Environ` object behind a reference. -/
def env (m : Machine) (r : Nat) : Environ := m.envs.getD r []

/-- `Lambda::env` of the node at `addr`; `none` is the null pointer. -/
def envOf (m : Machine) (addr : Nat) : Option Nat := m.captured.lookup addr

/-- `env.put(key, ast)` on the object `r`. -/
def put (m : Machine) (r : Nat) (key : List Char) (ast : Node) : Machine :=
  { m with envs := m.envs.set r ((m.env r).put key ast) }

/-- `env.unput()` on the object `r`. -/
def unput (m : Machine) (r : Nat) : Machine :=
  { m with envs := m.envs.set r (m.env r).unput }

/-- `env = new Environ(_env)` in the `Lambda` at `addr`: a new object, a copy of `r`. -/
def capture (m : Machine) (addr r : Nat) : Machine :=
  { m with envs := m.envs ++ [(m.env r).copy], captured := (addr, m.envs.length) :: m.captured }

/-- A line written to `std::cerr`. -/
def report (m : Machine) (e : EvalError) : Machine := { m with log := m.log ++ [e] }

/-- The state in which `main` starts an evaluation: the one object `Environ env;`. -/
def fresh : Machine := { envs := [[]], captured := [], log := [] }

end Machine

/-- The result of `operator()`: the returned pointer (`none` for `NULL`) and the flag `ok`. -/
structure Outcome where
  ret : Option Node
  ok : Bool
deriving DecidableEq, Repr

mutual

/-- The virtual `operator()(Environ &env, bool &ok)` of the five node classes, on the
environment object `e`. `none` when the fuel runs out. -/
def reduce : Nat → Node → Nat → Machine → Option (Outcome × Machine)
  | 0, _, _, _ => none
  | _ + 1, Ast.Num n, _, m => some (⟨some (Ast.Num n), true⟩, m)
  | _ + 1, Ast.Var name, e, m =>
    match (m.env e).get name with
    | some v => some (⟨some v, true⟩, m)
    | none => some (⟨none, false⟩, m.report (EvalError.variableNotFound name))
  | fuel + 1, Ast.Application fn arg, e, m =>
    match reduce fuel fn e m with
    | none => none
    | some (r, m1) =>
      if !r.ok then some (⟨none, r.ok⟩, m1)
      else match r.ret with
        | some (Ast.Lambda addr var expr) => apply fuel addr var expr e arg m1
        | _ => some (⟨none, false⟩, m1.report EvalError.cannotApply)
  | fuel + 1, Ast.Let var value expr, e, m =>
    match reduce fuel value e m with
    | none => none
    | some (r, m1) =>
      if !r.ok then some (⟨none, r.ok⟩, m1)
      else match reduce fuel expr e (m1.put e var value) with
        | none => none
        | some (r2, m2) => some (r2, m2.unput e)
  | _ + 1, Ast.Lambda addr var expr, e, m =>
    some (⟨some (Ast.Lambda addr var expr), true⟩, m.capture addr e)

/-- `Lambda::apply(Environ &_env, bool &ok, Ast *arg)` of the `Lambda` at `addr` with
parameter `var` and body `expr`. The field `env` is read again at `env->put`, at
`*env` and at `env->unput`; it is never reset to null once set, so the default of `getD`
is not used. -/
def apply : Nat → Nat → List Char → Node → Nat → Node → Machine → Option (Outcome × Machine)
  | 0, _, _, _, _, _, _ => none
  | fuel + 1, addr, var, expr, e, arg, m =>
    match m.envOf addr with
    | none => some (⟨none, false⟩, m.report EvalError.noEnvironment)
    | some _ =>
      match reduce fuel arg e m with
      | none => none
      | some (r, m1) =>
        if !r.ok then some (⟨none, r.ok⟩, m1)
        else
          let c := (m1.envOf addr).getD 0
          match reduce fuel expr c (m1.put c var arg) with
          | none => none
          | some (r2, m2) => some (r2, m2.unput ((m2.envOf addr).getD 0))

end

/-- Gives every `Lambda` of a tree its address: the nodes are numbered from `next` on, in
the order in which they are met from left to right, outermost first. -/
def load : Tree → Nat → Node × Nat
  | Ast.Num n, next => (Ast.Num n, next)
  | Ast.Var name, next => (Ast.Var name, next)
  | Ast.Application fn arg, next =>
    let f := load fn next
    let a := load arg f.2
    (Ast.Application f.1 a.1, a.2)
  | Ast.Let var value expr, next =>
    let v := load value next
    let b := load expr v.2
    (Ast.Let var v.1 b.1, b.2)
  | Ast.Lambda _ var expr, next =>
    let b := load expr (next + 1)
    (Ast.Lambda next var b.1, b.2)

/-! ## Printing and the line handler -/

/-- `os << num` for an `int`. -/
def printInt (z : Int) : List Char :=
  if z < 0 then '-' :: Nat.toDigits 10 z.natAbs else Nat.toDigits 10 z.toNat

/-- The virtual `print` of the five node classes. -/
def print {α : Type} : Ast α → List Char
  | Ast.Num n => printInt n
  | Ast.Var name => name
  | Ast.Application fn arg => ['('] ++ print fn ++ [' '] ++ print arg ++ [')']
  | Ast.Let var value expr =>
    "(let ".toList ++ var ++ " = ".toList ++ print value ++ " in ".toList ++ print expr ++ [')']
  | Ast.Lambda _ var expr => "(\\".toList ++ var ++ " -> ".toList ++ print expr ++ [')']

/-- `Environ env; bool ok; Ast *ret = (*ast)(env, ok);` of `main`. -/
def evalTree (fuel : Nat) (t : Tree) : Option (Outcome × Machine) :=
  reduce fuel (load t 0).1 0 Machine.fresh

/-- What one line puts on `std::cout`. -/
inductive Output where
  | nothing
  | line (text : List Char)
deriving DecidableEq, Repr

/-- The body of the `while (std::cin.getline(...))` loop of `main` for one line that was
read into `buffer` (at most 255 characters; the body does not depend on that bound), the
parser and the evaluator being given `fuel` each. `none` when one of them runs out of
fuel. A parser that is `ok` has returned a tree (`parseExpr` returns `NULL` only after
`fail`), so the case of a null `ast` with the flag set is not reached. -/
def processLine (fuel : Nat) (prog : List Char) : Option Output :=
  match parseLine fuel prog with
  | none => none
  | some (ast, parser) =>
    if parser.ok then
      match ast with
      | none => none
      | some t =>
        match evalTree fuel t with
        | none => none
        | some (r, _) =>
          match r.ret with
          | some v => some (Output.line (print v))
          | none => some (Output.line "error".toList)
    else some Output.nothing

/-! ## Auxiliary definitions for the statements -/

/-- The canonical decimal text of a natural number. -/
def decimal (n : Nat) : List Char := Nat.toDigits 10 n

/-- The cursor of a parser that has read `pre` and still has `rest` before it, no failure
so far. `Parser.init s` is `Parser.cur [] s`. -/
def Parser.cur (pre rest : List Char) : Parser :=
  { str := pre ++ rest, length := pre.length + rest.length, pos := pre.length, ok := true,
    errs := [] }

/-- The parser that has read the whole of `s` without a failure. -/
def Parser.done (s : List Char) : Parser :=
  { str := s, length := s.length, pos := s.length, ok := true, errs := [] }

/-- With enough fuel, the parse function `fn`, started anywhere before the text `r`, returns
the tree `t` without a failure and leaves the cursor before `r'`, a suffix of `r`. -/
def Yields (fn : Nat → Parser → Option (Option Tree × Parser)) (r : List Char) (t : Tree)
    (r' : List Char) : Prop :=
  ∃ F, ∀ fuel, F ≤ fuel → ∀ pre, ∃ pre', pre' ++ r' = pre ++ r ∧
    fn fuel (Parser.cur pre r) = some (some t, Parser.cur pre' r')

/-- The same for the loop of `parseExpr` entered with `ast`. -/
def LoopYields (ast : Option Tree) (r : List Char) (t : Tree) (r' : List Char) : Prop :=
  ∃ F, ∀ fuel, F ≤ fuel → ∀ pre, ∃ pre', pre' ++ r' = pre ++ r ∧
    parseExprLoop fuel ast (Parser.cur pre r) = some (some t, Parser.cur pre' r')

/-- The line `(\x -> x) n`. -/
def identityLine (x : Char) (n : Nat) : List Char :=
  ['(', '\\', x, ' ', '-', '>', ' ', x, ')', ' '] ++ decimal n

/-- The single-spaced line `let x = n in x`. -/
def letLine (x : List Char) (n : Nat) : List Char :=
  "let ".toList ++ x ++ " = ".toList ++ decimal n ++ " in ".toList ++ x

/-- The line `let x = a in let x = b in x`. -/
def shadowLine (x : Char) (a b : Nat) : List Char :=
  "let ".toList ++ [x] ++ " = ".toList ++ decimal a ++ " in ".toList ++ letLine [x] b

/-- The line `(\f -> \x -> f x) (\y -> y) n`. -/
def composeLine (n : Nat) : List Char :=
  "(\\f -> \\x -> f x) (\\y -> y) ".toList ++ decimal n

/-- The tree of `composeLine n`. -/
def composeTree (n : Nat) : Tree :=
  Ast.Application
    (Ast.Application
      (Ast.Lambda () ['f']
        (Ast.Lambda () ['x'] (Ast.Application (Ast.Var ['f']) (Ast.Var ['x']))))
      (Ast.Lambda () ['y'] (Ast.Var ['y'])))
    (Ast.Num n)

/-- An atom of a juxtaposition: a one-letter variable or a decimal literal. -/
inductive Atom where
  | var (c : Char)
  | num (n : Nat)
deriving DecidableEq, Repr

/-- The text of an atom. -/
def Atom.text : Atom → List Char
  | Atom.var c => [c]
  | Atom.num n => decimal n

/-- The tree of an atom. -/
def Atom.tree : Atom → Tree
  | Atom.var c => Ast.Var [c]
  | Atom.num n => Ast.Num n

/-- The variable is an ASCII letter, the literal is below `2^31`. -/
def Atom.wf : Atom → Prop
  | Atom.var c => isNameChar c = true
  | Atom.num n => n < 2147483648

/-- The line `t1 t2 ... tn`, the atoms separated by single spaces. -/
def juxtapose : List Atom → List Char
  | [] => []
  | [a] => a.text
  | a :: b :: rest => a.text ++ ' ' :: juxtapose (b :: rest)

/-- The tree `Application(...Application(t, t1)..., tn)`. -/
def leftNested (t : Tree) (atoms : List Atom) : Tree :=
  atoms.foldl (fun f a => Ast.Application f a.tree) t

/-- With `fuel`, the tree `t`, reduced in the fresh top-level environment, returns the node
`v` with `ok` set. -/
def EvaluatesTo (fuel : Nat) (t : Tree) (v : Node) : Prop :=
  (evalTree fuel t).map (fun r => r.1) = some ⟨some v, true⟩

/-- A tree built only from `Num(n)` with `0 ≤ n < 2^31`, `Var` with a one-letter name,
`Application`, and `Lambda` with a one-letter parameter. -/
def LetFree : Tree → Prop
  | Ast.Num n => 0 ≤ n ∧ n < 2147483648
  | Ast.Var name => ∃ c, name = [c] ∧ isNameChar c = true
  | Ast.Application fn arg => LetFree fn ∧ LetFree arg
  | Ast.Let _ _ _ => False
  | Ast.Lambda _ var expr => (∃ c, var = [c] ∧ isNameChar c = true) ∧ LetFree expr

/-- The parser `q` comes after `p` on the same line: the text and its length are the same,
the cursor has not moved back, it is within the line if it was, and if `q` has not failed
then `p` had not failed and nothing was reported in between. -/
def Parser.Ext (p q : Parser) : Prop :=
  q.str = p.str ∧ q.length = p.length ∧ p.pos ≤ q.pos ∧ (p.pos ≤ p.length → q.pos ≤ q.length) ∧
    (q.ok = true → p.ok = true ∧ q.errs = p.errs)

/-- The parser `p` seen on another text `s'`, in which the line of `p` starts at offset `d`:
the cursor, the length and the reported positions are moved by `d`. -/
def Parser.moved (d : Nat) (s' : List Char) (p : Parser) : Parser :=
  { str := s', length := p.length + d, pos := p.pos + d, ok := p.ok,
    errs := p.errs.map (fun e => (e.1, e.2 + d)) }

/-- The text `s'` holds, from offset `d` on, the first `length` characters of `str`; what it
holds before `d` and after `d + length` is arbitrary. -/
def Agree (d : Nat) (s' str : List Char) (length : Nat) : Prop :=
  length ≤ str.length ∧ length + d ≤ s'.length ∧
    ∀ i, i < length → s'.getD (i + d) nul = str.getD i nul

/-- Every `Lambda` node held by a binding of some `Environ` object has its `env` field set. -/
def Machine.Stored (m : Machine) : Prop :=
  ∀ env ∈ m.envs, ∀ (k : List Char) (addr : Nat) (var : List Char) (expr : Node),
    (k, Ast.Lambda addr var expr) ∈ env → (m.envOf addr).isSome = true

/-- A `Lambda` node returned by `operator()` has its `env` field set. -/
def Returned (r : Outcome) (m : Machine) : Prop :=
  ∀ (addr : Nat) (var : List Char) (expr : Node),
    r.ret = some (Ast.Lambda addr var expr) → (m.envOf addr).isSome = true

/-- What one call of `operator()` or of `Lambda::apply` keeps, from the state `m` at the call
to the state `q` at the return with `r`: no `No environment` is written, the stored `Lambda`
nodes keep their `env` field set, a field that is set stays set, and a returned `Lambda`
node has the field set. -/
def Keeps (m : Machine) (r : Outcome) (q : Machine) : Prop :=
  q.Stored ∧ EvalError.noEnvironment ∉ q.log ∧
    (∀ a, (m.envOf a).isSome = true → (q.envOf a).isSome = true) ∧ Returned r q

/-- A line whose evaluation reduces a `Lambda` node again while an application of that node
is in progress. -/
def reentrantLine : List Char :=
  "(\\w -> w (\\s -> w (\\r -> 0))) (\\t -> (\\g -> g (\\z -> g (\\y -> t 7))) (\\q -> q 5))".toList

/-- The tree of `reentrantLine`. -/
def reentrantTree : Tree :=
  Ast.Application
    (Ast.Lambda () ['w'] (Ast.Application (Ast.Var ['w'])
      (Ast.Lambda () ['s'] (Ast.Application (Ast.Var ['w'])
        (Ast.Lambda () ['r'] (Ast.Num 0))))))
    (Ast.Lambda () ['t'] (Ast.Application
      (Ast.Lambda () ['g'] (Ast.Application (Ast.Var ['g'])
        (Ast.Lambda () ['z'] (Ast.Application (Ast.Var ['g'])
          (Ast.Lambda () ['y'] (Ast.Application (Ast.Var ['t']) (Ast.Num 7)))))))
      (Ast.Lambda () ['q'] (Ast.Application (Ast.Var ['q']) (Ast.Num 5)))))

/-- The node `\r -> 0` of `reentrantLine`. -/
def nodeR : Node := Ast.Lambda 2 ['r'] (Ast.Num 0)

/-- The node `\s -> w (\r -> 0)`. -/
def nodeS : Node := Ast.Lambda 1 ['s'] (Ast.Application (Ast.Var ['w']) nodeR)

/-- The node `\w -> w (\s -> w (\r -> 0))`. -/
def nodeW : Node := Ast.Lambda 0 ['w'] (Ast.Application (Ast.Var ['w']) nodeS)

/-- The node `\y -> t 7`. -/
def nodeY : Node := Ast.Lambda 6 ['y'] (Ast.Application (Ast.Var ['t']) (Ast.Num 7))

/-- The node `\z -> g (\y -> t 7)`. -/
def nodeZ : Node := Ast.Lambda 5 ['z'] (Ast.Application (Ast.Var ['g']) nodeY)

/-- The node `\g -> g (\z -> g (\y -> t 7))`. -/
def nodeG : Node := Ast.Lambda 4 ['g'] (Ast.Application (Ast.Var ['g']) nodeZ)

/-- The node `\q -> q 5`. -/
def nodeQ : Node := Ast.Lambda 7 ['q'] (Ast.Application (Ast.Var ['q']) (Ast.Num 5))

/-- The node `\t -> (\g -> ...) (\q -> q 5)`. -/
def nodeT : Node := Ast.Lambda 3 ['t'] (Ast.Application nodeG nodeQ)

/-- The machine at the first call of the body of `\q -> q 5`, in the evaluation of
`reentrantLine`: the nodes `\w`, `\t`, `\s`, `\g`, `\q`, `\z` have been reduced, in this
order, and the parameters `w`, `t`, `g`, `q` pushed. The `Environ` object 5 is the one
captured by `\q -> q 5`. -/
def reentrantState : Machine :=
  (((((((((Machine.fresh.capture 0 0).capture 3 0).put 1 ['w'] nodeT).capture 1 1).put 2 ['t']
    nodeS).capture 4 2).capture 7 2).put 4 ['g'] nodeQ).capture 5 4).put 5 ['q'] nodeZ

/-- The end of `Lambda::apply` after the body has returned: `env->unput(); return ret;` in
the `Lambda` at `addr`. -/
def unputAfter (addr : Nat) (x : Option (Outcome × Machine)) : Option (Outcome × Machine) :=
  match x with
  | none => none
  | some (r2, m2) => some (r2, m2.unput ((m2.envOf addr).getD 0))

/-- The accumulation `x * 10 + (c - '0')` of `parseNum` over a run of digits in unbounded
integers, starting from `x`. -/
def rawDigitsValue (x : Int) (ds : List Char) : Int :=
  ds.foldl (fun x c => x * 10 + ((c.toNat : Int) - 48)) x

/-- The value `parseNum` accumulates over a run of digits, starting from `x`. -/
def digitsValue (x : Int) (ds : List Char) : Int :=
  ds.foldl (fun x c => wrapInt32 (x * 10 + ((c.toNat : Int) - 48))) x

/-! ## Characters -/

theorem char_le_iff (a b : Char) : a ≤ b ↔ a.toNat ≤ b.toNat := by
  rfl

theorem char_eq_iff (a b : Char) : a = b ↔ a.toNat = b.toNat := by
  constructor
  · intro h; rw [h]
  · intro h
    have h2 := congrArg Char.ofNat h
    simpa [Char.ofNat_toNat] using h2

theorem isNum_iff (c : Char) : isNum c = true ↔ 48 ≤ c.toNat ∧ c.toNat ≤ 57 := by
  simp [isNum, char_le_iff]

theorem isNameChar_iff (c : Char) :
    isNameChar c = true ↔ (65 ≤ c.toNat ∧ c.toNat ≤ 90) ∨ (97 ≤ c.toNat ∧ c.toNat ≤ 122) := by
  simp [isNameChar, char_le_iff]

theorem isSpace_iff (c : Char) :
    isSpace c = true ↔ c.toNat = 32 ∨ c.toNat = 13 ∨ c.toNat = 10 ∨ c.toNat = 9 := by
  simp [isSpace, char_eq_iff, or_assoc]

theorem isSpace_of_isNum {c : Char} (h : isNum c = true) : isSpace c = false := by
  rw [isNum_iff] at h
  rw [Bool.eq_false_iff, Ne, isSpace_iff]
  omega

theorem isNameChar_of_isNum {c : Char} (h : isNum c = true) : isNameChar c = false := by
  rw [isNum_iff] at h
  rw [Bool.eq_false_iff, Ne, isNameChar_iff]
  omega

theorem isSpace_of_isNameChar {c : Char} (h : isNameChar c = true) : isSpace c = false := by
  rw [isNameChar_iff] at h
  rw [Bool.eq_false_iff, Ne, isSpace_iff]
  omega

theorem isNum_of_isNameChar {c : Char} (h : isNameChar c = true) : isNum c = false := by
  rw [isNameChar_iff] at h
  rw [Bool.eq_false_iff, Ne, isNum_iff]
  omega

theorem digitChar_toNat (d : Nat) (h : d < 10) : (Nat.digitChar d).toNat = 48 + d := by
  interval_cases d <;> rfl

theorem isNum_digitChar (d : Nat) (h : d < 10) : isNum (Nat.digitChar d) = true := by
  rw [isNum_iff, digitChar_toNat d h]
  omega

/-! ## Decimal texts -/

theorem toDigitsCore_acc (fuel : Nat) : ∀ (n : Nat) (ds : List Char),
    Nat.toDigitsCore 10 fuel n ds = Nat.toDigitsCore 10 fuel n [] ++ ds := by
  induction fuel with
  | zero => intro n ds; simp [Nat.toDigitsCore]
  | succ f ih =>
    intro n ds
    simp only [Nat.toDigitsCore]
    by_cases h : n / 10 = 0
    · simp [h]
    · simp only [h, if_false]
      rw [ih (n / 10) (Nat.digitChar (n % 10) :: ds), ih (n / 10) [Nat.digitChar (n % 10)]]
      simp

theorem toDigitsCore_fuel (f1 : Nat) : ∀ (f2 n : Nat) (ds : List Char), n < f1 → n < f2 →
    Nat.toDigitsCore 10 f1 n ds = Nat.toDigitsCore 10 f2 n ds := by
  induction f1 with
  | zero => intro f2 n ds h; omega
  | succ f ih =>
    intro f2 n ds h1 h2
    cases f2 with
    | zero => omega
    | succ g =>
      simp only [Nat.toDigitsCore]
      by_cases h : n / 10 = 0
      · simp [h]
      · simp only [h, if_false]
        have hlt : n / 10 < n := Nat.div_lt_self (by omega) (by omega)
        exact ih g (n / 10) _ (by omega) (by omega)

theorem decimal_small (n : Nat) (h : n < 10) : decimal n = [Nat.digitChar n] := by
  have h0 : n / 10 = 0 := by omega
  have h1 : n % 10 = n := by omega
  simp [decimal, Nat.toDigits, Nat.toDigitsCore, h0, h1]

theorem decimal_step (n : Nat) (h : 10 ≤ n) :
    decimal n = decimal (n / 10) ++ [Nat.digitChar (n % 10)] := by
  have h0 : ¬ n / 10 = 0 := by omega
  have hlt : n / 10 < n := Nat.div_lt_self (by omega) (by omega)
  have e : Nat.toDigitsCore 10 (n + 1) n [] =
      Nat.toDigitsCore 10 n (n / 10) [Nat.digitChar (n % 10)] := by
    simp [Nat.toDigitsCore, h0]
  show Nat.toDigitsCore 10 (n + 1) n [] =
    Nat.toDigitsCore 10 (n / 10 + 1) (n / 10) [] ++ [Nat.digitChar (n % 10)]
  rw [e, toDigitsCore_acc n (n / 10) [Nat.digitChar (n % 10)],
    toDigitsCore_fuel n (n / 10 + 1) (n / 10) [] hlt (by omega)]

theorem decimal_isNum (n : Nat) : ∀ c ∈ decimal n, isNum c = true := by
  induction n using Nat.strong_induction_on with
  | _ n ih =>
    by_cases h : n < 10
    · rw [decimal_small n h]
      intro c hc
      simp only [List.mem_singleton] at hc
      rw [hc]
      exact isNum_digitChar n h
    · rw [decimal_step n (by omega)]
      intro c hc
      rcases List.mem_append.1 hc with hc | hc
      · exact ih (n / 10) (Nat.div_lt_self (by omega) (by omega)) c hc
      · simp only [List.mem_singleton] at hc
        rw [hc]
        exact isNum_digitChar _ (Nat.mod_lt _ (by omega))

theorem decimal_ne_nil (n : Nat) : decimal n ≠ [] := by
  by_cases h : n < 10
  · rw [decimal_small n h]; simp
  · rw [decimal_step n (by omega)]; simp

theorem wrapInt32_of_lt (n : Nat) (h : n < 2147483648) : wrapInt32 (n : Int) = n := by
  unfold wrapInt32
  omega

theorem digitsValue_decimal (n : Nat) (h : n < 2147483648) : digitsValue 0 (decimal n) = n := by
  induction n using Nat.strong_induction_on with
  | _ n ih =>
    by_cases hs : n < 10
    · rw [decimal_small n hs]
      simp only [digitsValue, List.foldl, digitChar_toNat n hs]
      rw [← wrapInt32_of_lt n h]
      congr 1
      push_cast
      omega
    · rw [decimal_step n (by omega)]
      have hlt : n / 10 < n := Nat.div_lt_self (by omega) (by omega)
      have ih2 := ih (n / 10) hlt (by omega)
      simp only [digitsValue] at ih2 ⊢
      rw [List.foldl_append, ih2]
      simp only [List.foldl, digitChar_toNat (n % 10) (Nat.mod_lt _ (by omega))]
      rw [← wrapInt32_of_lt n h]
      congr 1
      push_cast
      omega

/-! ## More fuel does not change a result -/

theorem parse_fuel_succ (f : Nat) :
    (∀ p r, parseExpr f p = some r → parseExpr (f + 1) p = some r) ∧
    (∀ a p r, parseExprLoop f a p = some r → parseExprLoop (f + 1) a p = some r) ∧
    (∀ p r, parseBracket f p = some r → parseBracket (f + 1) p = some r) ∧
    (∀ p r, parseLet f p = some r → parseLet (f + 1) p = some r) ∧
    (∀ p r, parseLambda f p = some r → parseLambda (f + 1) p = some r) := by
  induction f with
  | zero => simp [parseExpr, parseExprLoop, parseBracket, parseLet, parseLambda]
  | succ f ih =>
    obtain ⟨ihE, ihL, ihB, ihT, ihA⟩ := ih
    refine ⟨?_, ?_, ?_, ?_, ?_⟩
    · intro p r h
      rw [parseExpr] at h ⊢
      cases hl : parseExprLoop f none p with
      | none => simp [hl] at h
      | some y => rw [hl] at h; rw [ihL _ _ _ hl]; exact h
    · intro a p r h
      rw [parseExprLoop] at h ⊢
      dsimp only at h ⊢
      split_ifs at h ⊢
      all_goals first
        | exact h
        | exact ihL _ _ _ h
        | skip
      all_goals
        split at h
        · exact absurd h (by simp)
        · rename_i arg q heq
          first
            | rw [ihT _ _ heq]
            | rw [ihB _ _ heq]
            | rw [ihA _ _ heq]
          dsimp only
          split_ifs at h ⊢
          · exact h
          · split at h
            · exact ihL _ _ _ h
            · exact h
    · intro p r h
      rw [parseBracket] at h ⊢
      split at h
      · exact absurd h (by simp)
      · rename_i ret q heq
        rw [ihE _ _ heq]
        exact h
    · intro p r h
      rw [parseLet] at h ⊢
      dsimp only at h ⊢
      split_ifs at h ⊢
      · exact h
      · exact h
      · split at h
        · exact absurd h (by simp)
        · rename_i val q heq
          rw [ihE _ _ heq]
          dsimp only
          split_ifs at h ⊢
          · exact h
          · exact h
          · split at h
            · exact absurd h (by simp)
            · rename_i expr q2 heq2
              rw [ihE _ _ heq2]
              exact h
    · intro p r h
      rw [parseLambda] at h ⊢
      dsimp only at h ⊢
      split_ifs at h ⊢
      · exact h
      · exact h
      · split at h
        · exact absurd h (by simp)
        · rename_i q heq
          rw [ihE _ _ heq]
          exact h
        · rename_i e q heq
          rw [ihE _ _ heq]
          exact h

theorem parseExpr_fuel_mono {f g : Nat} (hfg : f ≤ g) {p : Parser} {r : Option Tree × Parser}
    (h : parseExpr f p = some r) : parseExpr g p = some r := by
  induction hfg with
  | refl => exact h
  | step _ ih => exact (parse_fuel_succ _).1 _ _ ih

theorem parseExprLoop_fuel_mono {f g : Nat} (hfg : f ≤ g) {a : Option Tree} {p : Parser}
    {r : Option Tree × Parser} (h : parseExprLoop f a p = some r) :
    parseExprLoop g a p = some r := by
  induction hfg with
  | refl => exact h
  | step _ ih => exact (parse_fuel_succ _).2.1 _ _ _ ih

theorem reduce_fuel_succ (f : Nat) :
    (∀ node e m r, reduce f node e m = some r → reduce (f + 1) node e m = some r) ∧
    (∀ addr var expr e arg m r, apply f addr var expr e arg m = some r →
      apply (f + 1) addr var expr e arg m = some r) := by
  induction f with
  | zero => simp [reduce, apply]
  | succ f ih =>
    obtain ⟨ihR, ihA⟩ := ih
    constructor
    · intro node e m r h
      cases node with
      | Num n => simpa [reduce] using h
      | Var name => simpa [reduce] using h
      | Lambda addr var expr => simpa [reduce] using h
      | Application fn arg =>
        rw [reduce] at h ⊢
        split at h
        · exact absurd h (by simp)
        · rename_i r1 m1 heq
          rw [ihR _ _ _ _ heq]
          dsimp only
          split_ifs at h ⊢
          · exact h
          · split at h
            · exact ihA _ _ _ _ _ _ _ h
            · exact h
      | Let var value expr =>
        rw [reduce] at h ⊢
        split at h
        · exact absurd h (by simp)
        · rename_i r1 m1 heq
          rw [ihR _ _ _ _ heq]
          dsimp only
          split_ifs at h ⊢
          · exact h
          · split at h
            · exact absurd h (by simp)
            · rename_i r2 m2 heq2
              rw [ihR _ _ _ _ heq2]
              exact h
    · intro addr var expr e arg m r h
      rw [apply] at h ⊢
      split at h
      · exact h
      · split at h
        · exact absurd h (by simp)
        · rename_i r1 m1 heq
          rw [ihR _ _ _ _ heq]
          dsimp only at h ⊢
          split_ifs at h ⊢
          · exact h
          · split at h
            · exact absurd h (by simp)
            · rename_i r2 m2 heq2
              rw [ihR _ _ _ _ heq2]
              exact h

theorem reduce_fuel_mono {f g : Nat} (hfg : f ≤ g) {node : Node} {e : Nat} {m : Machine}
    {r : Outcome × Machine} (h : reduce f node e m = some r) : reduce g node e m = some r := by
  induction hfg with
  | refl => exact h
  | step _ ih => exact (reduce_fuel_succ _).1 _ _ _ _ ih

/-! ## The scanner on a cursor `cur pre rest` -/

namespace Parser

theorem init_eq_cur (s : List Char) : init s = cur [] s := by
  simp [init, cur]

theorem getD_append_length (pre r : List Char) (i : Nat) (d : Char) :
    (pre ++ r).getD (pre.length + i) d = r.getD i d := by
  induction pre with
  | nil => simp
  | cons a pre ih =>
    have e : (a :: pre).length + i = (pre.length + i) + 1 := by simp; omega
    rw [List.cons_append, e, List.getD_cons_succ]
    exact ih

theorem charAt_cur (pre r : List Char) (i : Nat) :
    (cur pre r).charAt (pre.length + i) = r.getD i nul := by
  unfold charAt cur
  exact getD_append_length pre r i nul

theorem charAt_cur_zero (pre r : List Char) :
    (cur pre r).charAt pre.length = r.getD 0 nul :=
  charAt_cur pre r 0

theorem peek_cur_cons (pre r : List Char) (c : Char) : (cur pre (c :: r)).peek = c := by
  have h := charAt_cur_zero pre (c :: r)
  have hlt : (cur pre (c :: r)).pos < (cur pre (c :: r)).length := by
    simp [cur]
  unfold peek
  rw [if_pos hlt]
  exact h

theorem peek_cur_nil (pre : List Char) : (cur pre []).peek = nul := by
  simp [peek, cur]

theorem finished_cur_cons (pre r : List Char) (c : Char) :
    (cur pre (c :: r)).finished = false := by
  simp [finished, cur]

theorem finished_cur_nil (pre : List Char) : (cur pre []).finished = true := by
  simp [finished, cur]

theorem advance_cur_cons (pre r : List Char) (c : Char) :
    (cur pre (c :: r)).advance = cur (pre ++ [c]) r := by
  simp [advance, cur]
  omega

theorem skipSpaceLoop_append (r : List Char) : ∀ (pre : List Char) (fuel : Nat),
    r.length ≤ fuel →
    skipSpaceLoop (pre ++ r) (pre.length + r.length) fuel pre.length =
      pre.length + (r.takeWhile isSpace).length := by
  induction r with
  | nil =>
    intro pre fuel _
    cases fuel <;> simp [skipSpaceLoop]
  | cons c r ih =>
    intro pre fuel hf
    cases fuel with
    | zero => simp at hf
    | succ f =>
      have hc : (pre ++ c :: r).getD pre.length nul = c :=
        getD_append_length pre (c :: r) 0 nul
      have hlt : pre.length < pre.length + (c :: r).length := by simp
      rw [skipSpaceLoop, if_pos hlt, hc]
      by_cases hs : isSpace c = true
      · have h := ih (pre ++ [c]) f (by simpa using hf)
        simp only [List.append_assoc, List.singleton_append, List.length_append,
          List.length_singleton] at h
        have e : pre.length + (c :: r).length = pre.length + 1 + r.length := by
          simp only [List.length_cons]; omega
        rw [if_pos hs, e, h, List.takeWhile_cons, if_pos hs, List.length_cons]
        omega
      · rw [if_neg hs, List.takeWhile_cons, if_neg hs]
        rfl

theorem length_takeWhile_add_dropWhile (q : Char → Bool) (r : List Char) :
    (r.takeWhile q).length + (r.dropWhile q).length = r.length := by
  rw [← List.length_append, List.takeWhile_append_dropWhile]

theorem cur_append (pre a r : List Char) :
    ({ str := pre ++ (a ++ r), length := pre.length + (a ++ r).length,
       pos := pre.length + a.length, ok := true, errs := [] } : Parser) = cur (pre ++ a) r := by
  simp [cur]
  omega

theorem skipSpace_cur (pre r : List Char) :
    (cur pre r).skipSpace = cur (pre ++ r.takeWhile isSpace) (r.dropWhile isSpace) := by
  have h := skipSpaceLoop_append r pre r.length (le_refl _)
  rw [← cur_append, List.takeWhile_append_dropWhile]
  simp only [skipSpace, cur, Nat.add_sub_cancel_left, h]

theorem matchChar_cur_cons (pre r : List Char) (c : Char) :
    (cur pre (c :: r)).matchChar c = (true, (cur (pre ++ [c]) r).skipSpace) := by
  have h := charAt_cur_zero pre (c :: r)
  have hlt : (cur pre (c :: r)).pos < (cur pre (c :: r)).length := by
    simp [cur]
  unfold matchChar
  rw [if_pos ⟨hlt, h⟩, ← cur_append]
  simp [cur]

theorem matchChar_cur_ne (pre r : List Char) (c d : Char) (h : d ≠ c) :
    (cur pre (d :: r)).matchChar c = (false, cur pre (d :: r)) := by
  have h2 := charAt_cur_zero pre (d :: r)
  unfold matchChar
  rw [if_neg]
  rintro ⟨_, h3⟩
  rw [show (cur pre (d :: r)).pos = pre.length from rfl, h2] at h3
  exact h h3

theorem matchChar_cur_nil (pre : List Char) (c : Char) :
    (cur pre []).matchChar c = (false, cur pre []) := by
  simp [matchChar, cur]

theorem sameAt_cur (pre r : List Char) : ∀ (s : List Char) (i : Nat),
    i + s.length ≤ r.length →
    sameAt (cur pre r) s i = decide (s <+: r.drop i) := by
  intro s
  induction s with
  | nil => intro i _; simp [sameAt]
  | cons c s ih =>
    intro i hi
    simp only [List.length_cons] at hi
    have hlt : i < r.length := by omega
    have hd : r.drop i = r[i] :: r.drop (i + 1) := by
      simp
    have hc : (cur pre r).charAt ((cur pre r).pos + i) = r[i] := by
      rw [show (cur pre r).pos = pre.length from rfl, charAt_cur,
        List.getD_eq_getElem _ _ hlt]
    have hp : c :: s <+: r.drop i ↔ c = r[i] ∧ s <+: r.drop (i + 1) := by
      rw [hd, List.cons_prefix_cons]
    rw [sameAt, hc, ih (i + 1) (by omega)]
    simp only [hp]
    by_cases hcc : c = r[i]
    · simp [hcc]
    · simp [hcc]

theorem cur_jump (pre s t : List Char) :
    { cur pre (s ++ t) with pos := (cur pre (s ++ t)).pos + s.length } = cur (pre ++ s) t := by
  rw [← cur_append]
  rfl

theorem matchStr_cur (pre r s : List Char) :
    (cur pre r).matchStr s =
      if s.length < r.length ∧ s <+: r then
        (true, (cur (pre ++ s) (r.drop s.length)).skipSpace)
      else (false, cur pre r) := by
  unfold matchStr
  by_cases h1 : s.length < r.length
  · have hg : ¬ ((cur pre r).pos + s.length ≥ (cur pre r).length) := by
      simp only [cur]; omega
    have hs := sameAt_cur pre r s 0 (by omega)
    rw [List.drop_zero] at hs
    by_cases h2 : s <+: r
    · obtain ⟨t, rfl⟩ := h2
      simp only [hg, hs, if_false, List.prefix_append, decide_True, Bool.not_true, h1,
        and_self, if_true, List.drop_left, cur_jump]
      simp
    · simp only [hg, hs, h2, if_false, decide_False, Bool.not_false, if_true, and_false]
  · have hg : (cur pre r).pos + s.length ≥ (cur pre r).length := by
      simp only [cur]; omega
    simp only [hg, if_true, h1, false_and, if_false]

theorem matchId_cur (pre r s : List Char) (adv : Bool) :
    (cur pre r).matchId s adv =
      if s.length < r.length ∧ s <+: r ∧
          ¬ (s.length + 1 < r.length ∧ isNameChar (r.getD (s.length + 1) nul) = false) then
        (true, if adv then (cur (pre ++ s) (r.drop s.length)).skipSpace else cur pre r)
      else (false, cur pre r) := by
  unfold matchId
  by_cases h1 : s.length < r.length
  · have hg : ¬ ((cur pre r).pos + s.length ≥ (cur pre r).length) := by
      simp only [cur]; omega
    have hs := sameAt_cur pre r s 0 (by omega)
    rw [List.drop_zero] at hs
    have hc : (cur pre r).charAt ((cur pre r).pos + s.length + 1) =
        r.getD (s.length + 1) nul := by
      rw [show (cur pre r).pos = pre.length from rfl, Nat.add_assoc, charAt_cur]
    have hl : ((cur pre r).pos + s.length + 1 < (cur pre r).length) ↔
        s.length + 1 < r.length := by
      simp only [cur]; omega
    by_cases h2 : s <+: r
    · obtain ⟨t, rfl⟩ := h2
      by_cases h3 : s.length + 1 < (s ++ t).length ∧
          isNameChar ((s ++ t).getD (s.length + 1) nul) = false
      · simp only [hg, hs, hc, hl, if_false, List.prefix_append, decide_True, Bool.not_true,
          h1, true_and, h3, Bool.not_eq_true', and_self, if_true, not_true_eq_false]
        simp
      · simp only [hg, hs, hc, hl, if_false, List.prefix_append, decide_True, Bool.not_true,
          h1, true_and, h3, Bool.not_eq_true', if_true, not_false_eq_true, List.drop_left,
          cur_jump]
        cases adv <;> simp
    · simp only [hg, hs, h2, if_false, decide_False, Bool.not_false, if_true, false_and,
        and_false]
  · have hg : (cur pre r).pos + s.length ≥ (cur pre r).length := by
      simp only [cur]; omega
    simp only [hg, if_true, h1, false_and, if_false]

theorem parseNumLoop_cur (r : List Char) : ∀ (pre : List Char) (fuel : Nat) (x : Int),
    r.length ≤ fuel →
    parseNumLoop fuel x (cur pre r) =
      (digitsValue x (r.takeWhile isNum), cur (pre ++ r.takeWhile isNum) (r.dropWhile isNum)) := by
  induction r with
  | nil =>
    intro pre fuel x _
    have hn : isNum nul = false := by decide
    cases fuel <;> simp [parseNumLoop, digitsValue, peek_cur_nil, hn]
  | cons c r ih =>
    intro pre fuel x hf
    cases fuel with
    | zero => simp at hf
    | succ f =>
      rw [parseNumLoop, peek_cur_cons, advance_cur_cons]
      by_cases hc : isNum c = true
      · rw [if_pos hc, ih (pre ++ [c]) f _ (by simpa using hf), List.takeWhile_cons, if_pos hc,
          List.dropWhile_cons, if_pos hc]
        simp [digitsValue]
      · rw [if_neg hc, List.takeWhile_cons, if_neg hc, List.dropWhile_cons, if_neg hc]
        simp [digitsValue]

theorem parseNameLoop_cur (r : List Char) : ∀ (pre : List Char) (fuel : Nat),
    r.length ≤ fuel →
    parseNameLoop fuel (cur pre r) =
      cur (pre ++ r.takeWhile isNameChar) (r.dropWhile isNameChar) := by
  induction r with
  | nil =>
    intro pre fuel _
    have hn : isNameChar nul = false := by decide
    cases fuel <;> simp [parseNameLoop, peek_cur_nil, hn]
  | cons c r ih =>
    intro pre fuel hf
    cases fuel with
    | zero => simp at hf
    | succ f =>
      rw [parseNameLoop, peek_cur_cons, advance_cur_cons]
      by_cases hc : isNameChar c = true
      · rw [if_pos hc, ih (pre ++ [c]) f (by simpa using hf), List.takeWhile_cons, if_pos hc,
          List.dropWhile_cons, if_pos hc]
        simp
      · rw [if_neg hc, List.takeWhile_cons, if_neg hc, List.dropWhile_cons, if_neg hc]
        simp

end Parser

theorem parseNum_cur (pre r : List Char) :
    parseNum (Parser.cur pre r) =
      (Ast.Num (digitsValue 0 (r.takeWhile isNum)),
        (Parser.cur (pre ++ r.takeWhile isNum) (r.dropWhile isNum)).skipSpace) := by
  unfold parseNum
  have h := Parser.parseNumLoop_cur r pre r.length 0 (le_refl _)
  simp only [Parser.cur, Nat.add_sub_cancel_left] at h ⊢
  rw [h]

theorem parseName_cur (pre r : List Char) :
    parseName (Parser.cur pre r) =
      (r.takeWhile isNameChar,
        (Parser.cur (pre ++ r.takeWhile isNameChar) (r.dropWhile isNameChar)).skipSpace) := by
  unfold parseName
  have h := Parser.parseNameLoop_cur r pre r.length (le_refl _)
  have e : (Parser.cur pre r).length - (Parser.cur pre r).pos = r.length := by
    simp [Parser.cur]
  have hs : (Parser.cur (pre ++ r.takeWhile isNameChar) (r.dropWhile isNameChar)).str =
      pre ++ (r.takeWhile isNameChar ++ r.dropWhile isNameChar) := by
    simp [Parser.cur]
  have hp : (Parser.cur (pre ++ r.takeWhile isNameChar) (r.dropWhile isNameChar)).pos =
      pre.length + (r.takeWhile isNameChar).length := by
    simp [Parser.cur]
  rw [e, h]
  dsimp only
  rw [hs, hp, show (Parser.cur pre r).pos = pre.length from rfl, List.drop_left,
    Nat.add_sub_cancel_left, List.take_left]

/-! ## Atoms at the cursor -/

theorem takeWhile_append_of_all (q : Char → Bool) (a r : List Char)
    (ha : ∀ c ∈ a, q c = true) (hr : ∀ c ∈ r.head?, q c = false) :
    (a ++ r).takeWhile q = a ∧ (a ++ r).dropWhile q = r := by
  induction a with
  | nil =>
    cases r with
    | nil => simp
    | cons d r =>
      have hd : q d = false := hr d (by simp)
      simp [List.takeWhile_cons, List.dropWhile_cons, hd]
  | cons c a ih =>
    have hc : q c = true := ha c (by simp)
    have ih2 := ih (fun d hd => ha d (by simp [hd]))
    simp [List.takeWhile_cons, List.dropWhile_cons, hc, ih2.1, ih2.2]

theorem decimal_cons (n : Nat) : ∃ d ds, decimal n = d :: ds ∧ isNum d = true := by
  have hne := decimal_ne_nil n
  have hall := decimal_isNum n
  cases h : decimal n with
  | nil => exact absurd h hne
  | cons d ds => exact ⟨d, ds, rfl, hall d (by simp [h])⟩

theorem loop_nil (f : Nat) (ast : Option Tree) (pre : List Char) :
    parseExprLoop (f + 1) ast (Parser.cur pre []) = some (ast, Parser.cur pre []) := by
  rw [parseExprLoop, Parser.finished_cur_nil]
  rfl

theorem cur_ok (pre r : List Char) : (Parser.cur pre r).ok = true := rfl

theorem loop_num (f : Nat) (ast : Option Tree) (pre r : List Char) (n : Nat)
    (hn : n < 2147483648) (hr : ∀ c ∈ r.head?, isNum c = false) :
    parseExprLoop (f + 1) ast (Parser.cur pre (decimal n ++ r)) =
      parseExprLoop f (some (extend ast (Ast.Num n)))
        (Parser.cur (pre ++ decimal n) r).skipSpace := by
  obtain ⟨d, ds, hd, hnum⟩ := decimal_cons n
  have htw := takeWhile_append_of_all isNum (decimal n) r (decimal_isNum n) hr
  have hfin : (Parser.cur pre (decimal n ++ r)).finished = false := by
    rw [hd]; exact Parser.finished_cur_cons _ _ _
  have hpk : isNum (Parser.cur pre (decimal n ++ r)).peek = true := by
    rw [hd, List.cons_append, Parser.peek_cur_cons]; exact hnum
  rw [parseExprLoop, hfin, hpk, parseNum_cur, htw.1, htw.2, digitsValue_decimal n hn]
  simp [Parser.skipSpace_cur, cur_ok]

theorem not_prefix_append (s x r : List Char) (hs : ∀ c ∈ s, isNameChar c = true)
    (hr : ∀ c ∈ r.head?, isNameChar c = false) (h : ¬ s <+: x) : ¬ s <+: x ++ r := by
  intro hp
  rcases List.prefix_or_prefix_of_prefix hp (List.prefix_append x r) with h1 | h1
  · exact h h1
  · obtain ⟨t, rfl⟩ := h1
    rw [List.prefix_append_right_inj] at hp
    cases t with
    | nil => exact h (by simp)
    | cons c t =>
      cases r with
      | nil => simp at hp
      | cons d r =>
        rw [List.cons_prefix_cons] at hp
        have h1 := hs c (by simp)
        have h2 := hr d (by simp)
        rw [hp.1, h2] at h1
        exact absurd h1 (by simp)

theorem loop_var (f : Nat) (ast : Option Tree) (pre x r : List Char)
    (hne : x ≠ []) (hx : ∀ c ∈ x, isNameChar c = true)
    (hr : ∀ c ∈ r.head?, isNameChar c = false)
    (hlet : ¬ ['l', 'e', 't'] <+: x) (hin : ¬ ['i', 'n'] <+: x) :
    parseExprLoop (f + 1) ast (Parser.cur pre (x ++ r)) =
      parseExprLoop f (some (extend ast (Ast.Var x)))
        (Parser.cur (pre ++ x) r).skipSpace := by
  have htw := takeWhile_append_of_all isNameChar x r hx hr
  obtain ⟨c, cs, rfl⟩ := List.exists_cons_of_ne_nil hne
  have hc : isNameChar c = true := hx c (by simp)
  have hfin : (Parser.cur pre (c :: cs ++ r)).finished = false :=
    Parser.finished_cur_cons _ _ _
  have hpk : (Parser.cur pre (c :: cs ++ r)).peek = c := Parser.peek_cur_cons _ _ _
  have h1 : ¬ ['l', 'e', 't'] <+: c :: cs ++ r :=
    not_prefix_append _ _ _ (by decide) hr hlet
  have h2 : ¬ ['i', 'n'] <+: c :: cs ++ r :=
    not_prefix_append _ _ _ (by decide) hr hin
  have m1 : (Parser.cur pre (c :: cs ++ r)).matchId ['l', 'e', 't'] true =
      (false, Parser.cur pre (c :: cs ++ r)) := by
    rw [Parser.matchId_cur, if_neg (fun h => h1 h.2.1)]
  have m2 : (Parser.cur pre (c :: cs ++ r)).matchId ['i', 'n'] false =
      (false, Parser.cur pre (c :: cs ++ r)) := by
    rw [Parser.matchId_cur, if_neg (fun h => h2 h.2.1)]
  rw [parseExprLoop, hfin, hpk, isNum_of_isNameChar hc, hc, m1, m2, parseName_cur, htw.1, htw.2]
  simp [Parser.skipSpace_cur, cur_ok]

theorem skipSpace_cur_head (pre r : List Char) (hr : ∀ c ∈ r.head?, isSpace c = false) :
    (Parser.cur pre r).skipSpace = Parser.cur pre r := by
  have h := takeWhile_append_of_all isSpace [] r (by simp) hr
  simp only [List.nil_append] at h
  rw [Parser.skipSpace_cur, h.1, h.2, List.append_nil]

theorem skipSpace_cur_space (pre r : List Char) (hr : ∀ c ∈ r.head?, isSpace c = false) :
    (Parser.cur pre (' ' :: r)).skipSpace = Parser.cur (pre ++ [' ']) r := by
  have h := takeWhile_append_of_all isSpace [' '] r (by decide) hr
  simp only [List.singleton_append] at h
  rw [Parser.skipSpace_cur, h.1, h.2]

theorem head_dropWhile (q : Char → Bool) (r : List Char) :
    ∀ c ∈ (r.dropWhile q).head?, q c = false := by
  induction r with
  | nil => simp
  | cons d r ih =>
    by_cases hd : q d = true
    · rw [List.dropWhile_cons, if_pos hd]; exact ih
    · rw [List.dropWhile_cons, if_neg hd]
      intro c hc
      simp only [List.head?_cons, Option.mem_def, Option.some.injEq] at hc
      rw [← hc]
      simpa using hd

theorem dropWhile_idem (q : Char → Bool) (r : List Char) :
    (r.dropWhile q).takeWhile q = [] ∧ (r.dropWhile q).dropWhile q = r.dropWhile q := by
  have h := takeWhile_append_of_all q [] (r.dropWhile q) (by simp) (head_dropWhile q r)
  simpa using h

theorem exists_succ_of_le {F fuel : Nat} (h : F + 1 ≤ fuel) : ∃ g, fuel = g + 1 ∧ F ≤ g :=
  ⟨fuel - 1, by omega, by omega⟩

/-! ## Composition of parses -/

theorem yields_expr {r w : List Char} {t : Tree} (h : LoopYields none r t w) :
    Yields parseExpr r t w := by
  obtain ⟨F, hF⟩ := h
  refine ⟨F + 1, fun fuel hf pre => ?_⟩
  obtain ⟨g, rfl, hg⟩ := exists_succ_of_le hf
  obtain ⟨pre', e, h⟩ := hF g hg pre
  exact ⟨pre', e, by rw [parseExpr, h]⟩

theorem loop_done_nil (t : Tree) : LoopYields (some t) [] t [] := by
  refine ⟨1, fun fuel hf pre => ?_⟩
  obtain ⟨g, rfl, _⟩ := exists_succ_of_le hf
  exact ⟨pre, rfl, loop_nil g (some t) pre⟩

theorem loop_break (f : Nat) (o : Option Tree) (pre r : List Char) (c : Char)
    (h1 : isNum c = false) (h2 : isNameChar c = false) (h3 : c ≠ '(') (h4 : c ≠ '\\') :
    parseExprLoop (f + 1) o (Parser.cur pre (c :: r)) =
      some (o, Parser.cur pre (c :: r)) := by
  rw [parseExprLoop, Parser.finished_cur_cons, Parser.peek_cur_cons, h1, h2,
    Parser.matchChar_cur_ne _ _ _ _ h3, Parser.matchChar_cur_ne _ _ _ _ h4]
  simp

theorem loop_done_break (t : Tree) (c : Char) (r : List Char)
    (h1 : isNum c = false) (h2 : isNameChar c = false) (h3 : c ≠ '(') (h4 : c ≠ '\\') :
    LoopYields (some t) (c :: r) t (c :: r) := by
  refine ⟨1, fun fuel hf pre => ?_⟩
  obtain ⟨g, rfl, _⟩ := exists_succ_of_le hf
  exact ⟨pre, rfl, loop_break g (some t) pre r c h1 h2 h3 h4⟩

theorem matchId_in_cur (pre r : List Char) (c : Char) (adv : Bool) (hc : isNameChar c = true) :
    (Parser.cur pre ('i' :: 'n' :: ' ' :: c :: r)).matchId ['i', 'n'] adv =
      (true, if adv then Parser.cur (pre ++ ['i', 'n', ' ']) (c :: r)
        else Parser.cur pre ('i' :: 'n' :: ' ' :: c :: r)) := by
  have hsk := skipSpace_cur_space (pre ++ ['i', 'n']) (c :: r)
    (by simpa using isSpace_of_isNameChar hc)
  rw [Parser.matchId_cur, if_pos, show List.drop ['i', 'n'].length ('i' :: 'n' :: ' ' :: c :: r) =
    ' ' :: c :: r from rfl, hsk]
  · simp
  · refine ⟨by simp, by simp [List.cons_prefix_cons], ?_⟩
    rintro ⟨_, h⟩
    rw [show List.getD ('i' :: 'n' :: ' ' :: c :: r) (['i', 'n'].length + 1) nul = c from rfl,
      hc] at h
    exact absurd h (by simp)

theorem matchId_let_cur (pre r : List Char) (c : Char) (hc : isNameChar c = true) :
    (Parser.cur pre ('l' :: 'e' :: 't' :: ' ' :: c :: r)).matchId ['l', 'e', 't'] true =
      (true, Parser.cur (pre ++ ['l', 'e', 't', ' ']) (c :: r)) := by
  have hsk := skipSpace_cur_space (pre ++ ['l', 'e', 't']) (c :: r)
    (by simpa using isSpace_of_isNameChar hc)
  rw [Parser.matchId_cur, if_pos,
    show List.drop ['l', 'e', 't'].length ('l' :: 'e' :: 't' :: ' ' :: c :: r) =
      ' ' :: c :: r from rfl, hsk]
  · simp
  · refine ⟨by simp, by simp [List.cons_prefix_cons], ?_⟩
    rintro ⟨_, h⟩
    rw [show List.getD ('l' :: 'e' :: 't' :: ' ' :: c :: r) (['l', 'e', 't'].length + 1) nul =
      c from rfl, hc] at h
    exact absurd h (by simp)

theorem matchId_let_cur_ne (pre r : List Char) (c : Char) (hc : c ≠ 'l') :
    (Parser.cur pre (c :: r)).matchId ['l', 'e', 't'] true = (false, Parser.cur pre (c :: r)) := by
  rw [Parser.matchId_cur, if_neg]
  rintro ⟨_, h, _⟩
  rw [List.cons_prefix_cons] at h
  exact hc h.1.symm

theorem loop_done_in (t : Tree) (c : Char) (r : List Char) (hc : isNameChar c = true) :
    LoopYields (some t) ('i' :: 'n' :: ' ' :: c :: r) t ('i' :: 'n' :: ' ' :: c :: r) := by
  refine ⟨1, fun fuel hf pre => ?_⟩
  obtain ⟨g, rfl, _⟩ := exists_succ_of_le hf
  refine ⟨pre, rfl, ?_⟩
  rw [parseExprLoop, Parser.finished_cur_cons, Parser.peek_cur_cons,
    matchId_let_cur_ne _ _ _ (by decide), matchId_in_cur _ _ _ _ hc,
    show isNum 'i' = false from by decide, show isNameChar 'i' = true from by decide]
  simp

theorem loop_yields_num {o : Option Tree} {r w : List Char} {t : Tree} (n : Nat)
    (hn : n < 2147483648) (hr : ∀ c ∈ r.head?, isNum c = false)
    (h : LoopYields (some (extend o (Ast.Num n))) (r.dropWhile isSpace) t w) :
    LoopYields o (decimal n ++ r) t w := by
  obtain ⟨F, hF⟩ := h
  refine ⟨F + 1, fun fuel hf pre => ?_⟩
  obtain ⟨g, rfl, hg⟩ := exists_succ_of_le hf
  obtain ⟨pre', e, h⟩ := hF g hg (pre ++ decimal n ++ r.takeWhile isSpace)
  refine ⟨pre', ?_, ?_⟩
  · rw [e, List.append_assoc, List.append_assoc, List.takeWhile_append_dropWhile]
  · rw [loop_num g o pre r n hn hr, Parser.skipSpace_cur, h]

theorem loop_yields_var {o : Option Tree} {r w : List Char} {t : Tree} (x : List Char)
    (hne : x ≠ []) (hx : ∀ c ∈ x, isNameChar c = true)
    (hr : ∀ c ∈ r.head?, isNameChar c = false)
    (hlet : ¬ ['l', 'e', 't'] <+: x) (hin : ¬ ['i', 'n'] <+: x)
    (h : LoopYields (some (extend o (Ast.Var x))) (r.dropWhile isSpace) t w) :
    LoopYields o (x ++ r) t w := by
  obtain ⟨F, hF⟩ := h
  refine ⟨F + 1, fun fuel hf pre => ?_⟩
  obtain ⟨g, rfl, hg⟩ := exists_succ_of_le hf
  obtain ⟨pre', e, h⟩ := hF g hg (pre ++ x ++ r.takeWhile isSpace)
  refine ⟨pre', ?_, ?_⟩
  · rw [e, List.append_assoc, List.append_assoc, List.takeWhile_append_dropWhile]
  · rw [loop_var g o pre x r hne hx hr hlet hin, Parser.skipSpace_cur, h]

theorem yields_bracket {r u : List Char} {a : Tree}
    (he : Yields parseExpr r a (')' :: u)) :
    Yields parseBracket r a (u.dropWhile isSpace) := by
  obtain ⟨F, hF⟩ := he
  refine ⟨F + 1, fun fuel hf pre => ?_⟩
  obtain ⟨g, rfl, hg⟩ := exists_succ_of_le hf
  obtain ⟨pre1, e, h⟩ := hF g hg pre
  refine ⟨pre1 ++ [')'] ++ u.takeWhile isSpace, ?_, ?_⟩
  · rw [← e, List.append_assoc, List.append_assoc, List.takeWhile_append_dropWhile]
    simp
  · rw [parseBracket, h]
    simp only [cur_ok, Bool.not_true, Parser.matchChar_cur_cons, Parser.skipSpace_cur,
      (dropWhile_idem isSpace u).1, (dropWhile_idem isSpace u).2]
    simp

theorem loop_yields_bracket {o : Option Tree} {r u w : List Char} {a t : Tree}
    (hb : Yields parseBracket (r.dropWhile isSpace) a u)
    (h : LoopYields (some (extend o a)) u t w) :
    LoopYields o ('(' :: r) t w := by
  obtain ⟨Fb, hFb⟩ := hb
  obtain ⟨F, hF⟩ := h
  refine ⟨max Fb F + 1, fun fuel hf pre => ?_⟩
  obtain ⟨g, rfl, hg⟩ := exists_succ_of_le hf
  obtain ⟨pre1, e1, h1⟩ := hFb g (le_trans (le_max_left _ _) hg)
    (pre ++ ['('] ++ r.takeWhile isSpace)
  obtain ⟨pre', e, h2⟩ := hF g (le_trans (le_max_right _ _) hg) pre1
  refine ⟨pre', ?_, ?_⟩
  · rw [e, e1, List.append_assoc, List.append_assoc, List.takeWhile_append_dropWhile]
    simp
  · rw [parseExprLoop, Parser.finished_cur_cons, Parser.peek_cur_cons,
      show isNum '(' = false from by decide, show isNameChar '(' = false from by decide,
      Parser.matchChar_cur_cons, Parser.skipSpace_cur]
    simp only [h1, cur_ok, h2]
    simp

theorem yields_lambda {r u : List Char} {e : Tree} (x : List Char)
    (hne : x ≠ []) (hx : ∀ c ∈ x, isNameChar c = true) (hr : r ≠ [])
    (he : Yields parseExpr (r.dropWhile isSpace) e u) :
    Yields parseLambda (x ++ ' ' :: '-' :: '>' :: r) (Ast.Lambda () x e) u := by
  obtain ⟨F, hF⟩ := he
  refine ⟨F + 1, fun fuel hf pre => ?_⟩
  obtain ⟨g, rfl, hg⟩ := exists_succ_of_le hf
  obtain ⟨pre1, e1, h1⟩ := hF g hg (pre ++ x ++ [' '] ++ ['-', '>'] ++ r.takeWhile isSpace)
  have htw := takeWhile_append_of_all isNameChar x (' ' :: '-' :: '>' :: r) hx
    (by simp; decide)
  obtain ⟨c, cs, hxc⟩ := List.exists_cons_of_ne_nil hne
  have hpk : isNameChar (Parser.cur pre (x ++ ' ' :: '-' :: '>' :: r)).peek = true := by
    rw [hxc, List.cons_append, Parser.peek_cur_cons]
    exact hx c (by simp [hxc])
  have hsk : (Parser.cur (pre ++ x) (' ' :: '-' :: '>' :: r)).skipSpace =
      Parser.cur (pre ++ x ++ [' ']) ('-' :: '>' :: r) :=
    skipSpace_cur_space _ _ (by simp; decide)
  have hm : (Parser.cur (pre ++ x ++ [' ']) ('-' :: '>' :: r)).matchStr ['-', '>'] =
      (true, (Parser.cur (pre ++ x ++ [' '] ++ ['-', '>']) r).skipSpace) := by
    rw [Parser.matchStr_cur, if_pos]
    · rfl
    · refine ⟨?_, by simp [List.cons_prefix_cons]⟩
      cases r with
      | nil => exact absurd rfl hr
      | cons d r => simp
  refine ⟨pre1, ?_, ?_⟩
  · rw [e1]
    simp only [List.append_assoc, List.cons_append, List.nil_append,
      List.takeWhile_append_dropWhile]
  · rw [parseLambda, hpk, parseName_cur, htw.1, htw.2]
    simp only [hsk, hm, Parser.skipSpace_cur, h1]
    simp

theorem loop_yields_lambda {o : Option Tree} {r u w : List Char} {a t : Tree}
    (hb : Yields parseLambda (r.dropWhile isSpace) a u)
    (h : LoopYields (some (extend o a)) u t w) :
    LoopYields o ('\\' :: r) t w := by
  obtain ⟨Fb, hFb⟩ := hb
  obtain ⟨F, hF⟩ := h
  refine ⟨max Fb F + 1, fun fuel hf pre => ?_⟩
  obtain ⟨g, rfl, hg⟩ := exists_succ_of_le hf
  obtain ⟨pre1, e1, h1⟩ := hFb g (le_trans (le_max_left _ _) hg)
    (pre ++ ['\\'] ++ r.takeWhile isSpace)
  obtain ⟨pre', e, h2⟩ := hF g (le_trans (le_max_right _ _) hg) pre1
  refine ⟨pre', ?_, ?_⟩
  · rw [e, e1, List.append_assoc, List.append_assoc, List.takeWhile_append_dropWhile]
    simp
  · rw [parseExprLoop, Parser.finished_cur_cons, Parser.peek_cur_cons,
      show isNum '\\' = false from by decide, show isNameChar '\\' = false from by decide,
      Parser.matchChar_cur_ne _ _ '(' '\\' (by decide),
      Parser.matchChar_cur_cons, Parser.skipSpace_cur]
    simp only [h1, cur_ok, h2]
    simp

theorem yields_let {r u z : List Char} {v e : Tree} (x : List Char) (c : Char)
    (hne : x ≠ []) (hx : ∀ d ∈ x, isNameChar d = true) (hc : isNameChar c = true)
    (hv : Yields parseExpr (r.dropWhile isSpace) v ('i' :: 'n' :: ' ' :: c :: u))
    (he : Yields parseExpr (c :: u) e z) :
    Yields parseLet (x ++ ' ' :: '=' :: r) (Ast.Let x v e) z := by
  obtain ⟨Fv, hFv⟩ := hv
  obtain ⟨Fe, hFe⟩ := he
  refine ⟨max Fv Fe + 1, fun fuel hf pre => ?_⟩
  obtain ⟨g, rfl, hg⟩ := exists_succ_of_le hf
  obtain ⟨pre1, e1, h1⟩ := hFv g (le_trans (le_max_left _ _) hg)
    (pre ++ x ++ [' '] ++ ['='] ++ r.takeWhile isSpace)
  obtain ⟨pre2, e2, h2⟩ := hFe g (le_trans (le_max_right _ _) hg) (pre1 ++ ['i', 'n', ' '])
  have htw := takeWhile_append_of_all isNameChar x (' ' :: '=' :: r) hx (by simp; decide)
  obtain ⟨c0, cs, hxc⟩ := List.exists_cons_of_ne_nil hne
  have hpk : isNameChar (Parser.cur pre (x ++ ' ' :: '=' :: r)).peek = true := by
    rw [hxc, List.cons_append, Parser.peek_cur_cons]
    exact hx c0 (by simp [hxc])
  have hsk : (Parser.cur (pre ++ x) (' ' :: '=' :: r)).skipSpace =
      Parser.cur (pre ++ x ++ [' ']) ('=' :: r) :=
    skipSpace_cur_space _ _ (by simp; decide)
  refine ⟨pre2, ?_, ?_⟩
  · rw [e2, List.append_assoc, show ['i', 'n', ' '] ++ c :: u = 'i' :: 'n' :: ' ' :: c :: u
      from rfl, e1]
    simp only [List.append_assoc, List.cons_append, List.nil_append,
      List.takeWhile_append_dropWhile]
  · rw [parseLet, hpk, parseName_cur, htw.1, htw.2]
    simp only [hsk, Parser.matchChar_cur_cons, Parser.skipSpace_cur, h1, cur_ok,
      matchId_in_cur _ _ _ _ hc]
    simp only [Bool.not_true, if_true, if_false, Bool.false_eq_true, h2, cur_ok]

theorem loop_yields_let {o : Option Tree} {r u w : List Char} {a t : Tree} (c : Char)
    (hc : isNameChar c = true)
    (hb : Yields parseLet (c :: r) a u)
    (h : LoopYields (some (extend o a)) u t w) :
    LoopYields o ('l' :: 'e' :: 't' :: ' ' :: c :: r) t w := by
  obtain ⟨Fb, hFb⟩ := hb
  obtain ⟨F, hF⟩ := h
  refine ⟨max Fb F + 1, fun fuel hf pre => ?_⟩
  obtain ⟨g, rfl, hg⟩ := exists_succ_of_le hf
  obtain ⟨pre1, e1, h1⟩ := hFb g (le_trans (le_max_left _ _) hg) (pre ++ ['l', 'e', 't', ' '])
  obtain ⟨pre', e, h2⟩ := hF g (le_trans (le_max_right _ _) hg) pre1
  refine ⟨pre', ?_, ?_⟩
  · rw [e, e1]
    simp
  · rw [parseExprLoop, Parser.finished_cur_cons, Parser.peek_cur_cons,
      show isNum 'l' = false from by decide, show isNameChar 'l' = true from by decide,
      matchId_let_cur _ _ _ hc]
    simp only [h1, cur_ok, h2]
    simp

theorem parseLine_of_yields {s : List Char} {t : Tree} (h : Yields parseExpr s t []) :
    ∃ F, ∀ fuel, F ≤ fuel → parseLine fuel s = some (some t, Parser.done s) := by
  obtain ⟨F, hF⟩ := h
  refine ⟨F, fun fuel hf => ?_⟩
  obtain ⟨pre', e, h⟩ := hF fuel hf []
  simp only [List.append_nil, List.nil_append] at e
  rw [parseLine, Parser.init_eq_cur, h, e]
  simp [Parser.cur, Parser.done]

theorem dw_keep (c : Char) (r : List Char) (h : isSpace c = false) :
    (c :: r).dropWhile isSpace = c :: r := by
  rw [List.dropWhile_cons, if_neg (by simp [h])]

theorem dw_cons (c : Char) (r : List Char) (h : isSpace c = false) :
    (' ' :: c :: r).dropWhile isSpace = c :: r := by
  rw [List.dropWhile_cons, if_pos (by decide), dw_keep c r h]

theorem dw_decimal (n : Nat) (r : List Char) :
    (' ' :: (decimal n ++ r)).dropWhile isSpace = decimal n ++ r := by
  obtain ⟨d, ds, hd, hnum⟩ := decimal_cons n
  rw [hd, List.cons_append, dw_cons d _ (isSpace_of_isNum hnum)]

theorem dw_decimal_nil (n : Nat) : (' ' :: decimal n).dropWhile isSpace = decimal n := by
  have h := dw_decimal n []
  rw [List.append_nil] at h
  exact h

/-! ## The line handler -/

theorem processLine_fuel_mono {f g : Nat} (hfg : f ≤ g) {s : List Char} {o : Output}
    (h : processLine f s = some o) : processLine g s = some o := by
  unfold processLine at h ⊢
  unfold parseLine at h ⊢
  split at h
  · exact absurd h (by simp)
  · rename_i ast parser heq
    rw [parseExpr_fuel_mono hfg heq]
    dsimp only
    split_ifs at h ⊢
    · split at h
      · exact absurd h (by simp)
      · rename_i t
        dsimp only [evalTree] at h ⊢
        split at h
        · exact absurd h (by simp)
        · rename_i r m heq2
          rw [reduce_fuel_mono hfg heq2]
          exact h
    · exact h

theorem processLine_of_le {f : Nat} {s : List Char} {o : Output}
    (h : processLine f s = some o) : ∃ F, ∀ fuel, F ≤ fuel → processLine fuel s = some o :=
  ⟨f, fun _ hf => processLine_fuel_mono hf h⟩

theorem processLine_unique {f g : Nat} {s : List Char} {o o' : Output}
    (h : processLine f s = some o) (h' : processLine g s = some o') : o = o' := by
  have h1 := processLine_fuel_mono (le_max_left f g) h
  have h2 := processLine_fuel_mono (le_max_right f g) h'
  rw [h1] at h2
  exact Option.some.inj h2

theorem processLine_of_parse {fuel f : Nat} {s : List Char} {t : Tree} {r : Outcome}
    {m : Machine} (hp : parseLine fuel s = some (some t, Parser.done s))
    (he : evalTree f t = some (r, m)) (hf : f ≤ fuel) :
    processLine fuel s = some (Output.line
      (match r.ret with
        | some v => print v
        | none => "error".toList)) := by
  have he2 : evalTree fuel t = some (r, m) := reduce_fuel_mono hf he
  unfold processLine
  rw [hp]
  simp only [Parser.done, if_true, he2]
  cases r.ret <;> rfl

theorem printInt_natCast (n : Nat) : printInt (n : Int) = decimal n := by
  unfold printInt decimal
  rw [if_neg (by omega)]
  simp

theorem prints_of_eval {F f : Nat} {s : List Char} {t : Tree} {v : Node}
    (hF : ∀ fuel, F ≤ fuel → parseLine fuel s = some (some t, Parser.done s))
    (he : EvaluatesTo f t v) :
    ∃ G, ∀ fuel, G ≤ fuel →
      parseLine fuel s = some (some t, Parser.done s) ∧
      EvaluatesTo fuel t v ∧
      processLine fuel s = some (Output.line (print v)) := by
  refine ⟨max F f, fun fuel hf => ?_⟩
  have hp := hF fuel (le_trans (le_max_left _ _) hf)
  refine ⟨hp, ?_⟩
  unfold EvaluatesTo at he ⊢
  cases hev : evalTree f t with
  | none => rw [hev] at he; exact absurd he (by simp)
  | some rm =>
    obtain ⟨r, m⟩ := rm
    rw [hev] at he
    simp only [Option.map_some', Option.some.injEq] at he
    have hev2 : evalTree fuel t = some (r, m) :=
      reduce_fuel_mono (le_trans (le_max_right _ _) hf) hev
    have h := processLine_of_parse hp hev (le_trans (le_max_right _ _) hf)
    rw [h, hev2, he]
    exact ⟨rfl, rfl⟩

/-! ## Application of the identity -/

theorem identity_bracket_yields (x : Char) (n : Nat) (hx : isNameChar x = true) :
    Yields parseBracket ('\\' :: x :: ' ' :: '-' :: '>' :: ' ' :: x :: ')' :: ' ' :: decimal n)
      (Ast.Lambda () [x] (Ast.Var [x])) (decimal n) := by
  have hxs : isSpace x = false := isSpace_of_isNameChar hx
  -- the body of the lambda: `x`, up to the closing bracket
  have hbody : Yields parseExpr (x :: ')' :: ' ' :: decimal n) (Ast.Var [x])
      (')' :: ' ' :: decimal n) := by
    apply yields_expr
    refine loop_yields_var [x] (by simp) (by simpa using hx) (by simp; decide)
      (by simp) (by simp) ?_
    rw [dw_keep _ _ (by decide)]
    exact loop_done_break _ _ _ (by decide) (by decide) (by decide) (by decide)
  have hlam : Yields parseLambda (x :: ' ' :: '-' :: '>' :: ' ' :: x :: ')' :: ' ' :: decimal n)
      (Ast.Lambda () [x] (Ast.Var [x])) (')' :: ' ' :: decimal n) := by
    refine yields_lambda [x] (by simp) (by simpa using hx) (by simp) ?_
    rw [dw_cons _ _ hxs]
    exact hbody
  have hinner : Yields parseExpr
      ('\\' :: x :: ' ' :: '-' :: '>' :: ' ' :: x :: ')' :: ' ' :: decimal n)
      (Ast.Lambda () [x] (Ast.Var [x])) (')' :: ' ' :: decimal n) := by
    apply yields_expr
    refine loop_yields_lambda (a := Ast.Lambda () [x] (Ast.Var [x]))
      (u := ')' :: ' ' :: decimal n) ?_ ?_
    · rw [dw_keep _ _ hxs]
      exact hlam
    · exact loop_done_break _ _ _ (by decide) (by decide) (by decide) (by decide)
  have h := yields_bracket hinner
  rw [dw_decimal_nil] at h
  exact h

theorem identityLine_yields (x : Char) (n : Nat) (hx : isNameChar x = true)
    (hn : n < 2147483648) :
    Yields parseExpr (identityLine x n)
      (Ast.Application (Ast.Lambda () [x] (Ast.Var [x])) (Ast.Num n)) [] := by
  show Yields parseExpr
    ('(' :: '\\' :: x :: ' ' :: '-' :: '>' :: ' ' :: x :: ')' :: ' ' :: decimal n) _ []
  apply yields_expr
  refine loop_yields_bracket (a := Ast.Lambda () [x] (Ast.Var [x])) (u := decimal n) ?_ ?_
  · rw [dw_keep _ _ (by decide)]
    exact identity_bracket_yields x n hx
  · have h := loop_yields_num (o := some (Ast.Lambda () [x] (Ast.Var [x]))) (r := [])
      (t := Ast.Application (Ast.Lambda () [x] (Ast.Var [x])) (Ast.Num n)) (w := []) n hn
      (by simp) (loop_done_nil _)
    rw [List.append_nil] at h
    exact h

theorem identity_eval (x : Char) (n : Nat) :
    EvaluatesTo 4 (Ast.Application (Ast.Lambda () [x] (Ast.Var [x])) (Ast.Num n))
      (Ast.Num n) := by
  simp [EvaluatesTo, evalTree, load, reduce, apply, Machine.fresh, Machine.capture, Machine.envOf,
    Machine.put, Machine.unput, Machine.env, Environ.put, Environ.get, Environ.copy,
    List.lookup]

/-- C8. For every one-letter parameter name `x` and every `n < 2^31`, the line `(\x -> x) n`
parses, with enough fuel, to `Application(Lambda(x, Var x), Num n)` with the whole line
consumed and no failure, the evaluation in a fresh environment succeeds with `Num n`, and the
line handler prints the decimal text of `n`. -/
theorem identity_application_prints_argument (x : Char) (n : Nat)
    (hx : isNameChar x = true) (hn : n < 2147483648) :
    ∃ F, ∀ fuel, F ≤ fuel →
      parseLine fuel (identityLine x n) =
        some (some (Ast.Application (Ast.Lambda () [x] (Ast.Var [x])) (Ast.Num n)),
          Parser.done (identityLine x n)) ∧
      EvaluatesTo fuel (Ast.Application (Ast.Lambda () [x] (Ast.Var [x])) (Ast.Num n))
        (Ast.Num n) ∧
      processLine fuel (identityLine x n) = some (Output.line (decimal n)) := by
  obtain ⟨F, hF⟩ := parseLine_of_yields (identityLine_yields x n hx hn)
  have h := prints_of_eval hF (identity_eval x n)
  simpa only [print, printInt_natCast] using h

/-- The line `(\x -> x) 7` prints `7`. -/
theorem identity_application_prints_argument_witness :
    isNameChar 'x' = true ∧ 7 < 2147483648 ∧
    identityLine 'x' 7 = "(\\x -> x) 7".toList ∧ decimal 7 = "7".toList ∧
    ∃ F, ∀ fuel, F ≤ fuel →
      parseLine fuel (identityLine 'x' 7) =
        some (some (Ast.Application (Ast.Lambda () ['x'] (Ast.Var ['x'])) (Ast.Num 7)),
          Parser.done (identityLine 'x' 7)) ∧
      EvaluatesTo fuel (Ast.Application (Ast.Lambda () ['x'] (Ast.Var ['x'])) (Ast.Num 7))
        (Ast.Num 7) ∧
      processLine fuel (identityLine 'x' 7) = some (Output.line (decimal 7)) :=
  ⟨by decide, by decide, by decide, by decide,
    identity_application_prints_argument 'x' 7 (by decide) (by decide)⟩

/-! ## A `let` of a literal -/

theorem letLine_yields (x : List Char) (n : Nat) (hne : x ≠ [])
    (hx : ∀ c ∈ x, isNameChar c = true) (hlet : ¬ "let".toList <+: x)
    (hin : ¬ "in".toList <+: x) (hn : n < 2147483648) :
    Yields parseExpr (letLine x n) (Ast.Let x (Ast.Num n) (Ast.Var x)) [] := by
  obtain ⟨c, cs, hxc⟩ := List.exists_cons_of_ne_nil hne
  have hc : isNameChar c = true := hx c (by simp [hxc])
  have hbody : Yields parseExpr x (Ast.Var x) [] := by
    apply yields_expr
    have h := loop_yields_var (o := none) (r := []) (t := Ast.Var x) (w := []) x hne hx
      (by simp) hlet hin (loop_done_nil _)
    rw [List.append_nil] at h
    exact h
  have hval : Yields parseExpr (decimal n ++ ' ' :: 'i' :: 'n' :: ' ' :: c :: cs) (Ast.Num n)
      ('i' :: 'n' :: ' ' :: c :: cs) := by
    apply yields_expr
    refine loop_yields_num n hn (by simp; decide) ?_
    rw [dw_cons _ _ (by decide)]
    exact loop_done_in _ c cs hc
  have hl : Yields parseLet
      (x ++ ' ' :: '=' :: ' ' :: (decimal n ++ ' ' :: 'i' :: 'n' :: ' ' :: c :: cs))
      (Ast.Let x (Ast.Num n) (Ast.Var x)) [] := by
    refine yields_let x c hne hx hc ?_ (by rw [hxc] at hbody; rw [hxc]; exact hbody)
    rw [dw_decimal]
    exact hval
  have e : letLine x n = 'l' :: 'e' :: 't' :: ' ' :: c ::
      (cs ++ ' ' :: '=' :: ' ' :: (decimal n ++ ' ' :: 'i' :: 'n' :: ' ' :: c :: cs)) := by
    simp [letLine, hxc]
  rw [e]
  apply yields_expr
  refine loop_yields_let c hc ?_ (loop_done_nil _)
  rw [hxc] at hl
  rw [hxc]
  exact hl

theorem let_eval (x : List Char) (n : Nat) :
    EvaluatesTo 3 (Ast.Let x (Ast.Num n) (Ast.Var x)) (Ast.Num n) := by
  simp [EvaluatesTo, evalTree, load, reduce, Machine.fresh, Machine.put, Machine.unput, Machine.env,
    Environ.put, Environ.get]

/-- C7. For every identifier `x` of ASCII letters that does not begin with `let` or `in`
and every `n < 2^31`, the single-spaced line `let x = n in x` parses, with enough fuel, to
`Let(x, Num n, Var x)` with the whole line consumed and no failure, the evaluation in a
fresh environment succeeds with `Num n`, and the line handler prints the decimal text
of `n`. -/
theorem let_literal_prints_literal (x : List Char) (n : Nat) (hne : x ≠ [])
    (hx : ∀ c ∈ x, isNameChar c = true) (hlet : ¬ "let".toList <+: x)
    (hin : ¬ "in".toList <+: x) (hn : n < 2147483648) :
    ∃ F, ∀ fuel, F ≤ fuel →
      parseLine fuel (letLine x n) =
        some (some (Ast.Let x (Ast.Num n) (Ast.Var x)), Parser.done (letLine x n)) ∧
      EvaluatesTo fuel (Ast.Let x (Ast.Num n) (Ast.Var x)) (Ast.Num n) ∧
      processLine fuel (letLine x n) = some (Output.line (decimal n)) := by
  obtain ⟨F, hF⟩ := parseLine_of_yields (letLine_yields x n hne hx hlet hin hn)
  have h := prints_of_eval hF (let_eval x n)
  simpa only [print, printInt_natCast] using h

/-- The line `let x = 5 in x` prints `5`. -/
theorem let_literal_prints_literal_witness :
    ['x'] ≠ [] ∧ (∀ c ∈ ['x'], isNameChar c = true) ∧ ¬ "let".toList <+: ['x'] ∧
    ¬ "in".toList <+: ['x'] ∧ 5 < 2147483648 ∧
    letLine ['x'] 5 = "let x = 5 in x".toList ∧ decimal 5 = "5".toList ∧
    ∃ F, ∀ fuel, F ≤ fuel →
      parseLine fuel (letLine ['x'] 5) =
        some (some (Ast.Let ['x'] (Ast.Num 5) (Ast.Var ['x'])), Parser.done (letLine ['x'] 5)) ∧
      EvaluatesTo fuel (Ast.Let ['x'] (Ast.Num 5) (Ast.Var ['x'])) (Ast.Num 5) ∧
      processLine fuel (letLine ['x'] 5) = some (Output.line (decimal 5)) :=
  ⟨by decide, by decide, by decide, by decide, by decide, by decide, by decide,
    let_literal_prints_literal ['x'] 5 (by decide) (by decide) (by decide) (by decide)
      (by decide)⟩

/-! ## Shadowing -/

theorem let_in_yields (x : List Char) (n : Nat) (c : Char) (r : List Char) (e : Tree)
    (hne : x ≠ []) (hx : ∀ d ∈ x, isNameChar d = true) (hn : n < 2147483648)
    (hc : isNameChar c = true) (he : Yields parseExpr (c :: r) e []) :
    Yields parseExpr
      ("let ".toList ++ x ++ " = ".toList ++ decimal n ++ " in ".toList ++ c :: r)
      (Ast.Let x (Ast.Num n) e) [] := by
  obtain ⟨c0, cs, hxc⟩ := List.exists_cons_of_ne_nil hne
  have hc0 : isNameChar c0 = true := hx c0 (by simp [hxc])
  have hval : Yields parseExpr (decimal n ++ ' ' :: 'i' :: 'n' :: ' ' :: c :: r) (Ast.Num n)
      ('i' :: 'n' :: ' ' :: c :: r) := by
    apply yields_expr
    refine loop_yields_num n hn (by simp; decide) ?_
    rw [dw_cons _ _ (by decide)]
    exact loop_done_in _ c r hc
  have hl : Yields parseLet
      (x ++ ' ' :: '=' :: ' ' :: (decimal n ++ ' ' :: 'i' :: 'n' :: ' ' :: c :: r))
      (Ast.Let x (Ast.Num n) e) [] := by
    refine yields_let x c hne hx hc ?_ he
    rw [dw_decimal]
    exact hval
  have e : "let ".toList ++ x ++ " = ".toList ++ decimal n ++ " in ".toList ++ c :: r =
      'l' :: 'e' :: 't' :: ' ' :: c0 ::
        (cs ++ ' ' :: '=' :: ' ' :: (decimal n ++ ' ' :: 'i' :: 'n' :: ' ' :: c :: r)) := by
    simp [hxc]
  rw [e]
  apply yields_expr
  refine loop_yields_let c0 hc0 ?_ (loop_done_nil _)
  rw [hxc] at hl
  rw [hxc]
  exact hl

theorem shadowLine_yields (x : Char) (a b : Nat) (hx : isNameChar x = true)
    (ha : a < 2147483648) (hb : b < 2147483648) :
    Yields parseExpr (shadowLine x a b)
      (Ast.Let [x] (Ast.Num a) (Ast.Let [x] (Ast.Num b) (Ast.Var [x]))) [] := by
  have hin := letLine_yields [x] b (by simp) (by simpa using hx) (by simp) (by simp) hb
  have e : letLine [x] b = 'l' :: ("et ".toList ++ [x] ++ " = ".toList ++ decimal b ++
      " in ".toList ++ [x]) := by
    simp [letLine]
  rw [e] at hin
  have h := let_in_yields [x] a 'l' _ _ (by simp) (by simpa using hx) ha (by decide) hin
  rw [shadowLine, e]
  exact h

theorem shadow_eval (x : Char) (a b : Nat) :
    EvaluatesTo 4 (Ast.Let [x] (Ast.Num a) (Ast.Let [x] (Ast.Num b) (Ast.Var [x])))
      (Ast.Num b) := by
  simp [EvaluatesTo, evalTree, load, reduce, Machine.fresh, Machine.put, Machine.unput, Machine.env,
    Environ.put, Environ.get]

/-- C9. After `put(k, v)` the lookup `get(k)` gives `v` whatever `env` held, and `get(k')`
for every other name gives what it gave before; for every one-letter `x` and literals
`a`, `b` below `2^31` the line `let x = a in let x = b in x` parses, evaluates to `Num b`
and prints the decimal text of `b`. -/
theorem lookup_returns_latest_binding (env : Environ) (k k' : List Char) (v : Node)
    (x : Char) (a b : Nat) (hk : k' ≠ k) (hx : isNameChar x = true)
    (ha : a < 2147483648) (hb : b < 2147483648) :
    (env.put k v).get k = some v ∧
    (env.put k v).get k' = env.get k' ∧
    ∃ F, ∀ fuel, F ≤ fuel →
      parseLine fuel (shadowLine x a b) =
        some (some (Ast.Let [x] (Ast.Num a) (Ast.Let [x] (Ast.Num b) (Ast.Var [x]))),
          Parser.done (shadowLine x a b)) ∧
      EvaluatesTo fuel (Ast.Let [x] (Ast.Num a) (Ast.Let [x] (Ast.Num b) (Ast.Var [x])))
        (Ast.Num b) ∧
      processLine fuel (shadowLine x a b) = some (Output.line (decimal b)) := by
  refine ⟨by simp [Environ.put, Environ.get], by simp [Environ.put, Environ.get, hk], ?_⟩
  obtain ⟨F, hF⟩ := parseLine_of_yields (shadowLine_yields x a b hx ha hb)
  have h := prints_of_eval hF (shadow_eval x a b)
  simpa only [print, printInt_natCast] using h

/-- The line `let x = 1 in let x = 2 in x` prints `2`. -/
theorem lookup_returns_latest_binding_witness :
    ['y'] ≠ ['x'] ∧ isNameChar 'x' = true ∧ 1 < 2147483648 ∧ 2 < 2147483648 ∧
    shadowLine 'x' 1 2 = "let x = 1 in let x = 2 in x".toList ∧ decimal 2 = "2".toList ∧
    (Environ.put [(['x'], Ast.Num 1)] ['x'] (Ast.Num 2)).get ['x'] = some (Ast.Num 2) ∧
    (Environ.put [(['x'], Ast.Num 1)] ['x'] (Ast.Num 2)).get ['y'] =
      Environ.get [(['x'], Ast.Num 1)] ['y'] ∧
    ∃ F, ∀ fuel, F ≤ fuel →
      parseLine fuel (shadowLine 'x' 1 2) =
        some (some (Ast.Let ['x'] (Ast.Num 1) (Ast.Let ['x'] (Ast.Num 2) (Ast.Var ['x']))),
          Parser.done (shadowLine 'x' 1 2)) ∧
      EvaluatesTo fuel (Ast.Let ['x'] (Ast.Num 1) (Ast.Let ['x'] (Ast.Num 2) (Ast.Var ['x'])))
        (Ast.Num 2) ∧
      processLine fuel (shadowLine 'x' 1 2) = some (Output.line (decimal 2)) :=
  ⟨by decide, by decide, by decide, by decide, by decide, by decide,
    lookup_returns_latest_binding [(['x'], Ast.Num 1)] ['x'] ['y'] (Ast.Num 2) 'x' 1 2
      (by decide) (by decide) (by decide) (by decide)⟩

/-! ## Nested application and capture -/

theorem composeLine_yields (n : Nat) (hn : n < 2147483648) :
    Yields parseExpr (composeLine n) (composeTree n) [] := by
  -- the text from the second bracket on
  have hsecond : ∀ o : Option Tree, LoopYields o
      ('(' :: '\\' :: 'y' :: ' ' :: '-' :: '>' :: ' ' :: 'y' :: ')' :: ' ' :: decimal n)
      (Ast.Application (extend o (Ast.Lambda () ['y'] (Ast.Var ['y']))) (Ast.Num n)) [] := by
    intro o
    refine loop_yields_bracket (a := Ast.Lambda () ['y'] (Ast.Var ['y'])) (u := decimal n) ?_ ?_
    · rw [dw_keep _ _ (by decide)]
      exact identity_bracket_yields 'y' n (by decide)
    · have h := loop_yields_num (o := some (extend o (Ast.Lambda () ['y'] (Ast.Var ['y']))))
        (r := []) (w := []) n hn (by simp) (loop_done_nil _)
      rw [List.append_nil] at h
      exact h
  generalize hT : ('(' :: '\\' :: 'y' :: ' ' :: '-' :: '>' :: ' ' :: 'y' :: ')' :: ' ' ::
    decimal n) = T at hsecond
  have hfx : Yields parseExpr ('f' :: ' ' :: 'x' :: ')' :: ' ' :: T)
      (Ast.Application (Ast.Var ['f']) (Ast.Var ['x'])) (')' :: ' ' :: T) := by
    apply yields_expr
    refine loop_yields_var (r := ' ' :: 'x' :: ')' :: ' ' :: T) ['f'] (by simp) (by decide)
      (by simp; decide) (by simp) (by simp) ?_
    rw [dw_cons _ _ (by decide)]
    refine loop_yields_var (r := ')' :: ' ' :: T) ['x'] (by simp) (by decide)
      (by simp; decide) (by simp) (by simp) ?_
    rw [dw_keep _ _ (by decide)]
    exact loop_done_break _ _ _ (by decide) (by decide) (by decide) (by decide)
  have hx : Yields parseExpr
      ('\\' :: 'x' :: ' ' :: '-' :: '>' :: ' ' :: 'f' :: ' ' :: 'x' :: ')' :: ' ' :: T)
      (Ast.Lambda () ['x'] (Ast.Application (Ast.Var ['f']) (Ast.Var ['x'])))
      (')' :: ' ' :: T) := by
    apply yields_expr
    refine loop_yields_lambda (u := ')' :: ' ' :: T)
      (a := Ast.Lambda () ['x'] (Ast.Application (Ast.Var ['f']) (Ast.Var ['x']))) ?_ ?_
    · rw [dw_keep _ _ (by decide)]
      refine yields_lambda (r := ' ' :: 'f' :: ' ' :: 'x' :: ')' :: ' ' :: T) ['x'] (by simp)
        (by decide) (by simp) ?_
      rw [dw_cons _ _ (by decide)]
      exact hfx
    · exact loop_done_break _ _ _ (by decide) (by decide) (by decide) (by decide)
  have hf : Yields parseExpr
      ('\\' :: 'f' :: ' ' :: '-' :: '>' :: ' ' :: '\\' :: 'x' :: ' ' :: '-' :: '>' :: ' ' ::
        'f' :: ' ' :: 'x' :: ')' :: ' ' :: T)
      (Ast.Lambda () ['f']
        (Ast.Lambda () ['x'] (Ast.Application (Ast.Var ['f']) (Ast.Var ['x']))))
      (')' :: ' ' :: T) := by
    apply yields_expr
    refine loop_yields_lambda (u := ')' :: ' ' :: T)
      (a := Ast.Lambda () ['f']
        (Ast.Lambda () ['x'] (Ast.Application (Ast.Var ['f']) (Ast.Var ['x'])))) ?_ ?_
    · rw [dw_keep _ _ (by decide)]
      refine yields_lambda
        (r := ' ' :: '\\' :: 'x' :: ' ' :: '-' :: '>' :: ' ' :: 'f' :: ' ' :: 'x' :: ')' ::
          ' ' :: T) ['f'] (by simp) (by decide) (by simp) ?_
      rw [dw_cons _ _ (by decide)]
      exact hx
    · exact loop_done_break _ _ _ (by decide) (by decide) (by decide) (by decide)
  have hb := yields_bracket hf
  have hT0 : ∃ T', T = '(' :: T' := ⟨_, hT.symm⟩
  obtain ⟨T', hT'⟩ := hT0
  rw [hT', dw_cons _ _ (by decide), ← hT'] at hb
  have e : composeLine n = '(' :: '\\' :: 'f' :: ' ' :: '-' :: '>' :: ' ' :: '\\' :: 'x' ::
      ' ' :: '-' :: '>' :: ' ' :: 'f' :: ' ' :: 'x' :: ')' :: ' ' :: T := by
    rw [← hT]
    rfl
  rw [e]
  apply yields_expr
  refine loop_yields_bracket ?_ (hsecond _)
  rw [dw_keep _ _ (by decide)]
  exact hb

theorem compose_eval (n : Nat) : EvaluatesTo 6 (composeTree n) (Ast.Var ['x']) := by
  rfl

/-- C1, as amended. For every `n < 2^31` the line `(\f -> \x -> f x) (\y -> y) n` parses,
with enough fuel, to the expected tree, the evaluation in a fresh environment succeeds, and
the line handler prints `x`: the lookup of `y` returns the node bound to it, which is the
unreduced argument `Var x`. -/
theorem compose_line_prints_bound_node (n : Nat) (hn : n < 2147483648) :
    ∃ F, ∀ fuel, F ≤ fuel →
      parseLine fuel (composeLine n) = some (some (composeTree n), Parser.done (composeLine n)) ∧
      EvaluatesTo fuel (composeTree n) (Ast.Var ['x']) ∧
      processLine fuel (composeLine n) = some (Output.line ['x']) := by
  obtain ⟨F, hF⟩ := parseLine_of_yields (composeLine_yields n hn)
  exact prints_of_eval hF (compose_eval n)

/-- The line `(\f -> \x -> f x) (\y -> y) 9` prints `x`. -/
theorem compose_line_prints_bound_node_witness :
    9 < 2147483648 ∧
    composeLine 9 = "(\\f -> \\x -> f x) (\\y -> y) 9".toList ∧
    ∃ F, ∀ fuel, F ≤ fuel →
      parseLine fuel (composeLine 9) = some (some (composeTree 9), Parser.done (composeLine 9)) ∧
      EvaluatesTo fuel (composeTree 9) (Ast.Var ['x']) ∧
      processLine fuel (composeLine 9) = some (Output.line ['x']) :=
  ⟨by decide, by decide, compose_line_prints_bound_node 9 (by decide)⟩

/-- C1 as stated fails at `n = 9`: whatever the fuel, the line
`(\f -> \x -> f x) (\y -> y) 9` does not print `9`. -/
theorem compose_line_nine_not_printed :
    composeLine 9 = "(\\f -> \\x -> f x) (\\y -> y) 9".toList ∧
    ¬ ∃ fuel, processLine fuel (composeLine 9) = some (Output.line (decimal 9)) := by
  refine ⟨by decide, ?_⟩
  rintro ⟨fuel, h⟩
  have h2 : processLine 40 (composeLine 9) = some (Output.line ['x']) := by decide
  exact absurd (processLine_unique h h2) (by decide)

/-! ## Juxtaposition -/

theorem atom_text_cons (a : Atom) (h : a.wf) :
    ∃ c cs, a.text = c :: cs ∧ isSpace c = false := by
  cases a with
  | var c => exact ⟨c, [], rfl, isSpace_of_isNameChar h⟩
  | num n =>
    obtain ⟨d, ds, hd, hnum⟩ := decimal_cons n
    exact ⟨d, ds, hd, isSpace_of_isNum hnum⟩

theorem juxtapose_cons (a : Atom) (rest : List Atom) (h : a.wf) :
    ∃ c cs, juxtapose (a :: rest) = c :: cs ∧ isSpace c = false := by
  obtain ⟨c, cs, hc, hs⟩ := atom_text_cons a h
  cases rest with
  | nil => exact ⟨c, cs, hc, hs⟩
  | cons b bs => exact ⟨c, cs ++ ' ' :: juxtapose (b :: bs), by simp [juxtapose, hc], hs⟩

theorem loop_yields_atom {o : Option Tree} {r w : List Char} {t : Tree} (a : Atom) (h : a.wf)
    (hr1 : ∀ c ∈ r.head?, isNum c = false) (hr2 : ∀ c ∈ r.head?, isNameChar c = false)
    (hl : LoopYields (some (extend o a.tree)) (r.dropWhile isSpace) t w) :
    LoopYields o (a.text ++ r) t w := by
  cases a with
  | var c =>
    exact loop_yields_var [c] (by simp) (by simpa using h) hr2 (by simp) (by simp) hl
  | num n => exact loop_yields_num n h hr1 hl

theorem juxtapose_loop (rest : List Atom) : ∀ (a : Atom) (o : Option Tree),
    (∀ b ∈ a :: rest, b.wf) →
    LoopYields o (juxtapose (a :: rest)) (leftNested (extend o a.tree) rest) [] := by
  induction rest with
  | nil =>
    intro a o h
    have h1 := loop_yields_atom (o := o) (r := []) (w := []) a (h a (by simp)) (by simp)
      (by simp) (loop_done_nil _)
    rw [List.append_nil] at h1
    exact h1
  | cons b bs ih =>
    intro a o h
    have hb : ∀ c ∈ b :: bs, c.wf := fun c hc => h c (by simp [hc])
    obtain ⟨c, cs, hc, hs⟩ := juxtapose_cons b bs (h b (by simp))
    have h2 := ih b (some (extend o a.tree)) hb
    show LoopYields o (a.text ++ ' ' :: juxtapose (b :: bs)) _ []
    refine loop_yields_atom a (h a (by simp)) (by simp; decide) (by simp; decide) ?_
    rw [hc, dw_cons c cs hs, ← hc]
    exact h2

/-- C10. For every non-empty sequence of atoms, each a one-letter variable name or a decimal
literal below `2^31`, the single-spaced line `t1 t2 ... tn` parses, with enough fuel,
without failure, the whole line is consumed, and the tree is the left-nested
`Application(...Application(Application(t1, t2), t3)..., tn)`. -/
theorem juxtaposition_is_left_nested (a : Atom) (rest : List Atom)
    (h : ∀ b ∈ a :: rest, b.wf) :
    ∃ F, ∀ fuel, F ≤ fuel →
      parseLine fuel (juxtapose (a :: rest)) =
        some (some (leftNested a.tree rest), Parser.done (juxtapose (a :: rest))) :=
  parseLine_of_yields (yields_expr (juxtapose_loop rest a none h))

/-- The line `a b c` parses as `(a b) c`. -/
theorem juxtaposition_is_left_nested_witness :
    (∀ b ∈ [Atom.var 'a', Atom.var 'b', Atom.var 'c'], b.wf) ∧
    juxtapose [Atom.var 'a', Atom.var 'b', Atom.var 'c'] = "a b c".toList ∧
    leftNested (Atom.var 'a').tree [Atom.var 'b', Atom.var 'c'] =
      Ast.Application (Ast.Application (Ast.Var ['a']) (Ast.Var ['b'])) (Ast.Var ['c']) ∧
    ∃ F, ∀ fuel, F ≤ fuel →
      parseLine fuel (juxtapose [Atom.var 'a', Atom.var 'b', Atom.var 'c']) =
        some (some (leftNested (Atom.var 'a').tree [Atom.var 'b', Atom.var 'c']),
          Parser.done (juxtapose [Atom.var 'a', Atom.var 'b', Atom.var 'c'])) :=
  ⟨by simp [Atom.wf]; decide, by decide, by rfl,
    juxtaposition_is_left_nested (Atom.var 'a') [Atom.var 'b', Atom.var 'c']
      (by simp [Atom.wf]; decide)⟩

/-! ## The reserved words -/

theorem parseLine_fuel_mono {f g : Nat} (hfg : f ≤ g) {s : List Char}
    {r : Option Tree × Parser} (h : parseLine f s = some r) : parseLine g s = some r :=
  parseExpr_fuel_mono hfg h

/-- C2, the code at the failing input `let x = 5 in 3`: with the cursor on `in` (offset 10)
`matchId("in", false)` returns false because the character two places after the word, `3`,
is not a name character; `in` is then read as a variable, the `let` parser finds no `in`,
the parse fails with `Let expected in @14` and the line handler prints nothing. -/
theorem let_with_literal_body_fails :
    ({ Parser.init "let x = 5 in 3".toList with pos := 10 }.matchId "in".toList false).1 = false ∧
    ∀ fuel, 8 ≤ fuel →
      parseLine fuel "let x = 5 in 3".toList =
        some (none, { str := "let x = 5 in 3".toList, length := 14, pos := 14, ok := false,
                      errs := [("Let expected in", 14), ("Expected expression", 14)] }) ∧
      processLine fuel "let x = 5 in 3".toList = some Output.nothing := by
  refine ⟨by decide, fun fuel hf => ?_⟩
  exact ⟨parseLine_fuel_mono hf (by decide), processLine_fuel_mono hf (by decide)⟩

/-- C3, the code at the failing input `letter`: `matchId("let", true)` returns true and
moves the cursor to offset 3, although `let` is followed by the name character `t`; the
line is then parsed as a `let`, which fails with `Let expected '=' @6`, and the line handler
prints nothing. -/
theorem letter_is_taken_as_let :
    (Parser.init "letter".toList).matchId "let".toList true =
      (true, { Parser.init "letter".toList with pos := 3 }) ∧
    ∀ fuel, 8 ≤ fuel →
      parseLine fuel "letter".toList =
        some (none, { str := "letter".toList, length := 6, pos := 6, ok := false,
                      errs := [("Let expected '='", 6), ("Expected expression", 6)] }) ∧
      processLine fuel "letter".toList = some Output.nothing := by
  refine ⟨by decide, fun fuel hf => ?_⟩
  exact ⟨parseLine_fuel_mono hf (by decide), processLine_fuel_mono hf (by decide)⟩

/-- C4, the code at the failing inputs. With two spaces after `let`, `matchId("let", true)`
returns false (the character at offset 4 is a space), the word is read as the variable
`let`, and the parse stops at `=` with the tree `Application(Var let, Var x)`, which
evaluates to `error`. With two spaces after `in`, `in` is not recognised and the parse
fails with `Let expected in @15`. -/
theorem extra_space_after_keyword_changes_parse :
    (∀ fuel, 8 ≤ fuel →
      parseLine fuel "let  x = 5 in x".toList =
        some (some (Ast.Application (Ast.Var "let".toList) (Ast.Var "x".toList)),
          { str := "let  x = 5 in x".toList, length := 15, pos := 7, ok := true, errs := [] }) ∧
      processLine fuel "let  x = 5 in x".toList = some (Output.line "error".toList)) ∧
    (∀ fuel, 8 ≤ fuel →
      parseLine fuel "let x = 5 in  x".toList =
        some (none, { str := "let x = 5 in  x".toList, length := 15, pos := 15, ok := false,
                      errs := [("Let expected in", 15), ("Expected expression", 15)] }) ∧
      processLine fuel "let x = 5 in  x".toList = some Output.nothing) := by
  refine ⟨fun fuel hf => ?_, fun fuel hf => ?_⟩
  · exact ⟨parseLine_fuel_mono hf (by decide), processLine_fuel_mono hf (by decide)⟩
  · exact ⟨parseLine_fuel_mono hf (by decide), processLine_fuel_mono hf (by decide)⟩

/-! ## Closures and bindings -/

theorem copy_eq (env : Environ) : env.copy = env := by
  unfold Environ.copy
  induction env with
  | nil => rfl
  | cons a env ih => simp

/-- C5, as amended. Reducing a `Lambda` node always succeeds, returns the node and sets its
`env` field to a new `Environ` object holding the pairs of the current environment,
whether or not the field was set before; the objects allocated earlier are not touched.
The line `let k = \a -> \b -> a in k 1 (k 2 3)` prints `2`. -/
theorem lambda_reduction_captures_again (fuel addr e : Nat) (var : List Char) (expr : Node)
    (m : Machine) :
    reduce (fuel + 1) (Ast.Lambda addr var expr) e m =
      some (⟨some (Ast.Lambda addr var expr), true⟩, m.capture addr e) ∧
    (m.capture addr e).envOf addr = some m.envs.length ∧
    (m.capture addr e).env m.envs.length = m.env e ∧
    (∀ r, r < m.envs.length → (m.capture addr e).env r = m.env r) ∧
    ∃ F, ∀ fuel, F ≤ fuel →
      processLine fuel "let k = \\a -> \\b -> a in k 1 (k 2 3)".toList =
        some (Output.line "2".toList) := by
  refine ⟨by rw [reduce], ?_, ?_, ?_, processLine_of_le (f := 40) (by decide)⟩
  · simp [Machine.capture, Machine.envOf, List.lookup]
  · simp [Machine.capture, Machine.env, copy_eq]
  · intro r hr
    simp [Machine.capture, Machine.env, List.getElem?_append_left, hr]

/-- C5 as stated fails: whatever the fuel, the line `let k = \a -> \b -> a in k 1 (k 2 3)`
does not print `1`. -/
theorem first_capture_is_not_kept :
    ¬ ∃ fuel, processLine fuel "let k = \\a -> \\b -> a in k 1 (k 2 3)".toList =
      some (Output.line "1".toList) := by
  rintro ⟨fuel, h⟩
  have h2 : processLine 40 "let k = \\a -> \\b -> a in k 1 (k 2 3)".toList =
      some (Output.line "2".toList) := by decide
  exact absurd (processLine_unique h h2) (by decide)

/-- C6, as amended. In every environment in which `x` is bound to a node `b`, reducing
`Var(x)` succeeds and returns the node `b` itself: `b` is not reduced and the machine is
left as it was. The line `let x = (\y -> y) 3 in x` prints `((\y -> y) 3)`. -/
theorem variable_yields_stored_node (fuel e : Nat) (x : List Char) (b : Node) (m : Machine)
    (h : (m.env e).get x = some b) :
    reduce (fuel + 1) (Ast.Var x) e m = some (⟨some b, true⟩, m) ∧
    ∃ F, ∀ fuel, F ≤ fuel →
      processLine fuel "let x = (\\y -> y) 3 in x".toList =
        some (Output.line "((\\y -> y) 3)".toList) := by
  refine ⟨by rw [reduce, h], processLine_of_le (f := 40) (by decide)⟩

/-- The binding of `x` to the node of `(\y -> y) 3`, looked up. -/
theorem variable_yields_stored_node_witness :
    ((Machine.fresh.put 0 ['x']
        (Ast.Application (Ast.Lambda 0 ['y'] (Ast.Var ['y'])) (Ast.Num 3))).env 0).get ['x'] =
      some (Ast.Application (Ast.Lambda 0 ['y'] (Ast.Var ['y'])) (Ast.Num 3)) ∧
    (reduce 1 (Ast.Var ['x']) 0
        (Machine.fresh.put 0 ['x']
          (Ast.Application (Ast.Lambda 0 ['y'] (Ast.Var ['y'])) (Ast.Num 3))) =
      some (⟨some (Ast.Application (Ast.Lambda 0 ['y'] (Ast.Var ['y'])) (Ast.Num 3)), true⟩,
        Machine.fresh.put 0 ['x']
          (Ast.Application (Ast.Lambda 0 ['y'] (Ast.Var ['y'])) (Ast.Num 3))) ∧
    ∃ F, ∀ fuel, F ≤ fuel →
      processLine fuel "let x = (\\y -> y) 3 in x".toList =
        some (Output.line "((\\y -> y) 3)".toList)) :=
  ⟨by decide,
    variable_yields_stored_node 0 0 ['x']
      (Ast.Application (Ast.Lambda 0 ['y'] (Ast.Var ['y'])) (Ast.Num 3))
      (Machine.fresh.put 0 ['x']
        (Ast.Application (Ast.Lambda 0 ['y'] (Ast.Var ['y'])) (Ast.Num 3)))
      (by decide)⟩

/-- C6 as stated fails: whatever the fuel, the line `let x = (\y -> y) 3 in x` does not
print `3`. -/
theorem let_bound_application_is_not_reduced :
    ¬ ∃ fuel, processLine fuel "let x = (\\y -> y) 3 in x".toList =
      some (Output.line "3".toList) := by
  rintro ⟨fuel, h⟩
  have h2 : processLine 40 "let x = (\\y -> y) 3 in x".toList =
      some (Output.line "((\\y -> y) 3)".toList) := by decide
  exact absurd (processLine_unique h h2) (by decide)

/-! ## Variables -/

theorem processLine_of_fail {fuel : Nat} {s : List Char} {res : Option Tree} {q : Parser}
    (hp : parseLine fuel s = some (res, q)) (hq : q.ok = false) :
    processLine fuel s = some Output.nothing := by
  unfold processLine
  rw [hp]
  simp [hq]

theorem get_isSome_iff (env : Environ) (name : List Char) :
    (∃ v, env.get name = some v) ↔ ∃ pr ∈ env, pr.1 = name := by
  induction env with
  | nil =>
    constructor
    · rintro ⟨v, h⟩
      exact absurd h (by rw [Environ.get]; exact Option.noConfusion)
    · rintro ⟨pr, h, _⟩
      exact absurd h (List.not_mem_nil pr)
  | cons a env ih =>
    obtain ⟨k, v⟩ := a
    by_cases h : name = k
    · constructor
      · intro _
        exact ⟨(k, v), List.mem_cons_self _ _, h.symm⟩
      · intro _
        exact ⟨v, by rw [Environ.get, if_pos h]⟩
    · constructor
      · rintro ⟨w, hw⟩
        rw [Environ.get, if_neg h] at hw
        obtain ⟨pr, hpr, e⟩ := ih.1 ⟨w, hw⟩
        exact ⟨pr, List.mem_cons_of_mem _ hpr, e⟩
      · rintro ⟨pr, hpr, e⟩
        rcases List.mem_cons.1 hpr with h1 | h1
        · rw [h1] at e
          exact absurd e.symm h
        · obtain ⟨w, hw⟩ := ih.2 ⟨pr, h1, e⟩
          exact ⟨w, by rw [Environ.get, if_neg h]; exact hw⟩

theorem get_first (pre post : Environ) (name : List Char) (v : Node)
    (h : ∀ pr ∈ pre, pr.1 ≠ name) : Environ.get (pre ++ (name, v) :: post) name = some v := by
  induction pre with
  | nil => simp [Environ.get]
  | cons a pre ih =>
    obtain ⟨k, w⟩ := a
    have hk : ¬ name = k := fun e => h (k, w) (by simp) e.symm
    have ih2 := ih (fun pr hpr => h pr (by simp [hpr]))
    simp [Environ.get, hk, ih2]

/-- C11. Reducing `Var(name)` succeeds if and only if `name` is bound in the environment; on
success it returns the node of the first pair with that name, as stored, and the machine
(hence the environment) is left as it was; on failure the result is the null pointer with
`ok` cleared, the environments are left as they were and `Variable not found` is reported.
A line that parses to a single variable prints `error`. -/
theorem variable_reduction_is_lookup (fuel e f : Nat) (name line : List Char) (m : Machine)
    (p : Parser) (hp : parseLine f line = some (some (Ast.Var name), p)) (hok : p.ok = true) :
    (∃ r, reduce (fuel + 1) (Ast.Var name) e m = some r ∧
      (r.1.ok = true ↔ ∃ pr ∈ m.env e, pr.1 = name)) ∧
    (∀ v, (m.env e).get name = some v →
      reduce (fuel + 1) (Ast.Var name) e m = some (⟨some v, true⟩, m)) ∧
    (∀ pre post v, m.env e = pre ++ (name, v) :: post → (∀ pr ∈ pre, pr.1 ≠ name) →
      reduce (fuel + 1) (Ast.Var name) e m = some (⟨some v, true⟩, m)) ∧
    ((m.env e).get name = none →
      reduce (fuel + 1) (Ast.Var name) e m =
        some (⟨none, false⟩, m.report (EvalError.variableNotFound name)) ∧
      (m.report (EvalError.variableNotFound name)).envs = m.envs) ∧
    ∃ F, ∀ fuel, F ≤ fuel → processLine fuel line = some (Output.line "error".toList) := by
  refine ⟨?_, ?_, ?_, ?_, ?_⟩
  · rw [← get_isSome_iff]
    cases h : (m.env e).get name with
    | none => exact ⟨_, by rw [reduce, h], by simp⟩
    | some v => exact ⟨_, by rw [reduce, h], by simp⟩
  · intro v h
    rw [reduce, h]
  · intro pre post v h1 h2
    rw [reduce, h1, get_first pre post name v h2]
  · intro h
    exact ⟨by rw [reduce, h], rfl⟩
  · refine ⟨max f 1, fun fuel hf => ?_⟩
    have hp2 := parseLine_fuel_mono (le_trans (le_max_left _ _) hf) hp
    obtain ⟨g, rfl⟩ : ∃ g, fuel = g + 1 := ⟨fuel - 1, by omega⟩
    unfold processLine
    rw [hp2]
    simp [hok, evalTree, load, reduce, Machine.fresh, Machine.env, Environ.get]

/-- The line `y` prints `error`. -/
theorem variable_reduction_is_lookup_witness :
    parseLine 3 "y".toList = some (some (Ast.Var ['y']), Parser.done "y".toList) ∧
    (Parser.done "y".toList).ok = true ∧
    (∃ r, reduce 1 (Ast.Var ['y']) 0 Machine.fresh = some r ∧
      (r.1.ok = true ↔ ∃ pr ∈ Machine.fresh.env 0, pr.1 = ['y'])) ∧
    (∀ v, (Machine.fresh.env 0).get ['y'] = some v →
      reduce 1 (Ast.Var ['y']) 0 Machine.fresh = some (⟨some v, true⟩, Machine.fresh)) ∧
    (∀ pre post v, Machine.fresh.env 0 = pre ++ (['y'], v) :: post →
      (∀ pr ∈ pre, pr.1 ≠ ['y']) →
      reduce 1 (Ast.Var ['y']) 0 Machine.fresh = some (⟨some v, true⟩, Machine.fresh)) ∧
    ((Machine.fresh.env 0).get ['y'] = none →
      reduce 1 (Ast.Var ['y']) 0 Machine.fresh =
        some (⟨none, false⟩, Machine.fresh.report (EvalError.variableNotFound ['y'])) ∧
      (Machine.fresh.report (EvalError.variableNotFound ['y'])).envs = Machine.fresh.envs) ∧
    ∃ F, ∀ fuel, F ≤ fuel →
      processLine fuel "y".toList = some (Output.line "error".toList) :=
  ⟨by decide, by decide,
    variable_reduction_is_lookup 0 0 3 ['y'] "y".toList Machine.fresh
      (Parser.done "y".toList) (by decide) (by decide)⟩

/-! ## Application of a non-function -/

theorem loop_num_any (f : Nat) (o : Option Tree) (pre r : List Char) (n : Nat)
    (hr : ∀ c ∈ r.head?, isNum c = false) :
    parseExprLoop (f + 1) o (Parser.cur pre (decimal n ++ r)) =
      parseExprLoop f (some (extend o (Ast.Num (digitsValue 0 (decimal n)))))
        (Parser.cur (pre ++ decimal n) r).skipSpace := by
  obtain ⟨d, ds, hd, hnum⟩ := decimal_cons n
  have htw := takeWhile_append_of_all isNum (decimal n) r (decimal_isNum n) hr
  have hfin : (Parser.cur pre (decimal n ++ r)).finished = false := by
    rw [hd]; exact Parser.finished_cur_cons _ _ _
  have hpk : isNum (Parser.cur pre (decimal n ++ r)).peek = true := by
    rw [hd, List.cons_append, Parser.peek_cur_cons]; exact hnum
  rw [parseExprLoop, hfin, hpk, parseNum_cur, htw.1, htw.2]
  simp [Parser.skipSpace_cur, cur_ok]

theorem loop_yields_num_any {o : Option Tree} {r w : List Char} {t : Tree} (n : Nat)
    (hr : ∀ c ∈ r.head?, isNum c = false)
    (h : LoopYields (some (extend o (Ast.Num (digitsValue 0 (decimal n)))))
      (r.dropWhile isSpace) t w) :
    LoopYields o (decimal n ++ r) t w := by
  obtain ⟨F, hF⟩ := h
  refine ⟨F + 1, fun fuel hf pre => ?_⟩
  obtain ⟨g, rfl, hg⟩ := exists_succ_of_le hf
  obtain ⟨pre', e, h⟩ := hF g hg (pre ++ decimal n ++ r.takeWhile isSpace)
  refine ⟨pre', ?_, ?_⟩
  · rw [e, List.append_assoc, List.append_assoc, List.takeWhile_append_dropWhile]
  · rw [loop_num_any g o pre r n hr, Parser.skipSpace_cur, h]

theorem two_literals_yield (a b : Nat) :
    Yields parseExpr (decimal a ++ ' ' :: decimal b)
      (Ast.Application (Ast.Num (digitsValue 0 (decimal a)))
        (Ast.Num (digitsValue 0 (decimal b)))) [] := by
  apply yields_expr
  refine loop_yields_num_any a (by simp; decide) ?_
  rw [dw_decimal_nil]
  have h := loop_yields_num_any (o := some (extend none (Ast.Num (digitsValue 0 (decimal a)))))
    (r := []) (w := []) b (by simp) (loop_done_nil _)
  rw [List.append_nil] at h
  exact h

/-- C12. Whenever reducing `f` succeeds with a node that is not a `Lambda`, reducing
`Application(f, a)` fails: the result is the null pointer with `ok` cleared, and the machine
is the one left by the reduction of `f` with `Cannot apply to non-lambda` reported, whatever
`a` is (`a` is not reduced). For all decimal literals `a`, `b` the line `a b` parses to an
application of a number to a number and prints `error`. -/
theorem application_of_non_lambda_fails (fuel e a b : Nat) (fn arg v : Node) (m m1 : Machine)
    (hf : reduce fuel fn e m = some (⟨some v, true⟩, m1))
    (hv : ∀ addr x body, v ≠ Ast.Lambda addr x body) :
    reduce (fuel + 1) (Ast.Application fn arg) e m =
      some (⟨none, false⟩, m1.report EvalError.cannotApply) ∧
    ∃ F, ∀ fuel, F ≤ fuel →
      parseLine fuel (decimal a ++ ' ' :: decimal b) =
        some (some (Ast.Application (Ast.Num (digitsValue 0 (decimal a)))
          (Ast.Num (digitsValue 0 (decimal b)))), Parser.done (decimal a ++ ' ' :: decimal b)) ∧
      processLine fuel (decimal a ++ ' ' :: decimal b) = some (Output.line "error".toList) := by
  constructor
  · rw [reduce, hf]
    cases v with
    | Lambda addr x body => exact absurd rfl (hv addr x body)
    | Num n => rfl
    | Var name => rfl
    | Application g c => rfl
    | Let x w c => rfl
  · obtain ⟨F, hF⟩ := parseLine_of_yields (two_literals_yield a b)
    refine ⟨max F 3, fun fuel hf => ?_⟩
    have hp := hF fuel (le_trans (le_max_left _ _) hf)
    refine ⟨hp, ?_⟩
    have he : evalTree 3 (Ast.Application (Ast.Num (digitsValue 0 (decimal a)))
        (Ast.Num (digitsValue 0 (decimal b)))) =
        some (⟨none, false⟩, Machine.fresh.report EvalError.cannotApply) := rfl
    exact processLine_of_parse hp he (le_trans (le_max_right _ _) hf)

/-- The line `3 4` prints `error`. -/
theorem application_of_non_lambda_fails_witness :
    reduce 1 (Ast.Num 3) 0 Machine.fresh = some (⟨some (Ast.Num 3), true⟩, Machine.fresh) ∧
    (∀ addr x body, (Ast.Num 3 : Node) ≠ Ast.Lambda addr x body) ∧
    decimal 3 ++ ' ' :: decimal 4 = "3 4".toList ∧
    reduce 2 (Ast.Application (Ast.Num 3) (Ast.Num 4)) 0 Machine.fresh =
      some (⟨none, false⟩, Machine.fresh.report EvalError.cannotApply) ∧
    ∃ F, ∀ fuel, F ≤ fuel →
      parseLine fuel (decimal 3 ++ ' ' :: decimal 4) =
        some (some (Ast.Application (Ast.Num (digitsValue 0 (decimal 3)))
          (Ast.Num (digitsValue 0 (decimal 4)))), Parser.done (decimal 3 ++ ' ' :: decimal 4)) ∧
      processLine fuel (decimal 3 ++ ' ' :: decimal 4) = some (Output.line "error".toList) :=
  ⟨by decide, fun _ _ _ h => Ast.noConfusion h, by decide,
    application_of_non_lambda_fails 1 0 3 4 (Ast.Num 3) (Ast.Num 4) (Ast.Num 3) Machine.fresh
      Machine.fresh (by decide) (fun _ _ _ h => Ast.noConfusion h)⟩

/-! ## Integer literals -/

theorem rawDigitsValue_decimal (n : Nat) : rawDigitsValue 0 (decimal n) = n := by
  induction n using Nat.strong_induction_on with
  | _ n ih =>
    by_cases hs : n < 10
    · rw [decimal_small n hs]
      simp only [rawDigitsValue, List.foldl, digitChar_toNat n hs]
      push_cast
      omega
    · rw [decimal_step n (by omega)]
      have hlt : n / 10 < n := Nat.div_lt_self (by omega) (by omega)
      have ih2 := ih (n / 10) hlt
      simp only [rawDigitsValue] at ih2 ⊢
      rw [List.foldl_append, ih2]
      simp only [List.foldl, digitChar_toNat (n % 10) (Nat.mod_lt _ (by omega))]
      push_cast
      omega

theorem prefix_decimal (n : Nat) :
    ∀ p, p <+: decimal n → p = [] ∨ ∃ k, k ≤ n ∧ p = decimal k := by
  induction n using Nat.strong_induction_on with
  | _ n ih =>
    intro p hp
    by_cases hs : n < 10
    · rw [decimal_small n hs] at hp
      cases p with
      | nil => exact Or.inl rfl
      | cons c p =>
        right
        refine ⟨n, le_refl _, ?_⟩
        rw [decimal_small n hs]
        have hl := hp.length_le
        simp only [List.length_cons, List.length_nil] at hl
        exact List.IsPrefix.eq_of_length hp (by simp only [List.length_cons, List.length_nil]; omega)
    · rw [decimal_step n (by omega)] at hp
      have hlt : n / 10 < n := Nat.div_lt_self (by omega) (by omega)
      rcases List.prefix_or_prefix_of_prefix hp (List.prefix_append _ _) with h1 | h1
      · rcases ih (n / 10) hlt p h1 with h2 | ⟨k, hk, h2⟩
        · exact Or.inl h2
        · exact Or.inr ⟨k, by omega, h2⟩
      · right
        have l1 := hp.length_le
        have l2 := h1.length_le
        simp only [List.length_append, List.length_singleton] at l1
        by_cases hlen : p.length = (decimal (n / 10)).length
        · exact ⟨n / 10, by omega, (List.IsPrefix.eq_of_length h1 hlen.symm).symm⟩
        · refine ⟨n, le_refl _, ?_⟩
          rw [decimal_step n (by omega)]
          exact List.IsPrefix.eq_of_length hp (by
            simp only [List.length_append, List.length_singleton]
            omega)

theorem literal_eval (n : Nat) :
    EvaluatesTo 1 (Ast.Num n) (Ast.Num n) := by
  rfl

/-- C14. For every `n < 2^31` the line that is the decimal text of `n` parses to `Num(n)`
with the whole line consumed; the accumulation `x * 10 + d`, computed in unbounded integers
over any prefix of the text, stays between `0` and `n`, so no step leaves the range of a
32-bit signed `int`; reducing `Num(n)` returns the same node with `ok` set and the machine
unchanged, in any environment; and the line handler prints the text of the line. -/
theorem literal_round_trip (n fuel e : Nat) (m : Machine) (hn : n < 2147483648) :
    (∀ p, p <+: decimal n → 0 ≤ rawDigitsValue 0 p ∧ rawDigitsValue 0 p ≤ n) ∧
    reduce (fuel + 1) (Ast.Num n) e m = some (⟨some (Ast.Num n), true⟩, m) ∧
    ∃ F, ∀ fuel, F ≤ fuel →
      parseLine fuel (decimal n) = some (some (Ast.Num n), Parser.done (decimal n)) ∧
      EvaluatesTo fuel (Ast.Num n) (Ast.Num n) ∧
      processLine fuel (decimal n) = some (Output.line (decimal n)) := by
  refine ⟨?_, by rw [reduce], ?_⟩
  · intro p hp
    rcases prefix_decimal n p hp with h | ⟨k, hk, h⟩
    · rw [h]
      simp [rawDigitsValue]
    · rw [h, rawDigitsValue_decimal]
      omega
  · have hy : Yields parseExpr (decimal n) (Ast.Num n) [] := by
      apply yields_expr
      have h := loop_yields_num (o := none) (r := []) (w := []) n hn (by simp) (loop_done_nil _)
      rw [List.append_nil] at h
      exact h
    obtain ⟨F, hF⟩ := parseLine_of_yields hy
    have h := prints_of_eval hF (literal_eval n)
    simpa only [print, printInt_natCast] using h

/-- The line `3` yields `Num(3)` and prints `3`. -/
theorem literal_round_trip_witness :
    3 < 2147483648 ∧ decimal 3 = "3".toList ∧
    (∀ p, p <+: decimal 3 → 0 ≤ rawDigitsValue 0 p ∧ rawDigitsValue 0 p ≤ 3) ∧
    reduce 1 (Ast.Num 3) 0 Machine.fresh = some (⟨some (Ast.Num 3), true⟩, Machine.fresh) ∧
    ∃ F, ∀ fuel, F ≤ fuel →
      parseLine fuel (decimal 3) = some (some (Ast.Num 3), Parser.done (decimal 3)) ∧
      EvaluatesTo fuel (Ast.Num 3) (Ast.Num 3) ∧
      processLine fuel (decimal 3) = some (Output.line (decimal 3)) :=
  ⟨by decide, by decide, literal_round_trip 3 0 0 Machine.fresh (by decide)⟩

/-! ## Lines without an expression -/

/-- C15. For every line that is empty or whose first character is none of a digit, an ASCII
letter, `(` or `\`, `parseExpr` fails with the one diagnostic `Expected expression @0`, the
cursor still at offset 0, and the line handler prints nothing. -/
theorem no_atom_is_a_parse_failure (line : List Char) (fuel : Nat) (hf : 2 ≤ fuel)
    (h : line = [] ∨ ∃ c r, line = c :: r ∧ isNum c = false ∧ isNameChar c = false ∧
      c ≠ '(' ∧ c ≠ '\\') :
    parseLine fuel line =
      some (none, { str := line, length := line.length, pos := 0, ok := false,
                    errs := [("Expected expression", 0)] }) ∧
    processLine fuel line = some Output.nothing := by
  obtain ⟨g, rfl⟩ : ∃ g, fuel = g + 2 := ⟨fuel - 2, by omega⟩
  have hl : parseExprLoop (g + 1) none (Parser.cur [] line) = some (none, Parser.cur [] line) := by
    rcases h with h | ⟨c, r, h, h1, h2, h3, h4⟩
    · rw [h]; exact loop_nil g none []
    · rw [h]; exact loop_break g none [] r c h1 h2 h3 h4
  have hp : parseLine (g + 2) line =
      some (none, { str := line, length := line.length, pos := 0, ok := false,
                    errs := [("Expected expression", 0)] }) := by
    rw [parseLine, Parser.init_eq_cur, parseExpr, hl]
    simp [Parser.cur, Parser.fail]
  exact ⟨hp, processLine_of_fail hp rfl⟩

/-- The line ` 3`, which starts with a space, prints nothing. -/
theorem no_atom_is_a_parse_failure_witness :
    2 ≤ 2 ∧
    (" 3".toList = [] ∨ ∃ c r, " 3".toList = c :: r ∧ isNum c = false ∧ isNameChar c = false ∧
      c ≠ '(' ∧ c ≠ '\\') ∧
    parseLine 2 " 3".toList =
      some (none, { str := " 3".toList, length := " 3".toList.length, pos := 0, ok := false,
                    errs := [("Expected expression", 0)] }) ∧
    processLine 2 " 3".toList = some Output.nothing :=
  ⟨by decide, Or.inr ⟨' ', ['3'], by decide, by decide, by decide, by decide, by decide⟩,
    no_atom_is_a_parse_failure " 3".toList 2 (by decide)
      (Or.inr ⟨' ', ['3'], by decide, by decide, by decide, by decide, by decide⟩)⟩

/-! ## Printing, then parsing -/

theorem print_cons (t : Tree) (h : LetFree t) :
    ∃ c cs, print t = c :: cs ∧ isSpace c = false := by
  cases t with
  | Num n =>
    obtain ⟨d, ds, hd, hnum⟩ := decimal_cons n.toNat
    refine ⟨d, ds, ?_, isSpace_of_isNum hnum⟩
    have h0 : ¬ n < 0 := by have := h.1; omega
    simp only [print, printInt, h0, if_false]
    exact hd
  | Var name =>
    obtain ⟨c, hc, hn⟩ := h
    exact ⟨c, [], by rw [hc]; rfl, isSpace_of_isNameChar hn⟩
  | Application fn arg => exact ⟨'(', _, rfl, by decide⟩
  | Let x v e => exact absurd h (by simp [LetFree])
  | Lambda u x e => exact ⟨'(', _, rfl, by decide⟩

theorem dw_print (t : Tree) (h : LetFree t) (r : List Char) :
    (print t ++ r).dropWhile isSpace = print t ++ r ∧
    (' ' :: (print t ++ r)).dropWhile isSpace = print t ++ r := by
  obtain ⟨c, cs, hc, hs⟩ := print_cons t h
  rw [hc, List.cons_append, dw_keep c _ hs, dw_cons c _ hs]
  exact ⟨rfl, rfl⟩

theorem loop_yields_print (t : Tree) : LetFree t → ∀ (o : Option Tree) (r w : List Char)
    (T : Tree), (∀ c ∈ r.head?, isNum c = false) → (∀ c ∈ r.head?, isNameChar c = false) →
    LoopYields (some (extend o t)) (r.dropWhile isSpace) T w →
    LoopYields o (print t ++ r) T w := by
  induction t with
  | Num n =>
    intro h o r w T hr1 _ hl
    have h0 : ¬ n < 0 := by have := h.1; omega
    have hn : (n.toNat : Int) = n := Int.toNat_of_nonneg h.1
    have hlt : n.toNat < 2147483648 := by have := h.2; omega
    simp only [print, printInt, h0, if_false]
    refine loop_yields_num n.toNat hlt hr1 ?_
    rw [hn]
    exact hl
  | Var name =>
    intro h o r w T _ hr2 hl
    obtain ⟨c, hc, hn⟩ := h
    subst hc
    exact loop_yields_var [c] (by simp) (by simpa using hn) hr2 (by simp) (by simp) hl
  | Let x v e _ _ =>
    intro h
    exact absurd h (by simp [LetFree])
  | Application fn arg ihf iha =>
    intro h o r w T _ _ hl
    obtain ⟨hf, ha⟩ := h
    have hinner : Yields parseExpr (print fn ++ ' ' :: (print arg ++ ')' :: r))
        (Ast.Application fn arg) (')' :: r) := by
      apply yields_expr
      refine ihf hf none _ _ _ (by simp; decide) (by simp; decide) ?_
      rw [(dw_print arg ha _).2]
      refine iha ha _ _ _ _ (by simp; decide) (by simp; decide) ?_
      rw [dw_keep _ _ (by decide)]
      exact loop_done_break _ _ _ (by decide) (by decide) (by decide) (by decide)
    have e : print (Ast.Application fn arg) ++ r =
        '(' :: (print fn ++ ' ' :: (print arg ++ ')' :: r)) := by
      simp [print]
    rw [e]
    refine loop_yields_bracket ?_ hl
    rw [(dw_print fn hf _).1]
    exact yields_bracket hinner
  | Lambda u x body ih =>
    intro h o r w T _ _ hl
    obtain ⟨⟨c, hc, hn⟩, hb⟩ := h
    subst hc
    have hcs : isSpace c = false := isSpace_of_isNameChar hn
    have hbody : Yields parseExpr (print body ++ ')' :: r) body (')' :: r) := by
      apply yields_expr
      refine ih hb none _ _ _ (by simp; decide) (by simp; decide) ?_
      rw [dw_keep _ _ (by decide)]
      exact loop_done_break _ _ _ (by decide) (by decide) (by decide) (by decide)
    have hlam : Yields parseLambda (c :: ' ' :: '-' :: '>' :: ' ' :: (print body ++ ')' :: r))
        (Ast.Lambda () [c] body) (')' :: r) := by
      refine yields_lambda (r := ' ' :: (print body ++ ')' :: r)) [c] (by simp)
        (by simpa using hn) (by simp) ?_
      rw [(dw_print body hb _).2]
      exact hbody
    have hinner : Yields parseExpr
        ('\\' :: c :: ' ' :: '-' :: '>' :: ' ' :: (print body ++ ')' :: r))
        (Ast.Lambda () [c] body) (')' :: r) := by
      apply yields_expr
      refine loop_yields_lambda (a := Ast.Lambda () [c] body) (u := ')' :: r) ?_ ?_
      · rw [dw_keep _ _ hcs]
        exact hlam
      · exact loop_done_break _ _ _ (by decide) (by decide) (by decide) (by decide)
    have e : print (Ast.Lambda u [c] body) ++ r =
        '(' :: '\\' :: c :: ' ' :: '-' :: '>' :: ' ' :: (print body ++ ')' :: r) := by
      simp [print]
    rw [e]
    refine loop_yields_bracket ?_ hl
    rw [dw_keep _ _ (by decide)]
    exact yields_bracket hinner

/-- C18. For every tree `t` built only from `Num(n)` with `0 ≤ n < 2^31`, `Var` with a
one-letter name, `Application`, and `Lambda` with a one-letter parameter, parsing the printed
form of `t` succeeds with enough fuel, consumes the whole text, and yields `t`. -/
theorem parse_of_print (t : Tree) (h : LetFree t) :
    ∃ F, ∀ fuel, F ≤ fuel → parseLine fuel (print t) = some (some t, Parser.done (print t)) := by
  apply parseLine_of_yields
  apply yields_expr
  have hl := loop_yields_print t h none [] [] t (by simp) (by simp) (loop_done_nil _)
  rw [List.append_nil] at hl
  exact hl

/-- The tree of `(\x -> x) 7`, printed as `((\x -> x) 7)`, is parsed back. -/
theorem parse_of_print_witness :
    LetFree (Ast.Application (Ast.Lambda () ['x'] (Ast.Var ['x'])) (Ast.Num 7)) ∧
    print (Ast.Application (Ast.Lambda () ['x'] (Ast.Var ['x'])) (Ast.Num 7) : Tree) =
      "((\\x -> x) 7)".toList ∧
    ∃ F, ∀ fuel, F ≤ fuel →
      parseLine fuel (print (Ast.Application (Ast.Lambda () ['x'] (Ast.Var ['x'])) (Ast.Num 7) : Tree)) =
        some (some (Ast.Application (Ast.Lambda () ['x'] (Ast.Var ['x'])) (Ast.Num 7)),
          Parser.done
            (print (Ast.Application (Ast.Lambda () ['x'] (Ast.Var ['x'])) (Ast.Num 7) : Tree))) :=
  ⟨by simp [LetFree]; decide, by decide,
    parse_of_print (Ast.Application (Ast.Lambda () ['x'] (Ast.Var ['x'])) (Ast.Num 7))
      (by simp [LetFree]; decide)⟩

/-! ## Trailing input -/

theorem isNum_of_isSpace {c : Char} (h : isSpace c = true) : isNum c = false := by
  rw [isSpace_iff] at h
  rw [Bool.eq_false_iff, Ne, isNum_iff]
  omega

theorem processLine_of_parse_ok {fuel f : Nat} {s : List Char} {t : Tree} {q : Parser}
    {r : Outcome} {m : Machine} (hp : parseLine fuel s = some (some t, q)) (hq : q.ok = true)
    (he : evalTree f t = some (r, m)) (hf : f ≤ fuel) :
    processLine fuel s = some (Output.line
      (match r.ret with
        | some v => print v
        | none => "error".toList)) := by
  have he2 : evalTree fuel t = some (r, m) := reduce_fuel_mono hf he
  unfold processLine
  rw [hp]
  simp only [hq, if_true, he2]
  cases r.ret <;> rfl

/-- C19, as amended. For every `n < 2^31`, every run `sp` of whitespace characters (space,
tab, carriage return, newline) and every character `c` that is neither whitespace nor a
digit, an ASCII letter, `(` or `\`, the line `n sp c rest` parses without failure to `Num(n)`,
the cursor stopping before `c`, and the line handler prints the decimal text of `n`. -/
theorem trailing_input_is_ignored (n : Nat) (sp rest : List Char) (c : Char)
    (hn : n < 2147483648) (hsp : ∀ d ∈ sp, isSpace d = true) (h0 : isSpace c = false)
    (h1 : isNum c = false) (h2 : isNameChar c = false) (h3 : c ≠ '(') (h4 : c ≠ '\\') :
    ∃ F, ∀ fuel, F ≤ fuel →
      parseLine fuel (decimal n ++ (sp ++ c :: rest)) =
        some (some (Ast.Num n), Parser.cur (decimal n ++ sp) (c :: rest)) ∧
      processLine fuel (decimal n ++ (sp ++ c :: rest)) = some (Output.line (decimal n)) := by
  have hdw := takeWhile_append_of_all isSpace sp (c :: rest) hsp (by simpa using h0)
  have hl : LoopYields none (decimal n ++ (sp ++ c :: rest)) (Ast.Num n) (c :: rest) := by
    refine loop_yields_num n hn ?_ ?_
    · cases sp with
      | nil => simpa using h1
      | cons d sp => simpa using isNum_of_isSpace (hsp d (by simp))
    · rw [hdw.2]
      exact loop_done_break _ c rest h1 h2 h3 h4
  obtain ⟨F, hF⟩ := yields_expr hl
  refine ⟨max F 1, fun fuel hf => ?_⟩
  obtain ⟨pre', e, h⟩ := hF fuel (le_trans (le_max_left _ _) hf) []
  have e2 : pre' = decimal n ++ sp := by
    have e3 : pre' ++ c :: rest = (decimal n ++ sp) ++ c :: rest := by
      rw [e]; simp
    exact List.append_cancel_right e3
  have hp : parseLine fuel (decimal n ++ (sp ++ c :: rest)) =
      some (some (Ast.Num n), Parser.cur (decimal n ++ sp) (c :: rest)) := by
    rw [parseLine, Parser.init_eq_cur, h, e2]
  refine ⟨hp, ?_⟩
  have he : evalTree 1 (Ast.Num n) = some (⟨some (Ast.Num n), true⟩, Machine.fresh) := rfl
  have h5 := processLine_of_parse_ok hp rfl he (le_trans (le_max_right _ _) hf)
  rw [h5]
  simp only [print, printInt_natCast]

/-- The lines `3)` and `3 + 4` print `3`. -/
theorem trailing_input_is_ignored_witness :
    3 < 2147483648 ∧ (∀ d ∈ [' '], isSpace d = true) ∧ isSpace '+' = false ∧
    isNum '+' = false ∧ isNameChar '+' = false ∧ '+' ≠ '(' ∧ '+' ≠ '\\' ∧
    decimal 3 ++ ([' '] ++ '+' :: [' ', '4']) = "3 + 4".toList ∧ decimal 3 = "3".toList ∧
    ∃ F, ∀ fuel, F ≤ fuel →
      parseLine fuel (decimal 3 ++ ([' '] ++ '+' :: [' ', '4'])) =
        some (some (Ast.Num 3), Parser.cur (decimal 3 ++ [' ']) ('+' :: [' ', '4'])) ∧
      processLine fuel (decimal 3 ++ ([' '] ++ '+' :: [' ', '4'])) =
        some (Output.line (decimal 3)) :=
  ⟨by decide, by decide, by decide, by decide, by decide, by decide, by decide, by decide,
    by decide,
    trailing_input_is_ignored 3 [' '] [' ', '4'] '+' (by decide) (by decide) (by decide)
      (by decide) (by decide) (by decide) (by decide)⟩

/-- C19 as stated fails when the character after the literal is a tab: a tab is none of a
digit, an ASCII letter, `(` or `\`, and yet the line made of `3`, a tab and `4` does not
print `3` whatever the fuel (the tab is skipped, the tree is `Application(3, 4)` and the
line prints `error`). -/
theorem tab_before_atom_is_skipped :
    isNum '\t' = false ∧ isNameChar '\t' = false ∧ '\t' ≠ '(' ∧ '\t' ≠ '\\' ∧
    processLine 5 "3\t4".toList = some (Output.line "error".toList) ∧
    ¬ ∃ fuel, processLine fuel "3\t4".toList = some (Output.line "3".toList) := by
  have h2 : processLine 5 "3\t4".toList = some (Output.line "error".toList) := by decide
  refine ⟨by decide, by decide, by decide, by decide, h2, ?_⟩
  rintro ⟨fuel, h⟩
  exact absurd (processLine_unique h h2) (by decide)

/-! ## The cursor only moves forward, inside the line -/

namespace Parser

theorem Ext.refl (p : Parser) : Ext p p :=
  ⟨rfl, rfl, le_refl _, fun h => h, fun h => ⟨h, rfl⟩⟩

theorem Ext.trans {p q r : Parser} (h1 : Ext p q) (h2 : Ext q r) : Ext p r := by
  obtain ⟨a1, a2, a3, a4, a5⟩ := h1
  obtain ⟨b1, b2, b3, b4, b5⟩ := h2
  refine ⟨by rw [b1, a1], by rw [b2, a2], le_trans a3 b3, fun h => b4 (a4 h), fun h => ?_⟩
  obtain ⟨c1, c2⟩ := b5 h
  obtain ⟨d1, d2⟩ := a5 c1
  exact ⟨d1, by rw [c2, d2]⟩

theorem Ext.fail {p q : Parser} (h : Ext p q) (msg : String) : Ext p (q.fail msg) := by
  obtain ⟨a1, a2, a3, a4, _⟩ := h
  exact ⟨a1, a2, a3, a4, fun h => absurd h (by simp [Parser.fail])⟩

theorem skipSpaceLoop_bounds (str : List Char) (length : Nat) : ∀ (fuel pos : Nat),
    pos ≤ skipSpaceLoop str length fuel pos ∧
    (pos ≤ length → skipSpaceLoop str length fuel pos ≤ length) := by
  intro fuel
  induction fuel with
  | zero => intro pos; exact ⟨le_refl _, fun h => h⟩
  | succ f ih =>
    intro pos
    rw [skipSpaceLoop]
    split_ifs with h1 h2
    · have := ih (pos + 1)
      exact ⟨by omega, fun _ => this.2 (by omega)⟩
    · exact ⟨le_refl _, fun h => h⟩
    · exact ⟨le_refl _, fun h => h⟩

theorem ext_skipSpace (p : Parser) : Ext p p.skipSpace := by
  have h := skipSpaceLoop_bounds p.str p.length (p.length - p.pos) p.pos
  exact ⟨rfl, rfl, h.1, h.2, fun h => ⟨h, rfl⟩⟩

theorem ext_jump (p : Parser) (k : Nat) (h : p.pos + k ≤ p.length) :
    Ext p { p with pos := p.pos + k } :=
  ⟨rfl, rfl, Nat.le_add_right _ _, fun _ => h, fun h => ⟨h, rfl⟩⟩

theorem ext_matchChar (p : Parser) (c : Char) :
    Ext p (p.matchChar c).2 ∧ ((p.matchChar c).1 = true → p.pos < (p.matchChar c).2.pos) := by
  unfold matchChar
  split_ifs with h
  · have e := Ext.trans (ext_jump p 1 (by omega)) (ext_skipSpace { p with pos := p.pos + 1 })
    exact ⟨e, fun _ => by
      have := (ext_skipSpace { p with pos := p.pos + 1 }).2.2.1
      simp only at this ⊢
      omega⟩
  · exact ⟨Ext.refl p, fun h => absurd h (by simp)⟩

theorem ext_matchStr (p : Parser) (s : List Char) :
    Ext p (p.matchStr s).2 ∧
    ((p.matchStr s).1 = true → p.pos + s.length ≤ (p.matchStr s).2.pos) := by
  unfold matchStr
  dsimp only
  split_ifs with h1 h2
  · exact ⟨Ext.refl p, fun h => absurd h (by simp)⟩
  · exact ⟨Ext.refl p, fun h => absurd h (by simp)⟩
  · have e := Ext.trans (ext_jump p s.length (by omega))
      (ext_skipSpace { p with pos := p.pos + s.length })
    exact ⟨e, fun _ => (ext_skipSpace { p with pos := p.pos + s.length }).2.2.1⟩

theorem ext_matchId (p : Parser) (s : List Char) (adv : Bool) :
    Ext p (p.matchId s adv).2 := by
  unfold matchId
  dsimp only
  split_ifs with h1 h2 h3 h4
  · exact Ext.refl p
  · exact Ext.refl p
  · exact Ext.refl p
  · exact Ext.trans (ext_jump p s.length (by omega))
      (ext_skipSpace { p with pos := p.pos + s.length })
  · exact Ext.refl p

theorem adv_matchId (p : Parser) (s : List Char) (h : (p.matchId s true).1 = true) :
    p.pos + s.length ≤ (p.matchId s true).2.pos := by
  unfold matchId at h ⊢
  dsimp only at h ⊢
  split_ifs at h ⊢
  all_goals first
    | exact (ext_skipSpace { p with pos := p.pos + s.length }).2.2.1
    | simp_all

theorem peek_lt_of_isNum (p : Parser) (h : isNum p.peek = true) : p.pos < p.length := by
  by_contra hc
  unfold peek at h
  rw [if_neg hc] at h
  exact absurd h (by decide)

theorem peek_lt_of_isNameChar (p : Parser) (h : isNameChar p.peek = true) :
    p.pos < p.length := by
  by_contra hc
  unfold peek at h
  rw [if_neg hc] at h
  exact absurd h (by decide)

end Parser

theorem ext_parseNumLoop : ∀ (fuel : Nat) (x : Int) (p : Parser),
    Parser.Ext p (parseNumLoop fuel x p).2 := by
  intro fuel
  induction fuel with
  | zero => intro x p; exact Parser.Ext.refl p
  | succ f ih =>
    intro x p
    rw [parseNumLoop]
    split_ifs with h
    · have hlt := Parser.peek_lt_of_isNum p h
      exact Parser.Ext.trans (Parser.ext_jump p 1 (by omega)) (ih _ p.advance)
    · exact Parser.Ext.refl p

theorem ext_parseNameLoop : ∀ (fuel : Nat) (p : Parser),
    Parser.Ext p (parseNameLoop fuel p) := by
  intro fuel
  induction fuel with
  | zero => intro p; exact Parser.Ext.refl p
  | succ f ih =>
    intro p
    rw [parseNameLoop]
    split_ifs with h
    · have hlt := Parser.peek_lt_of_isNameChar p h
      exact Parser.Ext.trans (Parser.ext_jump p 1 (by omega)) (ih p.advance)
    · exact Parser.Ext.refl p

theorem ext_parseNum (p : Parser) :
    Parser.Ext p (parseNum p).2 ∧ (isNum p.peek = true → p.pos < (parseNum p).2.pos) := by
  unfold parseNum
  dsimp only
  refine ⟨Parser.Ext.trans (ext_parseNumLoop _ 0 p) (Parser.ext_skipSpace _), fun h => ?_⟩
  have hlt := Parser.peek_lt_of_isNum p h
  obtain ⟨g, hg⟩ : ∃ g, p.length - p.pos = g + 1 := ⟨p.length - p.pos - 1, by omega⟩
  rw [hg, parseNumLoop, if_pos h]
  have h1 := (ext_parseNumLoop g (wrapInt32 (0 * 10 + ((p.peek.toNat : Int) - 48))) p.advance).2.2.1
  have h2 := (Parser.ext_skipSpace
    (parseNumLoop g (wrapInt32 (0 * 10 + ((p.peek.toNat : Int) - 48))) p.advance).2).2.2.1
  have h3 : p.advance.pos = p.pos + 1 := rfl
  omega

theorem ext_parseName (p : Parser) :
    Parser.Ext p (parseName p).2 ∧ (isNameChar p.peek = true → p.pos < (parseName p).2.pos) := by
  unfold parseName
  dsimp only
  refine ⟨Parser.Ext.trans (ext_parseNameLoop _ p) (Parser.ext_skipSpace _), fun h => ?_⟩
  have hlt := Parser.peek_lt_of_isNameChar p h
  obtain ⟨g, hg⟩ : ∃ g, p.length - p.pos = g + 1 := ⟨p.length - p.pos - 1, by omega⟩
  rw [hg, parseNameLoop, if_pos h]
  have h1 := (ext_parseNameLoop g p.advance).2.2.1
  have h2 := (Parser.ext_skipSpace (parseNameLoop g p.advance)).2.2.1
  have h3 : p.advance.pos = p.pos + 1 := rfl
  omega

theorem parse_ext (f : Nat) :
    (∀ p r, parseExpr f p = some r → Parser.Ext p r.2) ∧
    (∀ a p r, parseExprLoop f a p = some r → Parser.Ext p r.2) ∧
    (∀ p r, parseBracket f p = some r → Parser.Ext p r.2) ∧
    (∀ p r, parseLet f p = some r → Parser.Ext p r.2) ∧
    (∀ p r, parseLambda f p = some r → Parser.Ext p r.2) := by
  induction f with
  | zero => simp [parseExpr, parseExprLoop, parseBracket, parseLet, parseLambda]
  | succ f ih =>
    obtain ⟨ihE, ihL, ihB, ihT, ihA⟩ := ih
    refine ⟨?_, ?_, ?_, ?_, ?_⟩
    · intro p r h
      rw [parseExpr] at h
      split at h
      · cases h
      · rename_i q heq
        cases h
        exact (ihL _ _ _ heq).fail _
      · rename_i ast q heq
        cases h
        exact ihL _ _ _ heq
    · intro a p r h
      rw [parseExprLoop] at h
      dsimp only at h
      have e1 := (ext_parseNum p).1
      have e2 := Parser.ext_matchId p ['l', 'e', 't'] true
      have e3 := Parser.ext_matchId p ['i', 'n'] false
      have e4 := Parser.Ext.trans e3 (ext_parseName (p.matchId ['i', 'n'] false).2).1
      have e5 := (Parser.ext_matchChar p '(').1
      have e6 := (Parser.ext_matchChar p '\\').1
      split_ifs at h
      all_goals first
        | (cases h
           first
             | exact Parser.Ext.refl _
             | exact e1
             | exact e3
             | exact e4)
        | exact Parser.Ext.trans e1 (ihL _ _ _ h)
        | exact Parser.Ext.trans e4 (ihL _ _ _ h)
        | skip
      all_goals
        split at h
        · cases h
        · rename_i arg q heq
          have e7 : Parser.Ext p q := by
            first
              | exact Parser.Ext.trans e2 (ihT _ _ heq)
              | exact Parser.Ext.trans e5 (ihB _ _ heq)
              | exact Parser.Ext.trans e6 (ihA _ _ heq)
          split_ifs at h
          · cases h
            exact e7
          · split at h
            · exact Parser.Ext.trans e7 (ihL _ _ _ h)
            · cases h
              exact e7
    · intro p r h
      rw [parseBracket] at h
      split at h
      · cases h
      · rename_i ret q heq
        have e1 : Parser.Ext p q := ihE _ _ heq
        have e2 := (Parser.ext_matchChar q ')').1
        split_ifs at h
        · cases h
          exact e1
        · cases h
          exact (Parser.Ext.trans e1 e2).fail _
        · cases h
          exact Parser.Ext.trans (Parser.Ext.trans e1 e2) (Parser.ext_skipSpace _)
    · intro p r h
      rw [parseLet] at h
      dsimp only at h
      have e1 := (ext_parseName p).1
      have e2 := Parser.Ext.trans e1 (Parser.ext_matchChar (parseName p).2 '=').1
      split_ifs at h
      · cases h
        exact (Parser.Ext.refl p).fail _
      · cases h
        exact e2.fail _
      · split at h
        · cases h
        · rename_i val q heq
          have e3 : Parser.Ext p q := Parser.Ext.trans e2 (ihE _ _ heq)
          have e4 := Parser.Ext.trans e3 (Parser.ext_matchId q ['i', 'n'] true)
          split_ifs at h
          · cases h
            exact e3.fail _
          · cases h
            exact e4.fail _
          · split at h
            · cases h
            · rename_i expr q2 heq2
              have e5 : Parser.Ext p q2 := Parser.Ext.trans e4 (ihE _ _ heq2)
              split_ifs at h
              · cases h
                exact e5.fail _
              · split at h
                · cases h
                  exact e5
                · cases h
                  exact e5
    · intro p r h
      rw [parseLambda] at h
      dsimp only at h
      have e1 := (ext_parseName p).1
      have e2 := Parser.Ext.trans e1 (Parser.ext_matchStr (parseName p).2 ['-', '>']).1
      split_ifs at h
      · cases h
        exact (Parser.Ext.refl p).fail _
      · cases h
        exact e2.fail _
      · split at h
        · cases h
        · rename_i q heq
          cases h
          exact Parser.Ext.trans e2 (ihE _ _ heq)
        · rename_i e q heq
          cases h
          exact Parser.Ext.trans e2 (ihE _ (some e, q) heq)

theorem matchId_false_snd (p : Parser) (s : List Char) : (p.matchId s false).2 = p := by
  unfold Parser.matchId
  dsimp only
  split_ifs <;> simp_all

theorem parse_total (f : Nat) :
    (∀ p, p.pos ≤ p.length → 3 * (p.length - p.pos) + 2 ≤ f → (parseExpr f p).isSome = true) ∧
    (∀ a p, p.pos ≤ p.length → 3 * (p.length - p.pos) + 1 ≤ f →
      (parseExprLoop f a p).isSome = true) ∧
    (∀ p, p.pos ≤ p.length → 3 * (p.length - p.pos) + 3 ≤ f →
      (parseBracket f p).isSome = true) ∧
    (∀ p, p.pos ≤ p.length → 3 * (p.length - p.pos) + 3 ≤ f → (parseLet f p).isSome = true) ∧
    (∀ p, p.pos ≤ p.length → 3 * (p.length - p.pos) + 3 ≤ f →
      (parseLambda f p).isSome = true) := by
  induction f with
  | zero =>
    refine ⟨?_, ?_, ?_, ?_, ?_⟩ <;> intros <;> omega
  | succ f ih =>
    obtain ⟨ihE, ihL, ihB, ihT, ihA⟩ := ih
    refine ⟨?_, ?_, ?_, ?_, ?_⟩
    · intro p hw hb
      rw [parseExpr]
      obtain ⟨⟨ast, q⟩, heq⟩ := Option.isSome_iff_exists.1 (ihL none p hw (by omega))
      rw [heq]
      cases ast <;> rfl
    · intro a p hw hb
      rw [parseExprLoop]
      dsimp only
      by_cases hfin : p.finished = true
      · rw [if_pos hfin]; rfl
      rw [if_neg hfin]
      have hlt : p.pos < p.length := by
        simpa [Parser.finished] using hfin
      by_cases hnum : isNum p.peek = true
      · rw [if_pos hnum]
        obtain ⟨q1, q2, q3, q4, _⟩ := (ext_parseNum p).1
        have q5 := (ext_parseNum p).2 hnum
        split_ifs
        · rfl
        · exact ihL _ _ (q4 hw) (by omega)
      rw [if_neg hnum]
      by_cases hname : isNameChar p.peek = true
      · rw [if_pos hname]
        by_cases hlet : (p.matchId ['l', 'e', 't'] true).1 = true
        · rw [if_pos hlet]
          obtain ⟨q1, q2, q3, q4, _⟩ := Parser.ext_matchId p ['l', 'e', 't'] true
          have q5 := Parser.adv_matchId p ['l', 'e', 't'] hlet
          simp only [List.length_cons, List.length_nil] at q5
          obtain ⟨⟨arg, q⟩, heq⟩ := Option.isSome_iff_exists.1
            (ihT (p.matchId ['l', 'e', 't'] true).2 (q4 hw) (by omega))
          obtain ⟨r1, r2, r3, r4, _⟩ := (parse_ext f).2.2.2.1 _ _ heq
          rw [heq]
          dsimp only
          split_ifs
          · rfl
          · cases arg with
            | none => rfl
            | some t => exact ihL _ _ (r4 (q4 hw)) (by dsimp only at r2 r3; omega)
        · rw [if_neg hlet]
          by_cases hin : (p.matchId ['i', 'n'] false).1 = true
          · rw [if_pos hin]; rfl
          · rw [if_neg hin, matchId_false_snd]
            obtain ⟨q1, q2, q3, q4, _⟩ := (ext_parseName p).1
            have q5 := (ext_parseName p).2 hname
            split_ifs
            · rfl
            · exact ihL _ _ (q4 hw) (by omega)
      rw [if_neg hname]
      by_cases hbr : (p.matchChar '(').1 = true
      · rw [if_pos hbr]
        obtain ⟨q1, q2, q3, q4, _⟩ := (Parser.ext_matchChar p '(').1
        have q5 := (Parser.ext_matchChar p '(').2 hbr
        obtain ⟨⟨arg, q⟩, heq⟩ := Option.isSome_iff_exists.1
          (ihB (p.matchChar '(').2 (q4 hw) (by omega))
        obtain ⟨r1, r2, r3, r4, _⟩ := (parse_ext f).2.2.1 _ _ heq
        rw [heq]
        dsimp only
        split_ifs
        · rfl
        · cases arg with
          | none => rfl
          | some t => exact ihL _ _ (r4 (q4 hw)) (by dsimp only at r2 r3; omega)
      rw [if_neg hbr]
      by_cases hla : (p.matchChar '\\').1 = true
      · rw [if_pos hla]
        obtain ⟨q1, q2, q3, q4, _⟩ := (Parser.ext_matchChar p '\\').1
        have q5 := (Parser.ext_matchChar p '\\').2 hla
        obtain ⟨⟨arg, q⟩, heq⟩ := Option.isSome_iff_exists.1
          (ihA (p.matchChar '\\').2 (q4 hw) (by omega))
        obtain ⟨r1, r2, r3, r4, _⟩ := (parse_ext f).2.2.2.2 _ _ heq
        rw [heq]
        dsimp only
        split_ifs
        · rfl
        · cases arg with
          | none => rfl
          | some t => exact ihL _ _ (r4 (q4 hw)) (by dsimp only at r2 r3; omega)
      rw [if_neg hla]
      rfl
    · intro p hw hb
      rw [parseBracket]
      obtain ⟨⟨ret, q⟩, heq⟩ := Option.isSome_iff_exists.1 (ihE p hw (by omega))
      rw [heq]
      dsimp only
      split_ifs <;> rfl
    · intro p hw hb
      rw [parseLet]
      dsimp only
      split_ifs
      · rfl
      · rfl
      · obtain ⟨q1, q2, q3, q4, _⟩ := Parser.Ext.trans (ext_parseName p).1
          (Parser.ext_matchChar (parseName p).2 '=').1
        obtain ⟨⟨val, q⟩, heq⟩ := Option.isSome_iff_exists.1
          (ihE ((parseName p).2.matchChar '=').2 (q4 hw) (by omega))
        obtain ⟨r1, r2, r3, r4, _⟩ := (parse_ext f).1 _ _ heq
        rw [heq]
        dsimp only
        split_ifs
        · rfl
        · rfl
        · obtain ⟨s1, s2, s3, s4, _⟩ := Parser.ext_matchId q ['i', 'n'] true
          obtain ⟨⟨expr, q'⟩, heq2⟩ := Option.isSome_iff_exists.1
            (ihE (q.matchId ['i', 'n'] true).2 (s4 (r4 (q4 hw)))
              (by dsimp only at r2 r3; omega))
          rw [heq2]
          dsimp only
          split_ifs
          · rfl
          · cases val <;> cases expr <;> rfl
    · intro p hw hb
      rw [parseLambda]
      dsimp only
      split_ifs
      · rfl
      · rfl
      · obtain ⟨q1, q2, q3, q4, _⟩ := Parser.Ext.trans (ext_parseName p).1
          (Parser.ext_matchStr (parseName p).2 ['-', '>']).1
        obtain ⟨⟨e, q⟩, heq⟩ := Option.isSome_iff_exists.1
          (ihE ((parseName p).2.matchStr ['-', '>']).2 (q4 hw) (by omega))
        rw [heq]
        cases e <;> rfl

/-! ## The parser reads nothing but the unread part of the line -/

namespace Parser

theorem Agree.of_ext {d : Nat} {s' : List Char} {p q : Parser} (h : Ext p q)
    (a : Agree d s' p.str p.length) : Agree d s' q.str q.length := by
  rw [h.1, h.2.1]
  exact a

theorem charAt_moved {d : Nat} {s' : List Char} {p : Parser} (a : Agree d s' p.str p.length)
    (i : Nat) (hi : i < p.length) : (moved d s' p).charAt (i + d) = p.charAt i :=
  a.2.2 i hi

theorem peek_moved {d : Nat} {s' : List Char} {p : Parser} (a : Agree d s' p.str p.length) :
    (moved d s' p).peek = p.peek := by
  unfold peek
  by_cases h : p.pos < p.length
  · have h2 : (moved d s' p).pos < (moved d s' p).length := by simp only [moved]; omega
    rw [if_pos h, if_pos h2]
    exact charAt_moved a p.pos h
  · have h2 : ¬ (moved d s' p).pos < (moved d s' p).length := by simp only [moved]; omega
    rw [if_neg h, if_neg h2]

theorem finished_moved (d : Nat) (s' : List Char) (p : Parser) :
    (moved d s' p).finished = p.finished := by
  simp [finished, moved]

theorem advance_moved (d : Nat) (s' : List Char) (p : Parser) :
    (moved d s' p).advance = moved d s' p.advance := by
  simp [advance, moved]
  omega

theorem fail_moved (d : Nat) (s' : List Char) (p : Parser) (msg : String) :
    (moved d s' p).fail msg = moved d s' (p.fail msg) := by
  simp [Parser.fail, moved]

theorem skipSpaceLoop_moved {d : Nat} {s' str : List Char} {length : Nat}
    (a : Agree d s' str length) : ∀ (fuel pos : Nat),
    skipSpaceLoop s' (length + d) fuel (pos + d) = skipSpaceLoop str length fuel pos + d := by
  intro fuel
  induction fuel with
  | zero => intro pos; rfl
  | succ f ih =>
    intro pos
    rw [skipSpaceLoop, skipSpaceLoop]
    by_cases h : pos < length
    · have h2 : pos + d < length + d := by omega
      rw [if_pos h, if_pos h2, a.2.2 pos h]
      split_ifs
      · have := ih (pos + 1)
        rw [show pos + 1 + d = pos + d + 1 by omega] at this
        exact this
      · rfl
    · have h2 : ¬ pos + d < length + d := by omega
      rw [if_neg h, if_neg h2]

theorem skipSpace_moved {d : Nat} {s' : List Char} {p : Parser}
    (a : Agree d s' p.str p.length) : (moved d s' p).skipSpace = moved d s' p.skipSpace := by
  have h := skipSpaceLoop_moved a (p.length - p.pos) p.pos
  have e : p.length + d - (p.pos + d) = p.length - p.pos := by omega
  simp only [skipSpace, moved, e, h]

theorem jump_moved (d : Nat) (s' : List Char) (p : Parser) (k : Nat) :
    ({ moved d s' p with pos := (moved d s' p).pos + k } : Parser) =
      moved d s' { p with pos := p.pos + k } := by
  simp [moved]
  omega

theorem agree_jump {d : Nat} {s' : List Char} {p : Parser} (a : Agree d s' p.str p.length)
    (k : Nat) : Agree d s' ({ p with pos := p.pos + k } : Parser).str
      ({ p with pos := p.pos + k } : Parser).length := a

theorem matchChar_moved {d : Nat} {s' : List Char} {p : Parser}
    (a : Agree d s' p.str p.length) (c : Char) :
    (moved d s' p).matchChar c = ((p.matchChar c).1, moved d s' (p.matchChar c).2) := by
  unfold matchChar
  by_cases h : p.pos < p.length
  · have h2 : (moved d s' p).pos < (moved d s' p).length := by simp only [moved]; omega
    have hc : (moved d s' p).charAt (moved d s' p).pos = p.charAt p.pos :=
      charAt_moved a p.pos h
    by_cases h3 : p.charAt p.pos = c
    · rw [if_pos ⟨h2, by rw [hc]; exact h3⟩, if_pos ⟨h, h3⟩, jump_moved,
        skipSpace_moved (agree_jump a 1)]
    · rw [if_neg (fun x => h3 (by rw [← hc]; exact x.2)), if_neg (fun x => h3 x.2)]
  · have h2 : ¬ (moved d s' p).pos < (moved d s' p).length := by simp only [moved]; omega
    rw [if_neg (fun x => h2 x.1), if_neg (fun x => h x.1)]

theorem sameAt_moved {d : Nat} {s' : List Char} {p : Parser} (a : Agree d s' p.str p.length) :
    ∀ (s : List Char) (i : Nat), p.pos + i + s.length ≤ p.length →
    sameAt (moved d s' p) s i = sameAt p s i := by
  intro s
  induction s with
  | nil => intro i _; rfl
  | cons c s ih =>
    intro i hi
    simp only [List.length_cons] at hi
    have hc : (moved d s' p).charAt ((moved d s' p).pos + i) = p.charAt (p.pos + i) := by
      have := charAt_moved a (p.pos + i) (by omega)
      rw [show (moved d s' p).pos + i = p.pos + i + d by simp only [moved]; omega]
      exact this
    rw [sameAt, sameAt, hc, ih (i + 1) (by omega)]

theorem matchStr_moved {d : Nat} {s' : List Char} {p : Parser}
    (a : Agree d s' p.str p.length) (s : List Char) :
    (moved d s' p).matchStr s = ((p.matchStr s).1, moved d s' (p.matchStr s).2) := by
  unfold matchStr
  dsimp only
  by_cases h : p.pos + s.length ≥ p.length
  · have h2 : (moved d s' p).pos + s.length ≥ (moved d s' p).length := by
      simp only [moved]; omega
    rw [if_pos h, if_pos h2]
  · have h2 : ¬ (moved d s' p).pos + s.length ≥ (moved d s' p).length := by
      simp only [moved]; omega
    rw [if_neg h, if_neg h2, sameAt_moved a s 0 (by omega)]
    split_ifs
    · rfl
    · rw [jump_moved, skipSpace_moved (agree_jump a s.length)]

theorem matchId_moved {d : Nat} {s' : List Char} {p : Parser}
    (a : Agree d s' p.str p.length) (s : List Char) (adv : Bool) :
    (moved d s' p).matchId s adv = ((p.matchId s adv).1, moved d s' (p.matchId s adv).2) := by
  unfold matchId
  dsimp only
  by_cases h : p.pos + s.length ≥ p.length
  · have h2 : (moved d s' p).pos + s.length ≥ (moved d s' p).length := by
      simp only [moved]; omega
    rw [if_pos h2, if_pos h]
  · have h2 : ¬ (moved d s' p).pos + s.length ≥ (moved d s' p).length := by
      simp only [moved]; omega
    rw [if_neg h2, if_neg h, sameAt_moved a s 0 (by omega)]
    by_cases h3 : (!sameAt p s 0) = true
    · rw [if_pos h3, if_pos h3]
    · rw [if_neg h3, if_neg h3]
      have c3 : ((moved d s' p).pos + s.length + 1 < (moved d s' p).length ∧
          (!isNameChar ((moved d s' p).charAt ((moved d s' p).pos + s.length + 1))) = true) ↔
          (p.pos + s.length + 1 < p.length ∧
            (!isNameChar (p.charAt (p.pos + s.length + 1))) = true) := by
        have e : (moved d s' p).pos + s.length + 1 = p.pos + s.length + 1 + d := by
          simp only [moved]; omega
        have l : (moved d s' p).length = p.length + d := rfl
        constructor
        · rintro ⟨x1, x2⟩
          have x3 : p.pos + s.length + 1 < p.length := by omega
          rw [e, charAt_moved a _ x3] at x2
          exact ⟨x3, x2⟩
        · rintro ⟨x1, x2⟩
          refine ⟨by omega, ?_⟩
          rw [e, charAt_moved a _ x1]
          exact x2
      by_cases h4 : p.pos + s.length + 1 < p.length ∧
          (!isNameChar (p.charAt (p.pos + s.length + 1))) = true
      · rw [if_pos (c3.2 h4), if_pos h4]
      · rw [if_neg (fun x => h4 (c3.1 x)), if_neg h4]
        cases adv with
        | true =>
          simp only [if_true]
          rw [jump_moved, skipSpace_moved (agree_jump a s.length)]
        | false => rfl

end Parser

theorem parseNumLoop_moved {d : Nat} {s' : List Char} : ∀ (fuel : Nat) (x : Int) (p : Parser),
    Agree d s' p.str p.length →
    parseNumLoop fuel x (Parser.moved d s' p) =
      ((parseNumLoop fuel x p).1, Parser.moved d s' (parseNumLoop fuel x p).2) := by
  intro fuel
  induction fuel with
  | zero => intro x p _; rfl
  | succ f ih =>
    intro x p a
    rw [parseNumLoop, parseNumLoop, Parser.peek_moved a]
    split_ifs
    · rw [Parser.advance_moved]
      exact ih _ p.advance a
    · rfl

theorem parseNum_moved {d : Nat} {s' : List Char} {p : Parser}
    (a : Agree d s' p.str p.length) :
    parseNum (Parser.moved d s' p) = ((parseNum p).1, Parser.moved d s' (parseNum p).2) := by
  unfold parseNum
  dsimp only
  have e : (Parser.moved d s' p).length - (Parser.moved d s' p).pos = p.length - p.pos := by
    simp only [Parser.moved]; omega
  rw [e, parseNumLoop_moved _ _ p a]
  dsimp only
  rw [Parser.skipSpace_moved (Parser.Agree.of_ext (ext_parseNumLoop _ _ p) a)]

theorem parseNameLoop_moved {d : Nat} {s' : List Char} : ∀ (fuel : Nat) (p : Parser),
    Agree d s' p.str p.length →
    parseNameLoop fuel (Parser.moved d s' p) = Parser.moved d s' (parseNameLoop fuel p) := by
  intro fuel
  induction fuel with
  | zero => intro p _; rfl
  | succ f ih =>
    intro p a
    rw [parseNameLoop, parseNameLoop, Parser.peek_moved a]
    split_ifs
    · rw [Parser.advance_moved]
      exact ih p.advance a
    · rfl

theorem parseNameLoop_pos : ∀ (fuel : Nat) (p : Parser),
    (parseNameLoop fuel p).pos = p.pos ∨ (parseNameLoop fuel p).pos ≤ p.length := by
  intro fuel p
  by_cases h : p.pos ≤ p.length
  · right
    have e := ext_parseNameLoop fuel p
    have := e.2.2.2.1 h
    rw [e.2.1] at this
    exact this
  · left
    cases fuel with
    | zero => rfl
    | succ f =>
      rw [parseNameLoop]
      have hp : p.peek = nul := by
        unfold Parser.peek
        rw [if_neg (by omega)]
      rw [hp, if_neg (by decide)]

theorem take_drop_agree {d : Nat} {s' str : List Char} {length : Nat}
    (a : Agree d s' str length) : ∀ (k start : Nat), start + k ≤ length →
    (s'.drop (start + d)).take k = (str.drop start).take k := by
  intro k
  induction k with
  | zero => intro start _; simp
  | succ k ih =>
    intro start h
    have h1 : start < str.length := by have := a.1; omega
    have h2 : start + d < s'.length := by have := a.2.1; omega
    have e1 : str.drop start = str[start] :: str.drop (start + 1) := by simp
    have e2 : s'.drop (start + d) = s'[start + d] :: s'.drop (start + d + 1) := by simp
    have e3 := a.2.2 start (by omega)
    rw [List.getD_eq_getElem _ _ h1, List.getD_eq_getElem _ _ h2] at e3
    have e4 := ih (start + 1) (by omega)
    rw [show start + 1 + d = start + d + 1 by omega] at e4
    rw [e1, e2, List.take_succ_cons, List.take_succ_cons, e3, e4]

theorem parseName_moved {d : Nat} {s' : List Char} {p : Parser}
    (a : Agree d s' p.str p.length) :
    parseName (Parser.moved d s' p) = ((parseName p).1, Parser.moved d s' (parseName p).2) := by
  unfold parseName
  dsimp only
  have e : (Parser.moved d s' p).length - (Parser.moved d s' p).pos = p.length - p.pos := by
    simp only [Parser.moved]; omega
  have ex := ext_parseNameLoop (p.length - p.pos) p
  rw [e, parseNameLoop_moved _ p a, Parser.skipSpace_moved (Parser.Agree.of_ext ex a)]
  congr 1
  show (s'.drop (p.pos + d)).take ((parseNameLoop (p.length - p.pos) p).pos + d - (p.pos + d)) =
    ((parseNameLoop (p.length - p.pos) p).str.drop p.pos).take
      ((parseNameLoop (p.length - p.pos) p).pos - p.pos)
  rw [ex.1, show (parseNameLoop (p.length - p.pos) p).pos + d - (p.pos + d) =
    (parseNameLoop (p.length - p.pos) p).pos - p.pos by omega]
  rcases parseNameLoop_pos (p.length - p.pos) p with h | h
  · rw [h]; simp
  · exact take_drop_agree a _ _ (by have := ex.2.2.1; omega)

theorem moved_ok (d : Nat) (s' : List Char) (p : Parser) :
    (Parser.moved d s' p).ok = p.ok := rfl

theorem parse_moved (d : Nat) (s' : List Char) (f : Nat) :
    (∀ p, Agree d s' p.str p.length →
      parseExpr f (Parser.moved d s' p) =
        (parseExpr f p).map (fun r => (r.1, Parser.moved d s' r.2))) ∧
    (∀ o p, Agree d s' p.str p.length →
      parseExprLoop f o (Parser.moved d s' p) =
        (parseExprLoop f o p).map (fun r => (r.1, Parser.moved d s' r.2))) ∧
    (∀ p, Agree d s' p.str p.length →
      parseBracket f (Parser.moved d s' p) =
        (parseBracket f p).map (fun r => (r.1, Parser.moved d s' r.2))) ∧
    (∀ p, Agree d s' p.str p.length →
      parseLet f (Parser.moved d s' p) =
        (parseLet f p).map (fun r => (r.1, Parser.moved d s' r.2))) ∧
    (∀ p, Agree d s' p.str p.length →
      parseLambda f (Parser.moved d s' p) =
        (parseLambda f p).map (fun r => (r.1, Parser.moved d s' r.2))) := by
  induction f with
  | zero => simp [parseExpr, parseExprLoop, parseBracket, parseLet, parseLambda]
  | succ f ih =>
    obtain ⟨ihE, ihL, ihB, ihT, ihA⟩ := ih
    refine ⟨?_, ?_, ?_, ?_, ?_⟩
    · intro p a
      rw [parseExpr, parseExpr, ihL none p a]
      cases h : parseExprLoop f none p with
      | none => rfl
      | some r =>
        obtain ⟨ast, q⟩ := r
        cases ast with
        | none =>
          simp only [Option.map_some']
          rw [Parser.fail_moved]
        | some t => rfl
    · intro o p a
      have a1 := Parser.Agree.of_ext (ext_parseNum p).1 a
      have a2 := Parser.Agree.of_ext (Parser.ext_matchId p ['l', 'e', 't'] true) a
      have a3 := Parser.Agree.of_ext (Parser.ext_matchId p ['i', 'n'] false) a
      have a4 := Parser.Agree.of_ext (ext_parseName (p.matchId ['i', 'n'] false).2).1 a3
      have a5 := Parser.Agree.of_ext (Parser.ext_matchChar p '(').1 a
      have a6 := Parser.Agree.of_ext (Parser.ext_matchChar p '\\').1 a
      rw [parseExprLoop, parseExprLoop]
      simp only [Parser.finished_moved, Parser.peek_moved a, parseNum_moved a,
        Parser.matchId_moved a, Parser.matchChar_moved a, parseName_moved a3,
        ihT _ a2, ihB _ a5, ihA _ a6, ihL _ _ a1, ihL _ _ a4, moved_ok]
      split_ifs
      all_goals first
        | rfl
        | skip
      all_goals
        split
        · rename_i heq
          first
            | (cases hq : parseLet f (p.matchId ['l', 'e', 't'] true).2 <;> rw [hq] at heq)
            | (cases hq : parseBracket f (p.matchChar '(').2 <;> rw [hq] at heq)
            | (cases hq : parseLambda f (p.matchChar '\\').2 <;> rw [hq] at heq)
          · rfl
          · simp at heq
        · rename_i arg q' heq
          first
            | (cases hq : parseLet f (p.matchId ['l', 'e', 't'] true).2 <;> rw [hq] at heq)
            | (cases hq : parseBracket f (p.matchChar '(').2 <;> rw [hq] at heq)
            | (cases hq : parseLambda f (p.matchChar '\\').2 <;> rw [hq] at heq)
          · simp at heq
          · rename_i r
            obtain ⟨arg0, q⟩ := r
            simp only [Option.map_some', Option.some.injEq, Prod.mk.injEq] at heq
            obtain ⟨rfl, rfl⟩ := heq
            have aq : Agree d s' q.str q.length := by
              first
                | exact Parser.Agree.of_ext ((parse_ext f).2.2.2.1 _ _ hq) a2
                | exact Parser.Agree.of_ext ((parse_ext f).2.2.1 _ _ hq) a5
                | exact Parser.Agree.of_ext ((parse_ext f).2.2.2.2 _ _ hq) a6
            simp only [moved_ok]
            split_ifs
            · rfl
            · cases arg0 with
              | none => rfl
              | some t => exact ihL _ q aq
    · intro p a
      rw [parseBracket, parseBracket, ihE p a]
      cases hq : parseExpr f p with
      | none => rfl
      | some r =>
        obtain ⟨ret, q⟩ := r
        have aq := Parser.Agree.of_ext ((parse_ext f).1 _ _ hq) a
        have am := Parser.Agree.of_ext (Parser.ext_matchChar q ')').1 aq
        simp only [Option.map_some', moved_ok, Parser.matchChar_moved aq, Parser.fail_moved,
          Parser.skipSpace_moved am]
        split_ifs <;> rfl
    · intro p a
      have a1 := Parser.Agree.of_ext (ext_parseName p).1 a
      have a2 := Parser.Agree.of_ext (Parser.ext_matchChar (parseName p).2 '=').1 a1
      rw [parseLet, parseLet]
      simp only [Parser.peek_moved a, parseName_moved a, Parser.matchChar_moved a1,
        Parser.fail_moved, ihE _ a2]
      split_ifs
      · rfl
      · rfl
      · cases hq : parseExpr f ((parseName p).2.matchChar '=').2 with
        | none => rfl
        | some r =>
          obtain ⟨val, q⟩ := r
          have aq := Parser.Agree.of_ext ((parse_ext f).1 _ _ hq) a2
          have a3 := Parser.Agree.of_ext (Parser.ext_matchId q ['i', 'n'] true) aq
          simp only [Option.map_some', moved_ok, Parser.matchId_moved aq, Parser.fail_moved,
            ihE _ a3]
          split_ifs
          · rfl
          · rfl
          · cases hq2 : parseExpr f (q.matchId ['i', 'n'] true).2 with
            | none => rfl
            | some r2 =>
              obtain ⟨expr, q2⟩ := r2
              simp only [Option.map_some', moved_ok, Parser.fail_moved]
              split_ifs
              · rfl
              · cases val <;> cases expr <;> rfl
    · intro p a
      have a1 := Parser.Agree.of_ext (ext_parseName p).1 a
      have a2 := Parser.Agree.of_ext (Parser.ext_matchStr (parseName p).2 ['-', '>']).1 a1
      rw [parseLambda, parseLambda]
      simp only [Parser.peek_moved a, parseName_moved a, Parser.matchStr_moved a1,
        Parser.fail_moved, ihE _ a2]
      split_ifs
      · rfl
      · rfl
      · cases hq : parseExpr f ((parseName p).2.matchStr ['-', '>']).2 with
        | none => rfl
        | some r =>
          obtain ⟨e, q⟩ := r
          cases e <;> rfl

/-! ## Totality of the parser -/

theorem loop_step (f : Nat) (o : Option Tree) (p : Parser) (r : Option Tree × Parser)
    (h : parseExprLoop (f + 1) o p = some r) :
    r = (o, p) ∨ ∃ p1, p.pos < p1.pos ∧
      (r = (o, p1) ∨ ∃ o', parseExprLoop f o' p1 = some r) := by
  rw [parseExprLoop] at h
  dsimp only at h
  by_cases hfin : p.finished = true
  · rw [if_pos hfin] at h
    cases h
    exact Or.inl rfl
  rw [if_neg hfin] at h
  by_cases hnum : isNum p.peek = true
  · rw [if_pos hnum] at h
    have q5 := (ext_parseNum p).2 hnum
    right
    refine ⟨(parseNum p).2, q5, ?_⟩
    split_ifs at h
    · cases h
      exact Or.inl rfl
    · exact Or.inr ⟨_, h⟩
  rw [if_neg hnum] at h
  by_cases hname : isNameChar p.peek = true
  · rw [if_pos hname] at h
    by_cases hlet : (p.matchId ['l', 'e', 't'] true).1 = true
    · rw [if_pos hlet] at h
      have q5 := Parser.adv_matchId p ['l', 'e', 't'] hlet
      simp only [List.length_cons, List.length_nil] at q5
      split at h
      · cases h
      · rename_i arg q heq
        have q6 := ((parse_ext f).2.2.2.1 _ _ heq).2.2.1
        right
        refine ⟨q, by dsimp only at q6; omega, ?_⟩
        split_ifs at h
        · cases h
          exact Or.inl rfl
        · split at h
          · exact Or.inr ⟨_, h⟩
          · cases h
            exact Or.inl rfl
    · rw [if_neg hlet] at h
      by_cases hin : (p.matchId ['i', 'n'] false).1 = true
      · rw [if_pos hin, matchId_false_snd] at h
        cases h
        exact Or.inl rfl
      · rw [if_neg hin, matchId_false_snd] at h
        have q5 := (ext_parseName p).2 hname
        right
        refine ⟨(parseName p).2, q5, ?_⟩
        split_ifs at h
        · cases h
          exact Or.inl rfl
        · exact Or.inr ⟨_, h⟩
  rw [if_neg hname] at h
  by_cases hbr : (p.matchChar '(').1 = true
  · rw [if_pos hbr] at h
    have q5 := (Parser.ext_matchChar p '(').2 hbr
    split at h
    · cases h
    · rename_i arg q heq
      have q6 := ((parse_ext f).2.2.1 _ _ heq).2.2.1
      right
      refine ⟨q, by dsimp only at q6; omega, ?_⟩
      split_ifs at h
      · cases h
        exact Or.inl rfl
      · split at h
        · exact Or.inr ⟨_, h⟩
        · cases h
          exact Or.inl rfl
  rw [if_neg hbr] at h
  by_cases hla : (p.matchChar '\\').1 = true
  · rw [if_pos hla] at h
    have q5 := (Parser.ext_matchChar p '\\').2 hla
    split at h
    · cases h
    · rename_i arg q heq
      have q6 := ((parse_ext f).2.2.2.2 _ _ heq).2.2.1
      right
      refine ⟨q, by dsimp only at q6; omega, ?_⟩
      split_ifs at h
      · cases h
        exact Or.inl rfl
      · split at h
        · exact Or.inr ⟨_, h⟩
        · cases h
          exact Or.inl rfl
  rw [if_neg hla] at h
  cases h
  exact Or.inl rfl

theorem agree_self (s junk : List Char) : Agree 0 (s ++ junk) s s.length := by
  refine ⟨le_refl _, by simp, fun i hi => ?_⟩
  simp only [Nat.add_zero]
  rw [List.getD_eq_getElem _ _ (by simp; omega), List.getD_eq_getElem _ _ hi,
    List.getElem_append_left]

/-- C20. With fuel `3 * |s| + 2` or more, `parseExpr` returns on every line `s`, with the
cursor inside the line. Every pass through the atom loop either leaves the loop where it
stands, or moves the cursor forward by at least one character before it leaves or goes on.
For each of the five parse functions, started with the cursor inside the line, the cursor
at the return is not before the one at the call and not after the end of the line. The
result does not depend on what the text holds outside the line: on a text `s'` that holds
the line from offset `d` (anything before and after it), the parser does the same, all
positions moved by `d`. -/
theorem parser_is_total (s : List Char) (fuel : Nat) (hf : 3 * s.length + 2 ≤ fuel) :
    (∃ res q, parseLine fuel s = some (res, q) ∧ q.str = s ∧ q.length = s.length ∧
      q.pos ≤ s.length) ∧
    (∀ f o p r, parseExprLoop (f + 1) o p = some r →
      r = (o, p) ∨ ∃ p1, p.pos < p1.pos ∧
        (r = (o, p1) ∨ ∃ o', parseExprLoop f o' p1 = some r)) ∧
    (∀ f p r, p.pos ≤ p.length →
      (parseExpr f p = some r ∨ (∃ o, parseExprLoop f o p = some r) ∨
        parseBracket f p = some r ∨ parseLet f p = some r ∨ parseLambda f p = some r) →
      p.pos ≤ r.2.pos ∧ r.2.pos ≤ r.2.length ∧ r.2.length = p.length) ∧
    (∀ d s', Agree d s' s s.length →
      parseExpr fuel (Parser.moved d s' (Parser.init s)) =
        (parseLine fuel s).map (fun r => (r.1, Parser.moved d s' r.2))) := by
  refine ⟨?_, loop_step, ?_, ?_⟩
  · have h := (parse_total fuel).1 (Parser.init s) (Nat.zero_le _)
      (by simpa [Parser.init] using hf)
    obtain ⟨⟨res, q⟩, hq⟩ := Option.isSome_iff_exists.1 h
    obtain ⟨e1, e2, _, e4, _⟩ := (parse_ext fuel).1 _ _ hq
    refine ⟨res, q, hq, e1, e2, ?_⟩
    have := e4 (Nat.zero_le _)
    rw [e2] at this
    exact this
  · intro f p r hw h
    have e : Parser.Ext p r.2 := by
      rcases h with h | ⟨o, h⟩ | h | h | h
      · exact (parse_ext f).1 _ _ h
      · exact (parse_ext f).2.1 _ _ _ h
      · exact (parse_ext f).2.2.1 _ _ h
      · exact (parse_ext f).2.2.2.1 _ _ h
      · exact (parse_ext f).2.2.2.2 _ _ h
    exact ⟨e.2.2.1, e.2.2.2.1 hw, e.2.1⟩
  · intro d s' a
    exact (parse_moved d s' fuel).1 (Parser.init s) a

/-- The line `a b`, with fuel 11. -/
theorem parser_is_total_witness :
    3 * "a b".toList.length + 2 ≤ 11 ∧
    (∃ res q, parseLine 11 "a b".toList = some (res, q) ∧ q.str = "a b".toList ∧
      q.length = "a b".toList.length ∧ q.pos ≤ "a b".toList.length) ∧
    (∀ f o p r, parseExprLoop (f + 1) o p = some r →
      r = (o, p) ∨ ∃ p1, p.pos < p1.pos ∧
        (r = (o, p1) ∨ ∃ o', parseExprLoop f o' p1 = some r)) ∧
    (∀ f p r, p.pos ≤ p.length →
      (parseExpr f p = some r ∨ (∃ o, parseExprLoop f o p = some r) ∨
        parseBracket f p = some r ∨ parseLet f p = some r ∨ parseLambda f p = some r) →
      p.pos ≤ r.2.pos ∧ r.2.pos ≤ r.2.length ∧ r.2.length = p.length) ∧
    (∀ d s', Agree d s' "a b".toList "a b".toList.length →
      parseExpr 11 (Parser.moved d s' (Parser.init "a b".toList)) =
        (parseLine 11 "a b".toList).map (fun r => (r.1, Parser.moved d s' r.2))) :=
  ⟨by decide, parser_is_total "a b".toList 11 (by decide)⟩

/-! ## Unterminated bracket -/

theorem agree_cons (c : Char) (s : List Char) : Agree 1 (c :: s) s s.length := by
  refine ⟨le_refl _, by simp, fun i _ => ?_⟩
  rw [List.getD_cons_succ]

theorem head_of_parse_ok {f : Nat} {s : List Char} {res : Option Tree} {q : Parser}
    (hp : parseLine f s = some (res, q)) (hok : q.ok = true) :
    ∀ c ∈ s.head?, isSpace c = false := by
  intro c hc
  cases s with
  | nil => simp at hc
  | cons c0 r =>
    simp only [List.head?_cons, Option.mem_def, Option.some.injEq] at hc
    subst hc
    by_contra hs
    have hsp : isSpace c0 = true := by simpa using hs
    have h1 : isNum c0 = false := isNum_of_isSpace hsp
    have h2 : isNameChar c0 = false := by
      rw [isSpace_iff] at hsp
      rw [Bool.eq_false_iff, Ne, isNameChar_iff]
      omega
    have h3 : c0 ≠ '(' := by
      intro e; rw [e] at hsp; exact absurd hsp (by decide)
    have h4 : c0 ≠ '\\' := by
      intro e; rw [e] at hsp; exact absurd hsp (by decide)
    cases f with
    | zero => simp [parseLine, parseExpr] at hp
    | succ f =>
      cases f with
      | zero => simp [parseLine, parseExpr, parseExprLoop] at hp
      | succ g =>
        rw [parseLine, Parser.init_eq_cur, parseExpr, loop_break g none [] r c0 h1 h2 h3 h4] at hp
        simp only [Option.some.injEq, Prod.mk.injEq] at hp
        rw [← hp.2] at hok
        simp [Parser.fail] at hok

theorem init_cons_moved (s : List Char) :
    Parser.cur ['('] s = Parser.moved 1 ('(' :: s) (Parser.init s) := by
  simp [Parser.cur, Parser.moved, Parser.init]
  omega

/-- C13. For every text `s` on which `parseExpr` succeeds with the whole of `s` consumed,
parsing the line `(` followed by `s` fails, with enough fuel: the parser stops at the end
of the line, offset `|s| + 1`, where it reports `Expected ')'` and then
`Expected expression`; the line handler prints nothing. -/
theorem unterminated_bracket_fails (s : List Char) (f : Nat) (res : Option Tree) (q : Parser)
    (hp : parseLine f s = some (res, q)) (hok : q.ok = true) (hend : q.pos = q.length) :
    ∃ F, ∀ fuel, F ≤ fuel →
      parseLine fuel ('(' :: s) =
        some (none, { str := '(' :: s, length := s.length + 1, pos := s.length + 1, ok := false,
                      errs := [("Expected ')'", s.length + 1),
                               ("Expected expression", s.length + 1)] }) ∧
      processLine fuel ('(' :: s) = some Output.nothing := by
  have hx := (parse_ext f).1 _ _ hp
  obtain ⟨x1, x2, _, _, x5⟩ := hx
  have herrs : q.errs = [] := (x5 hok).2
  have hlen : q.length = s.length := x2
  have hstr : q.str = s := x1
  have hhead := head_of_parse_ok hp hok
  have ha : Agree 1 ('(' :: s) s s.length := agree_cons '(' s
  have haq : Agree 1 ('(' :: s) q.str q.length := by rw [hstr, hlen]; exact ha
  have hm : q.matchChar ')' = (false, q) := by
    unfold Parser.matchChar
    rw [if_neg (fun x => by have := x.1; omega)]
  refine ⟨f + 3, fun fuel hf => ?_⟩
  obtain ⟨g, rfl⟩ : ∃ g, fuel = g + 3 := ⟨fuel - 3, by omega⟩
  have hp2 : parseExpr g (Parser.init s) = some (res, q) :=
    parseExpr_fuel_mono (by omega) hp
  have hb : parseBracket (g + 1) (Parser.moved 1 ('(' :: s) (Parser.init s)) =
      some (none, (Parser.moved 1 ('(' :: s) q).fail "Expected ')'") := by
    rw [parseBracket, (parse_moved 1 ('(' :: s) g).1 (Parser.init s) ha, hp2]
    simp only [Option.map_some', moved_ok, hok, Parser.matchChar_moved haq, hm]
    simp
  have hl : parseExprLoop (g + 2) none (Parser.cur [] ('(' :: s)) =
      some (none, (Parser.moved 1 ('(' :: s) q).fail "Expected ')'") := by
    rw [parseExprLoop, Parser.finished_cur_cons, Parser.peek_cur_cons,
      show isNum '(' = false from by decide, show isNameChar '(' = false from by decide,
      Parser.matchChar_cur_cons, skipSpace_cur_head _ _ hhead, List.nil_append,
      init_cons_moved]
    simp only [hb]
    simp [Parser.fail]
  have hfin : parseLine (g + 3) ('(' :: s) =
      some (none, { str := '(' :: s, length := s.length + 1, pos := s.length + 1, ok := false,
                    errs := [("Expected ')'", s.length + 1),
                             ("Expected expression", s.length + 1)] }) := by
    rw [parseLine, Parser.init_eq_cur, parseExpr, hl]
    simp [Parser.fail, Parser.moved, herrs, hend, hlen]
  exact ⟨hfin, processLine_of_fail hfin rfl⟩

/-- The line `(3` fails at offset 2. -/
theorem unterminated_bracket_fails_witness :
    parseLine 3 "3".toList = some (some (Ast.Num 3), Parser.done "3".toList) ∧
    (Parser.done "3".toList).ok = true ∧
    (Parser.done "3".toList).pos = (Parser.done "3".toList).length ∧
    '(' :: "3".toList = "(3".toList ∧
    ∃ F, ∀ fuel, F ≤ fuel →
      parseLine fuel ('(' :: "3".toList) =
        some (none, { str := '(' :: "3".toList, length := "3".toList.length + 1,
                      pos := "3".toList.length + 1, ok := false,
                      errs := [("Expected ')'", "3".toList.length + 1),
                               ("Expected expression", "3".toList.length + 1)] }) ∧
      processLine fuel ('(' :: "3".toList) = some Output.nothing :=
  ⟨by decide, by decide, by decide, by decide,
    unterminated_bracket_fails "3".toList 3 (some (Ast.Num 3)) (Parser.done "3".toList)
      (by decide) (by decide) (by decide)⟩

/-! ## Stack discipline of the bindings -/

/-- C16, the code at the failing input `reentrantLine`: the line parses to `reentrantTree`,
whose evaluation reaches, four applications deep, the reduction of the body `q 5` of
`\q -> q 5` in the `Environ` object 5 captured by that node, holding `q`, `t`. That call of
reduce returns successfully with the value `0`, and object 5 then holds one binding more
than at the call: the body re-reduces `\q -> q 5` through `g`, which replaces the node's
`env` field, so the `unput` at the end of `Lambda::apply` pops from the new `Environ` object
and not from the one the parameter was pushed to. The line prints `0`. -/
theorem reentrant_application_leaves_binding :
    (∀ fuel, 40 ≤ fuel →
      parseLine fuel reentrantLine = some (some reentrantTree, Parser.done reentrantLine)) ∧
    (load reentrantTree 0).1 = Ast.Application nodeW nodeT ∧
    (∀ k, evalTree (k + 9) reentrantTree =
      unputAfter 0 (unputAfter 3 (unputAfter 4 (unputAfter 7
        (reduce (k + 1) (Ast.Application (Ast.Var ['q']) (Ast.Num 5)) 5 reentrantState))))) ∧
    reentrantState.env 5 = [(['q'], nodeZ), (['t'], nodeS)] ∧
    (∀ fuel, 30 ≤ fuel → ∃ m,
      reduce fuel (Ast.Application (Ast.Var ['q']) (Ast.Num 5)) 5 reentrantState =
        some (⟨some (Ast.Num 0), true⟩, m) ∧
      m.env 5 = [(['q'], nodeY), (['q'], nodeZ), (['t'], nodeS)]) ∧
    (∀ fuel, 60 ≤ fuel → processLine fuel reentrantLine = some (Output.line ['0'])) := by
  refine ⟨fun fuel hf => parseLine_fuel_mono hf (by decide!), by decide, fun k => rfl, by decide,
    fun fuel hf => ?_, fun fuel hf => processLine_fuel_mono hf (by decide!)⟩
  obtain ⟨⟨r, m⟩, hm⟩ := Option.isSome_iff_exists.1
    (show (reduce 30 (Ast.Application (Ast.Var ['q']) (Ast.Num 5)) 5 reentrantState).isSome
      from by decide)
  have h2 : (r, m.env 5) =
      (⟨some (Ast.Num 0), true⟩, [(['q'], nodeY), (['q'], nodeZ), (['t'], nodeS)]) := by
    have h3 : (reduce 30 (Ast.Application (Ast.Var ['q']) (Ast.Num 5)) 5 reentrantState).map
        (fun x => (x.1, x.2.env 5)) =
        some (⟨some (Ast.Num 0), true⟩, [(['q'], nodeY), (['q'], nodeZ), (['t'], nodeS)]) := by
      decide
    rw [hm] at h3
    exact Option.some.inj h3
  refine ⟨m, ?_, (Prod.mk.inj h2).2⟩
  rw [← (Prod.mk.inj h2).1]
  exact reduce_fuel_mono hf hm

/-! ## The `env` field of the nodes that are applied -/

theorem get_mem : ∀ (env : Environ) (name : List Char) (v : Node),
    env.get name = some v → ∃ k, (k, v) ∈ env := by
  intro env
  induction env with
  | nil => intro name v h; simp [Environ.get] at h
  | cons pr rest ih =>
    obtain ⟨k, w⟩ := pr
    intro name v h
    rw [Environ.get] at h
    split_ifs at h
    · cases h
      exact ⟨k, List.mem_cons_self _ _⟩
    · obtain ⟨k2, hk⟩ := ih name v h
      exact ⟨k2, List.mem_cons_of_mem _ hk⟩

theorem env_mem (m : Machine) (e : Nat) (x : List Char × Node) (h : x ∈ m.env e) :
    ∃ env ∈ m.envs, x ∈ env := by
  unfold Machine.env at h
  by_cases he : e < m.envs.length
  · rw [List.getD_eq_getElem _ _ he] at h
    exact ⟨_, List.getElem_mem he, h⟩
  · rw [List.getD_eq_default _ _ (Nat.le_of_not_lt he)] at h
    simp at h

theorem mem_set_cases {α : Type} (l : List α) (i : Nat) (a x : α) (h : x ∈ l.set i a) :
    x ∈ l ∨ x = a := by
  rcases List.mem_or_eq_of_mem_set h with h | h
  · exact Or.inl h
  · exact Or.inr h

theorem stored_put {m : Machine} (h : m.Stored) (r : Nat) (key : List Char) (v : Node)
    (hv : ∀ addr var expr, v = Ast.Lambda addr var expr → (m.envOf addr).isSome = true) :
    (m.put r key v).Stored := by
  intro env henv k addr var expr hk
  rcases mem_set_cases _ _ _ _ henv with h1 | h1
  · exact h env h1 k addr var expr hk
  · subst h1
    rcases List.mem_cons.1 hk with h2 | h2
    · cases h2
      exact hv addr var expr rfl
    · obtain ⟨env2, he2, hx⟩ := env_mem m r _ h2
      exact h env2 he2 k addr var expr hx

theorem stored_unput {m : Machine} (h : m.Stored) (r : Nat) : (m.unput r).Stored := by
  intro env henv k addr var expr hk
  rcases mem_set_cases _ _ _ _ henv with h1 | h1
  · exact h env h1 k addr var expr hk
  · subst h1
    obtain ⟨env2, he2, hx⟩ := env_mem m r _ (List.mem_of_mem_tail hk)
    exact h env2 he2 k addr var expr hx

theorem envOf_capture (m : Machine) (addr r a : Nat) (h : (m.envOf a).isSome = true) :
    ((m.capture addr r).envOf a).isSome = true := by
  unfold Machine.envOf Machine.capture
  unfold Machine.envOf at h
  simp only [List.lookup]
  split
  · rfl
  · exact h

theorem envOf_capture_self (m : Machine) (addr r : Nat) :
    ((m.capture addr r).envOf addr).isSome = true := by
  simp [Machine.envOf, Machine.capture, List.lookup]

theorem stored_capture {m : Machine} (h : m.Stored) (addr r : Nat) :
    (m.capture addr r).Stored := by
  intro env henv k a var expr hk
  apply envOf_capture
  have henv2 : env ∈ m.envs ++ [(m.env r).copy] := henv
  rcases List.mem_append.1 henv2 with h1 | h1
  · exact h env h1 k a var expr hk
  · rw [List.mem_singleton] at h1
    subst h1
    rw [copy_eq] at hk
    obtain ⟨env2, he2, hx⟩ := env_mem m r _ hk
    exact h env2 he2 k a var expr hx

theorem keeps_fail (m : Machine) (hs : m.Stored) (hl : EvalError.noEnvironment ∉ m.log)
    (b : Bool) : Keeps m ⟨none, b⟩ m :=
  ⟨hs, hl, fun _ h => h, fun _ _ _ h => absurd h (by simp)⟩

theorem reduce_keeps (f : Nat) :
    (∀ node e m r q, reduce f node e m = some (r, q) → m.Stored →
      EvalError.noEnvironment ∉ m.log →
      Keeps m r q ∧ (r.ok = true → ∀ addr var expr, node = Ast.Lambda addr var expr →
        (q.envOf addr).isSome = true)) ∧
    (∀ addr var expr e arg m r q, apply f addr var expr e arg m = some (r, q) → m.Stored →
      EvalError.noEnvironment ∉ m.log → (m.envOf addr).isSome = true → Keeps m r q) := by
  induction f with
  | zero => simp [reduce, apply]
  | succ f ih =>
    obtain ⟨ihR, ihA⟩ := ih
    constructor
    · intro node e m r q h hs hl
      cases node with
      | Num n =>
        rw [reduce] at h
        cases h
        exact ⟨⟨hs, hl, fun _ h => h, fun _ _ _ h => absurd h (by simp)⟩,
          fun _ _ _ _ h => absurd h (by simp)⟩
      | Var name =>
        rw [reduce] at h
        split at h
        · rename_i v hv
          cases h
          refine ⟨⟨hs, hl, fun _ h => h, ?_⟩, fun _ _ _ _ h => absurd h (by simp)⟩
          intro addr var expr hr
          cases hr
          obtain ⟨k, hk⟩ := get_mem _ _ _ hv
          obtain ⟨env2, he2, hx⟩ := env_mem m e _ hk
          exact hs env2 he2 k addr var expr hx
        · cases h
          refine ⟨⟨hs, ?_, fun _ h => h, fun _ _ _ h => absurd h (by simp)⟩,
            fun _ _ _ _ h => absurd h (by simp)⟩
          simpa [Machine.report] using hl
      | Lambda addr var expr =>
        rw [reduce] at h
        cases h
        refine ⟨⟨stored_capture hs addr e, hl, fun a ha => envOf_capture m addr e a ha, ?_⟩, ?_⟩
        · intro a v x hr
          cases hr
          exact envOf_capture_self m _ e
        · intro _ a v x hn
          cases hn
          exact envOf_capture_self m _ e
      | Application fn arg =>
        refine ⟨?_, fun _ _ _ _ h => absurd h (by simp)⟩
        rw [reduce] at h
        split at h
        · exact absurd h (by simp)
        · rename_i r1 m1 heq
          obtain ⟨⟨hs1, hl1, hm1, hr1⟩, _⟩ := ihR _ _ _ _ _ heq hs hl
          split_ifs at h
          · cases h
            exact ⟨hs1, hl1, hm1, fun _ _ _ h => absurd h (by simp)⟩
          · split at h
            · rename_i addr var expr hret
              obtain ⟨hs2, hl2, hm2, hr2⟩ :=
                ihA _ _ _ _ _ _ _ _ h hs1 hl1 (hr1 addr var expr hret)
              exact ⟨hs2, hl2, fun a ha => hm2 a (hm1 a ha), hr2⟩
            · cases h
              refine ⟨hs1, ?_, hm1, fun _ _ _ h => absurd h (by simp)⟩
              simpa [Machine.report] using hl1
      | Let var value expr =>
        refine ⟨?_, fun _ _ _ _ h => absurd h (by simp)⟩
        rw [reduce] at h
        split at h
        · exact absurd h (by simp)
        · rename_i r1 m1 heq
          obtain ⟨⟨hs1, hl1, hm1, hr1⟩, hself⟩ := ihR _ _ _ _ _ heq hs hl
          split_ifs at h with hok
          · cases h
            exact ⟨hs1, hl1, hm1, fun _ _ _ h => absurd h (by simp)⟩
          · split at h
            · exact absurd h (by simp)
            · rename_i r2 m2 heq2
              cases h
              have hok1 : r1.ok = true := by simpa using hok
              obtain ⟨⟨hs2, hl2, hm2, hr2⟩, _⟩ := ihR _ _ _ _ _ heq2
                (stored_put hs1 e var value (fun a v x hv => hself hok1 a v x hv)) hl1
              exact ⟨stored_unput hs2 e, hl2, fun a ha => hm2 a (hm1 a ha), hr2⟩
    · intro addr var expr e arg m r q h hs hl hset
      rw [apply] at h
      split at h
      · rename_i hnone
        rw [hnone] at hset
        exact absurd hset (by simp)
      · split at h
        · exact absurd h (by simp)
        · rename_i r1 m1 heq
          obtain ⟨⟨hs1, hl1, hm1, hr1⟩, hself⟩ := ihR _ _ _ _ _ heq hs hl
          dsimp only at h
          split_ifs at h with hok
          · cases h
            exact ⟨hs1, hl1, hm1, fun _ _ _ h => absurd h (by simp)⟩
          · split at h
            · exact absurd h (by simp)
            · rename_i r2 m2 heq2
              cases h
              have hok1 : r1.ok = true := by simpa using hok
              obtain ⟨⟨hs2, hl2, hm2, hr2⟩, _⟩ := ihR _ _ _ _ _ heq2
                (stored_put hs1 _ var arg (fun a v x hv => hself hok1 a v x hv)) hl1
              exact ⟨stored_unput hs2 _, hl2, fun a ha => hm2 a (hm1 a ha), hr2⟩

theorem fresh_stored : Machine.fresh.Stored := by
  intro env henv k addr var expr hk
  simp [Machine.fresh] at henv
  subst henv
  simp at hk

/-- C17: `No environment` is unreachable from the top level. Whenever the evaluation of a
tree, started as in `main` from the one empty `Environ`, returns, nothing was written to the
`No environment` branch of `Lambda::apply`, every `Lambda` node held by a binding of any
`Environ` object has its `env` field set, and so has a `Lambda` node that is returned. The
same holds call by call: from any state in which the stored `Lambda` nodes have the field
set, a function position that reduces to a `Lambda` node yields one whose field is set, which
is the state in which `Application::operator()` calls `apply`. -/
theorem no_environment_is_unreachable (fuel : Nat) (t : Tree) (r : Outcome) (m : Machine)
    (h : evalTree fuel t = some (r, m)) :
    (EvalError.noEnvironment ∉ m.log ∧ m.Stored ∧ Returned r m) ∧
    (∀ (f e : Nat) (fn : Node) (m1 m2 : Machine) (r1 : Outcome) (addr : Nat) (var : List Char)
      (expr : Node), m1.Stored → EvalError.noEnvironment ∉ m1.log →
      reduce f fn e m1 = some (r1, m2) → r1.ret = some (Ast.Lambda addr var expr) →
      (m2.envOf addr).isSome = true ∧ m2.Stored ∧ EvalError.noEnvironment ∉ m2.log) := by
  constructor
  · obtain ⟨⟨hs, hl, _, hr⟩, _⟩ :=
      (reduce_keeps fuel).1 _ _ _ _ _ h fresh_stored (by simp [Machine.fresh])
    exact ⟨hl, hs, hr⟩
  · intro f e fn m1 m2 r1 addr var expr hs hl hred hret
    obtain ⟨⟨hs2, hl2, _, hr2⟩, _⟩ := (reduce_keeps f).1 _ _ _ _ _ hred hs hl
    exact ⟨hr2 addr var expr hret, hs2, hl2⟩

theorem no_environment_is_unreachable_witness :
    evalTree 4 (Ast.Application (Ast.Lambda () ['x'] (Ast.Var ['x']))
        (Ast.Lambda () ['y'] (Ast.Var ['y']))) =
      some (⟨some (Ast.Lambda 1 ['y'] (Ast.Var ['y'])), true⟩,
        ⟨[[], [], []], [(1, 2), (0, 1)], []⟩) ∧
    EvalError.noEnvironment ∉ (⟨[[], [], []], [(1, 2), (0, 1)], []⟩ : Machine).log ∧
    (⟨[[], [], []], [(1, 2), (0, 1)], []⟩ : Machine).Stored ∧
    Returned ⟨some (Ast.Lambda 1 ['y'] (Ast.Var ['y'])), true⟩
      ⟨[[], [], []], [(1, 2), (0, 1)], []⟩ :=
  ⟨by decide, (no_environment_is_unreachable 4
    (Ast.Application (Ast.Lambda () ['x'] (Ast.Var ['x'])) (Ast.Lambda () ['y'] (Ast.Var ['y'])))
    ⟨some (Ast.Lambda 1 ['y'] (Ast.Var ['y'])), true⟩ ⟨[[], [], []], [(1, 2), (0, 1)], []⟩
    (by decide)).1⟩

end jit
